import Mathlib

/-! Event streaming engine (`pkg/events/events.go`).

A shallow embedding of the call-frame differ (`printString`, `printCall`,
`callToEvents`), of the selector resolution (`Watch`, `findRunByThreadName`)
and of the run-chain traversal (`printRun`, `printParent`, `streamEvents`),
followed by theorems about them.

Conventions of the embedding.

* A Go `string` is a byte sequence on which the code only uses equality,
  length, slicing at a byte offset and the `strings` helpers below, all of
  which are positional.  It is embedded as `List Char`, one list element per
  byte; the control markers of the source are ASCII.
* A Go channel written by the code is embedded as the list of values sent, in
  the order sent.
* A Go `map` that is only read by key is embedded as a function (the zero
  value being returned for an absent key) or, where the code ranges over it,
  as an association list in the order of one visit; another `range` over the
  same map may visit the entries in another order.
* `time.Time` is embedded as a natural number, `0` being the zero time.
-/

namespace Events

/-- A Go string: a sequence of bytes. -/
abbrev Str := List Char

/-! ## The `strings` helpers used by the source -/

/-- Go `strings.HasPrefix(s, p)`. -/
def HasPrefix (s p : Str) : Bool := p.isPrefixOf s

/-- Go `strings.CutPrefix(s, p)`: the rest of `s` after `p` and `true`, or `s` and `false`. -/
def CutPrefix (s p : Str) : Str × Bool :=
  if HasPrefix s p then (s.drop p.length, true) else (s, false)

/-- Go `strings.TrimPrefix(s, p)`. -/
def TrimPrefix (s p : Str) : Str :=
  if HasPrefix s p then s.drop p.length else s

/-- Search of the first occurrence of `sep` in `s`: the text before it and the text after it. -/
def cutAt (sep : Str) : Str → Option (Str × Str)
  | [] => if HasPrefix [] sep then some ([], []) else none
  | c :: t =>
    if HasPrefix (c :: t) sep then some ([], (c :: t).drop sep.length)
    else match cutAt sep t with
      | some (before, after) => some (c :: before, after)
      | none => none

/-- Go `strings.Cut(s, sep)`: `(before, after, found)`. -/
def Cut (s sep : Str) : Str × Str × Bool :=
  match cutAt sep s with
  | some (before, after) => (before, after, true)
  | none => (s, [], false)

/-- The loop of Go `strings.Split(s, sep)` for a non-empty `sep`, with an explicit bound on the
number of pieces. -/
def splitLoop (sep : Str) : Nat → Str → List Str
  | 0, s => [s]
  | fuel + 1, s =>
    match cutAt sep s with
    | some (before, after) => before :: splitLoop sep fuel after
    | none => [s]

/-- Go `strings.Split(s, sep)` for a non-empty `sep` (the only use in the source): the pieces of
`s` between the occurrences of `sep`.  There are at most `len(s)` occurrences. -/
def Split (s sep : Str) : List Str := splitLoop sep s.length s

/-- Go `fmt.Sprintf("%d", n)` for a non-negative `n`. -/
def fmtInt (n : Nat) : Str := Nat.toDigits 10 n

/-- Comparison of two Go strings, byte by byte (`a <= b`). -/
def strLe : Str → Str → Bool
  | [], _ => true
  | _ :: _, [] => false
  | a :: as, b :: bs => if a.toNat < b.toNat then true else if a = b then strLe as bs else false

/-! ## Data model -/

/-- API type `types.ToolInput`. -/
structure ToolInput where
  Content : Str
  InternalToolName : Str
deriving DecidableEq, Repr

/-- API type `types.ToolCall`. -/
structure ToolCall where
  Name : Str
  Description : Str
  Input : Str
deriving DecidableEq, Repr

/-- API type `types.WorkflowCall`. -/
structure WorkflowCall where
  Name : Str
  Description : Str
  Input : Str
  WorkflowID : Str
  ThreadID : Str
deriving DecidableEq, Repr

/-- A step of a workflow manifest (API type `types.Step`), reduced to its identifier. -/
structure Step where
  ID : Str
deriving DecidableEq, Repr

/-- API type `types.Progress`, the unit written to the event channel.  A pointer field of the
source is an `Option`. -/
structure Progress where
  RunID : Str := []
  Time : Nat := 0
  Content : Str := []
  ContentID : Str := []
  Input : Str := []
  Step : Option Step := none
  ToolInput : Option ToolInput := none
  ToolCall : Option ToolCall := none
  WorkflowCall : Option WorkflowCall := none
  WaitingOnModel : Bool := false
  Error : Str := []
deriving DecidableEq, Repr

/-- A sub-call of an output (`gptscript.Call`). -/
structure Call where
  ToolID : Str
  Input : Str
deriving DecidableEq, Repr

/-- An output of a call frame (`gptscript.Output`).  `SubCalls` is the Go map from sub-call id to
`Call`, as an association list in which the first binding of a key is the one of the map. -/
structure Output where
  Content : Str := []
  SubCalls : List (Str × Call) := []
deriving DecidableEq, Repr

/-- A call frame (`gptscript.CallFrame`), with the fields the source reads. -/
structure CallFrame where
  ID : Str := []
  ParentID : Str := []
  Start : Nat := 0
  Input : Str := []
  Output : List Output := []
deriving DecidableEq, Repr

/-- A tool definition (`gptscript.Tool`), with the fields the source reads. -/
structure Tool where
  Name : Str
  Description : Str
  Instructions : Str
deriving DecidableEq, Repr

/-- A program (`gptscript.Program`): `ToolSet` is the Go map from tool id to tool. -/
structure Program where
  ToolSet : List (Str × Tool) := []
deriving DecidableEq, Repr

/-- The frame map `Frames` of the source, as the list of its entries in the order in which one
`range` over the map visits them.  Go fixes no order: another `range` over the same map may
visit the entries in any other order, that is, in a permutation of the list. -/
abbrev Frames := List (Str × CallFrame)

/-- The cursor of one call frame (`callFramePrintState`). -/
structure callFramePrintState where
  Outputs : List Output := []
  InputPrinted : Bool := false
deriving DecidableEq, Repr

/-- The diffing cursor (`printState`).  `frames` is read and written by key only; `toolCalls` is
the set of sub-call ids already announced. -/
structure printState where
  frames : Str → callFramePrintState
  toolCalls : List Str
  lastStepPrinted : Str

/-- Source `newPrintState`: a fresh cursor that carries over the announced set of `oldState`
when there is one. -/
def newPrintState (oldState : Option printState) : printState :=
  match oldState with
  | some old => { frames := fun _ => {}, toolCalls := old.toolCalls, lastStepPrinted := [] }
  | none => { frames := fun _ => {}, toolCalls := [], lastStepPrinted := [] }

/-! ## `printString` -/

/-- The content id of output `outputIndex` of run `runID`:
`fmt.Sprintf("%s-%d", runID, outputIndex)`. -/
def contentID (runID : Str) (outputIndex : Nat) : Str :=
  runID ++ "-".data ++ fmtInt outputIndex

/-- The marker `"Waiting for model response..."`. -/
def waitingMarker : Str := "Waiting for model response...".data

/-- The delimiter `"<tool call> "`. -/
def toolCallDelim : Str := "<tool call> ".data

/-- The part of `printString` after the delta `toPrint` has been computed: the two control
markers are recognised and one event is sent. -/
def printDelta (time : Nat) (runID : Str) (outputIndex : Nat) (current toPrint : Str) :
    List Progress × Str :=
  let (toPrint, waitingOnModel) := CutPrefix toPrint waitingMarker
  let (toPrint, toolPrint, isToolCall) := Cut toPrint toolCallDelim
  let (toolName, toolPrint, toPrint) : Str × Str × Str :=
    if isToolCall then
      ((Split toolPrint " ->".data).headD [], toolPrint, toPrint)
    else
      let (_, wasToolPrint, wasToolCall) := Cut current toolCallDelim
      if wasToolCall then
        ((Split wasToolPrint " ->".data).headD [], toPrint, [])
      else
        ([], toolPrint, toPrint)
  let toolPrint := TrimPrefix toolPrint (toolName ++ " -> ".data)
  let toolInput : Option ToolInput :=
    if isToolCall then some { Content := toolPrint, InternalToolName := toolName } else none
  ([{ RunID := runID
      Time := time
      Content := toPrint
      ContentID := contentID runID outputIndex
      ToolInput := toolInput
      WaitingOnModel := waitingOnModel }], current)

/-- Source `printString`: the events sent on `out` (at most one) and the string returned. -/
def printString (time : Nat) (runID : Str) (outputIndex : Nat) (last current : Str) :
    List Progress × Str :=
  if HasPrefix current last then
    printDelta time runID outputIndex current (current.drop last.length)
  else if last.length > current.length ∧ HasPrefix last current then
    ([], last)
  else
    printDelta time runID outputIndex current current

/-! ## Errors and the object store -/

/-- A Go `error` value, as far as the source distinguishes errors: an API status error (with
whether its reason is `NotFound`), any other error, and the results of `errors.Join` on one or
two non-nil errors. -/
inductive GoError where
  | status (notFound : Bool) (msg : Str)
  | plain (msg : Str)
  | joinOne (e : GoError)
  | joinTwo (a b : GoError)
deriving DecidableEq, Repr

/-- The method `Error()`. -/
def GoError.Error : GoError → Str
  | .status _ msg => msg
  | .plain msg => msg
  | .joinOne e => e.Error
  | .joinTwo a b => a.Error ++ "\n".data ++ b.Error

/-- The first API status error found by `errors.As`, which visits a joined error left to right:
`some true` when its reason is `NotFound`. -/
def GoError.firstStatus : GoError → Option Bool
  | .status notFound _ => some notFound
  | .plain _ => none
  | .joinOne e => e.firstStatus
  | .joinTwo a b => match a.firstStatus with
    | some r => some r
    | none => b.firstStatus

/-- The test `apierrors.IsNotFound(err)` on a non-nil error. -/
def GoError.IsNotFound (err : GoError) : Bool := err.firstStatus = some true

/-- Go `apierrors.IsNotFound(err)` on a possibly nil error. -/
def IsNotFound : Option GoError → Bool
  | some err => err.IsNotFound
  | none => false

/-- Go `errors.Join(a, b)`: nil errors are dropped, and the result is nil when both are. -/
def Join : Option GoError → Option GoError → Option GoError
  | none, none => none
  | some a, none => some (.joinOne a)
  | none, some b => some (.joinOne b)
  | some a, some b => some (.joinTwo a b)

/-- The fields of `v1.Run` that the source reads: the name and namespace of the object and the
fields of its `Spec`. -/
structure Run where
  Name : Str := []
  Namespace : Str := []
  PreviousRunName : Str := []
  ThreadName : Str := []
  WorkflowExecutionName : Str := []
  WorkflowStepID : Str := []
deriving DecidableEq, Repr

/-- The field of `v1.Thread` that the source reads, `Status.LastRunName`. -/
structure Thread where
  LastRunName : Str := []
deriving DecidableEq, Repr

/-- The states of a workflow execution (`types.WorkflowState`): the three that the sources name
and any other one. -/
inductive WorkflowState where
  | Other | Running | Error | Complete
deriving DecidableEq, Repr

/-- The fields of `v1.WorkflowExecution` that the source reads: the creation time of the object
and the fields of its `Status`. -/
structure WorkflowExecution where
  CreationTimestamp : Nat := 0
  ThreadName : Str := []
  State : WorkflowState := .Other
  WorkflowManifest : List Step := []
deriving DecidableEq, Repr

/-- The spec of a persisted record `v1.RunState`.  `Program` and `CallFrame` are the compressed
payloads, given by what `gz.Decompress` makes of them. -/
structure RunState where
  Program : Except GoError Program
  CallFrame : Except GoError Frames
  Done : Bool := false
  Error : Str := []

/-- An entry of the live feed of a run (`liveState`): a trace snapshot, a progress event or the
completion marker. -/
structure liveState where
  Prg : Program := {}
  Frames : Frames := []
  Progress : Option Progress := none
  Done : Bool := false
deriving DecidableEq, Repr

/-- The map `liveStates` of the emitter, from run name to the live entries of the run; a run
without entries has the empty sequence. -/
abbrev LiveStates := Str → List liveState

/-- What one iteration of the `select` loop of `printRun` receives: the cancellation of the
context, a wake-up of the broker (with the live states read under the lock), the closing of the
watch channel (with the error of the new `Watch` call, if it fails), or a watch event (whose
object is a `RunState` or not). -/
inductive RunInput where
  | cancelled (cause : GoError)
  | broadcast (liveStates : LiveStates)
  | watchClosed (rewatch : Option GoError)
  | watchEvent (obj : Option RunState)

/-- What one iteration of the `select` loop of `findNextRun` receives: an event of the watch on
the runs that follow (whose object is a `Run` or not), the closing of that watch, or the
closing of the channel `isWorkflowDone`. -/
inductive NextInput where
  | runEvent (obj : Option Run)
  | runsClosed
  | workflowDone
deriving DecidableEq, Repr

/-- The object store behind `e.client`, as the answers it gives.  A watch is given by the
objects delivered on its result channel until the channel is closed; `none` stands for an event
whose object is not of the type the source asserts. -/
structure Client where
  getRun : (ns name : Str) → Except GoError Run
  getThread : (ns name : Str) → Except GoError Thread
  getWorkflowExecution : (ns name : Str) → Except GoError WorkflowExecution
  /-- `List` of all runs of a namespace. -/
  listRuns : (ns : Str) → Except GoError (List Run)
  /-- `Watch` of the runs of a namespace, from the resource version of `listRuns`. -/
  watchRuns : (ns : Str) → Except GoError (List (Option Run))
  /-- `List` of the runs of a namespace whose previous-run label is `previous`. -/
  listRunsAfter : (ns previous : Str) → Except GoError (List Run)
  /-- The error of the `Watch` call on the runs whose previous-run label is `previous`. -/
  watchRunsAfter : (ns previous : Str) → Option GoError
  /-- `Watch` of the workflow executions with the given parent run and workflow name. -/
  watchWorkflowExecutions : (ns runName workflowName : Str) →
    Except GoError (List (Option WorkflowExecution))
  /-- `Watch` of the workflow execution `name`. -/
  watchWorkflowExecution : (ns name : Str) → Except GoError (List (Option WorkflowExecution))
  /-- The error of the first `Watch` call on the persisted record of run `name`. -/
  watchRunState : (ns name : Str) → Option GoError

/-- The emitter, with what it calls and receives from outside this package: the object store,
the two predicates `system.IsWorkflowID` and `system.IsAgentID`, `types.FindStep`, the clock
`time.Now`, and what the `select` loops of `printRun` and of `findNextRun` receive, in order,
while they work on a run. -/
structure Emitter where
  client : Client
  IsWorkflowID : Str → Bool
  IsAgentID : Str → Bool
  FindStep : List Step → Str → Option Step
  now : Nat
  runInputs : (ns runName : Str) → List RunInput
  nextInputs : (ns runName : Str) → List NextInput

/-! ## The differ: `isSubCallTargetIDs`, `getThreadID`, `printCall`, `callToEvents` -/

/-- The loop of `isSubCallTargetIDs` over the lines of the instructions. -/
def targetIDs (e : Emitter) : List Str → Str × Str
  | [] => ([], [])
  | line :: rest =>
    let (suffix, ok) := CutPrefix line "#OTTO_SUBCALL: TARGET: ".data
    if !ok then targetIDs e rest
    else if e.IsWorkflowID suffix then ([], suffix)
    else if e.IsAgentID suffix then (suffix, [])
    else targetIDs e rest

/-- Source `isSubCallTargetIDs`: `(agentID, workflowID)`. -/
def isSubCallTargetIDs (e : Emitter) (tool : Tool) : Str × Str :=
  targetIDs e (Split tool.Instructions "\n".data)

/-- The loop of `getThreadID` over the events of the watch. -/
def firstThreadName : List (Option WorkflowExecution) → Option Str
  | [] => none
  | some wfe :: rest => if wfe.ThreadName ≠ [] then some wfe.ThreadName else firstThreadName rest
  | none :: rest => firstThreadName rest

/-- Source `getThreadID`. -/
def getThreadID (e : Emitter) (ns runName workflowName : Str) : Except GoError Str :=
  match e.client.watchWorkflowExecutions ns runName workflowName with
  | .error err => .error err
  | .ok events =>
    match firstThreadName events with
    | some name => .ok name
    | none => .error (.plain ("no thread found for run ".data ++ runName ++
        " and workflow ".data ++ workflowName))

/-- An event sent by the differ, recorded together with the sub-call id that caused it when it
is a tool-call or workflow-call announcement.  Only `event` is written to the channel. -/
structure Sent where
  event : Progress
  subCall : Option Str := none
deriving DecidableEq, Repr

/-- The keys of a Go map in increasing order: `slices.Sorted(maps.Keys(m))`. -/
def sortedKeys {α : Type} (m : List (Str × α)) : List Str :=
  ((m.map Prod.fst).dedup).insertionSort (fun a b => strLe a b = true)

/-- The loop of `printCall` over the sorted sub-call ids of one output: the events sent, the
announced set and the error returned by `getThreadID`, which ends the call. -/
def announceSubCalls (e : Emitter) (ns runID : Str) (prg : Program) (start : Nat)
    (lastSubCalls subCalls : List (Str × Call)) :
    List Str → List Str → List Sent × List Str × Option GoError
  | [], toolCalls => ([], toolCalls, none)
  | callID :: rest, toolCalls =>
    let subCall := (subCalls.lookup callID).getD { ToolID := [], Input := [] }
    if (lastSubCalls.lookup callID).isSome then
      announceSubCalls e ns runID prg start lastSubCalls subCalls rest toolCalls
    else if callID ∈ toolCalls then
      announceSubCalls e ns runID prg start lastSubCalls subCalls rest toolCalls
    else
      match prg.ToolSet.lookup subCall.ToolID with
      | none =>
        announceSubCalls e ns runID prg start lastSubCalls subCalls rest
          (callID :: toolCalls)
      | some tool =>
        let workflowID := (isSubCallTargetIDs e tool).2
        if workflowID = [] then
          let ev : Sent :=
            { event := { RunID := runID, Time := start,
                         ToolCall := some { Name := tool.Name, Description := tool.Description,
                                            Input := subCall.Input } }
              subCall := some callID }
          let (evs, toolCalls, err) :=
            announceSubCalls e ns runID prg start lastSubCalls subCalls rest
              (callID :: toolCalls)
          (ev :: evs, toolCalls, err)
        else
          match getThreadID e ns runID workflowID with
          | .error err => ([], toolCalls, some err)
          | .ok threadID =>
            let ev : Sent :=
              { event := { RunID := runID, Time := start,
                           WorkflowCall := some { Name := tool.Name,
                                                  Description := tool.Description,
                                                  Input := subCall.Input,
                                                  WorkflowID := workflowID,
                                                  ThreadID := threadID } }
                subCall := some callID }
            let (evs, toolCalls, err) :=
              announceSubCalls e ns runID prg start lastSubCalls subCalls rest
                (callID :: toolCalls)
            (ev :: evs, toolCalls, err)

/-- The loop `for i >= len(lastOutputs) { lastOutputs = append(lastOutputs, Output{}) }`. -/
def padOutputs (lastOutputs : List Output) (i : Nat) : List Output :=
  lastOutputs ++ List.replicate (i + 1 - lastOutputs.length) ({} : Output)

/-- The loop of `printCall` over the outputs of the call, from index `i` on: the events sent,
`lastOutputs`, the announced set and the error that ended the loop. -/
def printOutputs (e : Emitter) (ns runID : Str) (prg : Program) (start : Nat) :
    Nat → List Output → List Output → List Str →
    List Sent × List Output × List Str × Option GoError
  | _, [], lastOutputs, toolCalls => ([], lastOutputs, toolCalls, none)
  | i, currentOutput :: rest, lastOutputs, toolCalls =>
    let lastOutputs := padOutputs lastOutputs i
    let last := lastOutputs.getD i {}
    let (sent, content) :=
      if last.Content ≠ currentOutput.Content then
        printString start runID i last.Content currentOutput.Content
      else ([], currentOutput.Content)
    let currentOutput : Output := { currentOutput with Content := content }
    let sent : List Sent := sent.map (fun ev => { event := ev })
    match announceSubCalls e ns runID prg start last.SubCalls currentOutput.SubCalls
        (sortedKeys currentOutput.SubCalls) toolCalls with
    | (announced, toolCalls, some err) => (sent ++ announced, lastOutputs, toolCalls, some err)
    | (announced, toolCalls, none) =>
      let (more, lastOutputs, toolCalls, err) :=
        printOutputs e ns runID prg start (i + 1) rest (lastOutputs.set i currentOutput)
          toolCalls
      (sent ++ announced ++ more, lastOutputs, toolCalls, err)

/-- The first step of `printCall`: the input of the call is sent once. -/
def printInput (runID : Str) (call : CallFrame) (printed : callFramePrintState) :
    List Sent × Bool :=
  if call.Input ≠ [] ∧ ¬ printed.InputPrinted then
    ([{ event := { RunID := runID, Time := call.Start, Content := "\n".data,
                   Input := call.Input } }], true)
  else ([], printed.InputPrinted)

/-- Source `printCall`: the events sent, the cursor after the call and the error returned.

When the call returns an error, `lastPrint.frames[call.ID]` is not assigned, but the outputs
already stored for the frame have been overwritten in place up to the failing index
(`lastOutputs` shares its backing array with the stored slice, whose length does not change),
and the announced set keeps the ids added before the error. -/
def printCall (e : Emitter) (ns runID : Str) (prg : Program) (call : CallFrame)
    (lastPrint : printState) : List Sent × printState × Option GoError :=
  let printed := lastPrint.frames call.ID
  let (inputSent, inputPrinted) := printInput runID call printed
  match printOutputs e ns runID prg call.Start 0 call.Output printed.Outputs
      lastPrint.toolCalls with
  | (sent, lastOutputs, toolCalls, some err) =>
    (inputSent ++ sent,
      { lastPrint with
        frames := Function.update lastPrint.frames call.ID
          { printed with Outputs := lastOutputs.take printed.Outputs.length }
        toolCalls := toolCalls },
      some err)
  | (sent, lastOutputs, toolCalls, none) =>
    (inputSent ++ sent,
      { lastPrint with
        frames := Function.update lastPrint.frames call.ID
          { Outputs := lastOutputs, InputPrinted := inputPrinted }
        toolCalls := toolCalls },
      none)

/-- The root frame picked by the loop of `callToEvents`: the first frame visited whose
`ParentID` is empty, or the zero frame.  With two such frames in the map the frame picked
depends on the order of the visit. -/
def findRoot (frames : Frames) : CallFrame :=
  match frames.find? (fun kv => kv.2.ParentID = []) with
  | some kv => kv.2
  | none => {}

/-- Source `callToEvents`. -/
def callToEvents (e : Emitter) (ns runID : Str) (prg : Program) (frames : Frames)
    (printed : printState) : List Sent × printState × Option GoError :=
  let parent := findRoot frames
  if parent.ID = [] ∨ parent.Start = 0 then ([], printed, none)
  else printCall e ns runID prg parent printed

/-- The events written to the channel. -/
def events (sent : List Sent) : List Progress := sent.map Sent.event

/-! ## The live-state broker -/

/-- Source `Emitter.Submit`: a trace entry is appended to the sequence of the run. -/
def Submit (liveStates : LiveStates) (run : Run) (prg : Program) (frames : Frames) :
    LiveStates :=
  Function.update liveStates run.Name (liveStates run.Name ++ [{ Prg := prg, Frames := frames }])

/-- Source `Emitter.Done`: the completion marker is appended to the sequence of the run. -/
def Done (liveStates : LiveStates) (run : Run) : LiveStates :=
  Function.update liveStates run.Name (liveStates run.Name ++ [{ Done := true }])

/-- Source `Emitter.ClearProgress`: the sequence of the run is deleted. -/
def ClearProgress (liveStates : LiveStates) (run : Run) : LiveStates :=
  Function.update liveStates run.Name []

/-- Source `Emitter.SubmitProgress`: a progress entry is appended to the sequence of the run. -/
def SubmitProgress (liveStates : LiveStates) (run : Run) (progress : Progress) : LiveStates :=
  Function.update liveStates run.Name (liveStates run.Name ++ [{ Progress := some progress }])

/-! ## Selector resolution: `findRunByThreadName`, `Watch` -/

/-- The options of a watch request (`WatchOptions`). -/
structure WatchOptions where
  History : Bool := false
  LastRunName : Str := []
  ThreadName : Str := []
  Follow : Bool := false
  Run : Option Run := none
deriving DecidableEq, Repr

/-- The second loop of `findRunByThreadName`, over the events of the watch. -/
def firstRunOfThread (threadName : Str) : List (Option Run) → Option Run
  | [] => none
  | some run :: rest =>
    if run.ThreadName = threadName then some run else firstRunOfThread threadName rest
  | none :: rest => firstRunOfThread threadName rest

/-- Source `findRunByThreadName`. -/
def findRunByThreadName (e : Emitter) (threadNamespace threadName : Str) (wait : Bool) :
    Except GoError Run :=
  match e.client.listRuns threadNamespace with
  | .error err => .error err
  | .ok runs =>
    match runs.find? (fun run => run.ThreadName = threadName) with
    | some run => .ok run
    | none =>
      if !wait then .error (.plain ("no run found for thread: ".data ++ threadName))
      else
        match e.client.watchRuns threadNamespace with
        | .error err => .error err
        | .ok events =>
          match firstRunOfThread threadName events with
          | some run => .ok run
          | none => .error (.plain ("no run found for thread: ".data ++ threadName))

/-- The channel returned by `Watch`: already closed and empty, or written by the goroutine
`streamEvents(ctx, run, opts, result)`. -/
inductive WatchResult where
  | closed
  | streaming (run : Run)
deriving DecidableEq, Repr

/-- The first part of `Watch`: the run that the selector resolves to (the zero run when no
selector is set). -/
def resolveRun (e : Emitter) (ns : Str) (opts : WatchOptions) : Except GoError Run :=
  match opts.Run with
  | some run => .ok run
  | none =>
    if opts.LastRunName ≠ [] then e.client.getRun ns opts.LastRunName
    else if opts.ThreadName ≠ [] then
      match e.client.getThread ns opts.ThreadName with
      | .error err => .error err
      | .ok thread =>
        if thread.LastRunName = [] then findRunByThreadName e ns opts.ThreadName opts.History
        else e.client.getRun ns thread.LastRunName
    else .ok {}

/-- Source `Watch`: the error returned, or the channel returned. -/
def Watch (e : Emitter) (ns : Str) (opts : WatchOptions) : Except GoError WatchResult :=
  match resolveRun e ns opts with
  | .error err => .error err
  | .ok run => if run.Name = [] then .ok .closed else .ok (.streaming run)

/-! ## Streaming one run: `printRun` -/

/-- How a call that may wait for ever ends: it returns an error or nil, or it is still waiting
when its inputs are exhausted. -/
inductive Outcome where
  | returned (err : Option GoError)
  | pending
deriving DecidableEq, Repr

/-- The loop of `printRun` over the live entries not seen yet: the events sent, the cursor and,
when the loop makes `printRun` return, what it returns. -/
def printLive (e : Emitter) (run : Run) : List liveState → printState →
    List Progress × printState × Option (Option GoError)
  | [], state => ([], state, none)
  | toPrint :: rest, state =>
    if toPrint.Done then ([], state, some none)
    else
      match toPrint.Progress with
      | some progress =>
        let (more, state, ret) := printLive e run rest state
        (progress :: more, state, ret)
      | none =>
        match callToEvents e run.Namespace run.Name toPrint.Prg toPrint.Frames state with
        | (sent, state, some err) => (events sent, state, some (some err))
        | (sent, state, none) =>
          let (more, state, ret) := printLive e run rest state
          (events sent ++ more, state, ret)

/-- The branch of `printRun` for an event of the watch that carries a persisted record: the
events sent, the cursor and, when the branch makes `printRun` return, what it returns. -/
def printRunState (e : Emitter) (run : Run) (runState : RunState) (state : printState) :
    List Progress × printState × Option (Option GoError) :=
  match runState.Program with
  | .error err => ([], state, some (some err))
  | .ok prg =>
    match runState.CallFrame with
    | .error err => ([], state, some (some err))
    | .ok callFrames =>
      match callToEvents e run.Namespace run.Name prg callFrames state with
      | (sent, state, some err) => (events sent, state, some (some err))
      | (sent, state, none) =>
        if runState.Done then
          if runState.Error ≠ [] then (events sent, state, some (some (.plain runState.Error)))
          else (events sent, state, some none)
        else (events sent, state, none)

/-- The `select` loop of `printRun`, over what it receives. -/
def printRunLoop (e : Emitter) (run : Run) : List RunInput → Nat → printState →
    List Progress × printState × Outcome
  | [], _, state => ([], state, .pending)
  | .cancelled cause :: _, _, state => ([], state, .returned (some cause))
  | .broadcast liveStates :: rest, liveIndex, state =>
    let liveStateLen := (liveStates run.Name).length
    let notSeen := if liveIndex < liveStateLen then (liveStates run.Name).drop liveIndex else []
    let liveIndex := if liveIndex < liveStateLen then liveStateLen else liveIndex
    if liveStateLen < liveIndex then ([], state, .returned none)
    else
      match printLive e run notSeen state with
      | (sent, state, some ret) => (sent, state, .returned ret)
      | (sent, state, none) =>
        let (more, state, out) := printRunLoop e run rest liveIndex state
        (sent ++ more, state, out)
  | .watchClosed (some err) :: _, _, state => ([], state, .returned (some err))
  | .watchClosed none :: rest, liveIndex, state => printRunLoop e run rest liveIndex state
  | .watchEvent none :: rest, liveIndex, state => printRunLoop e run rest liveIndex state
  | .watchEvent (some runState) :: rest, liveIndex, state =>
    match printRunState e run runState state with
    | (sent, state, some ret) => (sent, state, .returned ret)
    | (sent, state, none) =>
      let (more, state, out) := printRunLoop e run rest liveIndex state
      (sent ++ more, state, out)

/-- The first step of `printRun`: the workflow step of the run is sent once. -/
def printStep (e : Emitter) (run : Run) (state : printState) :
    List Progress × printState × Option GoError :=
  if run.WorkflowStepID ≠ [] ∧ run.WorkflowExecutionName ≠ [] ∧
      state.lastStepPrinted ≠ run.WorkflowStepID then
    match e.client.getWorkflowExecution run.Namespace run.WorkflowExecutionName with
    | .error err => ([], state, some err)
    | .ok wfe =>
      ([{ RunID := run.Name, Time := wfe.CreationTimestamp,
          Step := e.FindStep wfe.WorkflowManifest run.WorkflowStepID }],
        { state with lastStepPrinted := run.WorkflowStepID }, none)
  else ([], state, none)

/-- Source `printRun`: the events sent, the cursor after the call and how the call ends. -/
def printRun (e : Emitter) (state : printState) (run : Run) :
    List Progress × printState × Outcome :=
  match printStep e run state with
  | (sent, state, some err) => (sent, state, .returned (some err))
  | (sent, state, none) =>
    match e.client.watchRunState run.Namespace run.Name with
    | some err => (sent, state, .returned (some err))
    | none =>
      let (more, state, out) := printRunLoop e run (e.runInputs run.Namespace run.Name) 0 state
      (sent ++ more, state, out)

/-! ## The run chain: `printParent`, `findNextRun`, `streamEvents` -/

/-- The test of `printParent` on the thread names of a run and of its parent. -/
def threadMismatch (parent run : Run) : Bool :=
  decide (parent.ThreadName ≠ [] ∧ run.ThreadName ≠ [] ∧ parent.ThreadName ≠ run.ThreadName)

/-- Source `printParent`, the depth of the recursion being bounded by `fuel`: a recursion that
exceeds it has not returned. -/
def printParent (e : Emitter) : Nat → printState → Run → List Progress × printState × Outcome
  | 0, state, _ => ([], state, .pending)
  | fuel + 1, state, run =>
    if run.PreviousRunName = [] then ([], state, .returned none)
    else
      match e.client.getRun run.Namespace run.PreviousRunName with
      | .error err => ([], state, .returned (some err))
      | .ok parent =>
        if threadMismatch parent run then ([], state, .returned none)
        else
          match printParent e fuel state parent with
          | (sent, state, .pending) => (sent, state, .pending)
          | (sent, state, .returned err) =>
            if !IsNotFound err ∧ err ≠ none then (sent, state, .returned err)
            else
              let errNotFound := if IsNotFound err then err else none
              match printRun e state parent with
              | (more, state, .pending) => (sent ++ more, state, .pending)
              | (more, state, .returned err) =>
                (sent ++ more, state, .returned (Join errNotFound err))

/-- The goroutine of `isWorkflowDone`: whether the watched workflow execution reaches the state
`Complete` or `Error`, which closes the channel returned. -/
def workflowEnds : List (Option WorkflowExecution) → Bool
  | [] => false
  | some wfe :: rest =>
    if wfe.State = .Complete ∨ wfe.State = .Error then true else workflowEnds rest
  | none :: rest => workflowEnds rest

/-- Source `isWorkflowDone`: the error returned, or whether the channel returned is one that
gets closed (a nil channel and a channel that stays open never do). -/
def isWorkflowDone (e : Emitter) (run : Run) : Except GoError Bool :=
  if run.WorkflowExecutionName = [] then .ok false
  else
    match e.client.watchWorkflowExecution run.Namespace run.WorkflowExecutionName with
    | .error err => .error err
    | .ok events => .ok (workflowEnds events)

/-- The `select` loop of `findNextRun`, over what it receives; `closes` tells whether the channel
`isWorkflowDone` can be received from. -/
def awaitNextRun (run : Run) (closes : Bool) : List NextInput → Option (Except GoError (Option Run))
  | [] => none
  | .runsClosed :: _ =>
    some (.error (.plain ("failed to find next run after: ".data ++ run.Name)))
  | .runEvent (some next) :: _ => some (.ok (some next))
  | .runEvent none :: rest => awaitNextRun run closes rest
  | .workflowDone :: rest => if closes then some (.ok none) else awaitNextRun run closes rest

/-- Source `findNextRun`: `none` when the call is still waiting, else the error or the next run
(`nil` when there is none). -/
def findNextRun (e : Emitter) (run : Run) (follow : Bool) :
    Option (Except GoError (Option Run)) :=
  if !follow ∧ run.WorkflowExecutionName = [] then some (.ok none)
  else if run.WorkflowExecutionName ≠ [] ∧ !follow then some (.ok none)
  else
    match e.client.listRunsAfter run.Namespace run.Name with
    | .error err => some (.error err)
    | .ok runs =>
      match runs with
      | first :: _ => some (.ok (some first))
      | [] =>
        match e.client.watchRunsAfter run.Namespace run.Name with
        | some err => some (.error err)
        | none =>
          match isWorkflowDone e run with
          | .error err => some (.error err)
          | .ok closes => awaitNextRun run closes (e.nextInputs run.Namespace run.Name)

/-- The loop of `streamEvents`, the number of runs streamed in a row and the depth of
`printParent` being bounded by `fuel`: the events sent, how the loop ends and the run it was
working on. -/
def streamLoop (e : Emitter) (follow : Bool) : Nat → Option printState → Run → Bool →
    List Progress × Outcome × Run
  | 0, _, run, _ => ([], .pending, run)
  | fuel + 1, state, run, history =>
    let state := newPrintState state
    let (sent, state, out) : List Progress × printState × Outcome :=
      if history then printParent e (fuel + 1) state run else ([], state, .returned none)
    match out with
    | .pending => (sent, .pending, run)
    | .returned err =>
      if !IsNotFound err ∧ err ≠ none then (sent, .returned err, run)
      else
        match printRun e state run with
        | (more, _, .pending) => (sent ++ more, .pending, run)
        | (more, _, .returned (some err)) => (sent ++ more, .returned (some err), run)
        | (more, state, .returned none) =>
          match findNextRun e run follow with
          | none => (sent ++ more, .pending, run)
          | some (.error err) => (sent ++ more, .returned (some err), run)
          | some (.ok none) => (sent ++ more, .returned none, run)
          | some (.ok (some nextRun)) =>
            let (rest, out, last) := streamLoop e follow fuel (some state) nextRun false
            (sent ++ more ++ rest, out, last)

/-- What the caller of `Watch` sees of the channel `result`: the events delivered, whether the
channel has been closed, and the error that `streamEvents` returned. -/
structure Stream where
  delivered : List Progress
  closed : Bool
  retErr : Option GoError
deriving DecidableEq, Repr

/-- Source `streamEvents`: when the loop returns an error, one event that carries it is sent
before the channel is closed. -/
def streamEvents (e : Emitter) (fuel : Nat) (run : Run) (opts : WatchOptions) : Stream :=
  match streamLoop e opts.Follow fuel none run opts.History with
  | (sent, .pending, _) => { delivered := sent, closed := false, retErr := none }
  | (sent, .returned none, _) => { delivered := sent, closed := true, retErr := none }
  | (sent, .returned (some retErr), last) =>
    { delivered := sent ++ [{ RunID := last.Name, Time := e.now, Error := retErr.Error }]
      closed := true
      retErr := some retErr }

/-! ## Auxiliary definitions used in the statements and proofs -/

/-- A stored output is settled for a current output when a second pass over the current output
finds nothing to print: same sub-calls, and a stored content that is either the current content
or a longer content that the current one is a prefix of. -/
def Settled (stored current : Output) : Prop :=
  stored.SubCalls = current.SubCalls ∧
    (stored.Content = current.Content ∨
      (HasPrefix current.Content stored.Content = false ∧
        stored.Content.length > current.Content.length ∧
        HasPrefix stored.Content current.Content = true))

/-- The content and output that `printOutputs` stores at index `i` for the current output. -/
def storedOutput (start : Nat) (runID : Str) (i : Nat) (last currentOutput : Output) : Output :=
  { currentOutput with
    Content := if last.Content ≠ currentOutput.Content then
        (printString start runID i last.Content currentOutput.Content).2
      else currentOutput.Content }


/-- The content events of output index `i` among the events sent for run `runID`: those that
carry the content id of `(runID, i)`. -/
def contentEvents (runID : Str) (i : Nat) (evs : List Progress) : List Progress :=
  evs.filter (fun ev => decide (ev.ContentID = contentID runID i))

/-- The concatenation of the `Content` fields of the content events of output index `i`. -/
def emittedContent (runID : Str) (i : Nat) (evs : List Progress) : Str :=
  ((contentEvents runID i evs).map Progress.Content).flatten

/-- A trace snapshot: a program and a frame map. -/
structure Snapshot where
  prg : Program := {}
  frames : Frames := []

/-- Delivery of a sequence of snapshots of one run to `callToEvents`, the cursor being threaded
through the calls; as in the loops of `printRun`, the first error ends the delivery. -/
def feed (e : Emitter) (ns runID : Str) : List Snapshot → printState →
    List Sent × printState × Option GoError
  | [], printed => ([], printed, none)
  | s :: rest, printed =>
    match callToEvents e ns runID s.prg s.frames printed with
    | (sent, printed, some err) => (sent, printed, some err)
    | (sent, printed, none) =>
      let (more, printed, err) := feed e ns runID rest printed
      (sent ++ more, printed, err)

/-- The content of output `i` of the root frame of a snapshot. -/
def rootContent (i : Nat) (s : Snapshot) : Str :=
  ((findRoot s.frames).Output.getD i {}).Content

/-- The snapshot has a started root frame with id `fid` that has an output of index `i`. -/
def Delivers (fid : Str) (i : Nat) (s : Snapshot) : Prop :=
  (findRoot s.frames).ID = fid ∧ (findRoot s.frames).Start ≠ 0 ∧
    i < (findRoot s.frames).Output.length

/-- An object store that holds nothing and whose watches deliver nothing. -/
def emptyClient : Client :=
  { getRun := fun _ _ => .error (.status true "not found".data)
    getThread := fun _ _ => .error (.status true "not found".data)
    getWorkflowExecution := fun _ _ => .error (.status true "not found".data)
    listRuns := fun _ => .ok []
    watchRuns := fun _ => .ok []
    listRunsAfter := fun _ _ => .ok []
    watchRunsAfter := fun _ _ => none
    watchWorkflowExecutions := fun _ _ _ => .ok []
    watchWorkflowExecution := fun _ _ => .ok []
    watchRunState := fun _ _ => none }

/-- An emitter over the empty store, for which no target id is a workflow or an agent. -/
def plainEmitter : Emitter :=
  { client := emptyClient
    IsWorkflowID := fun _ => false
    IsAgentID := fun _ => false
    FindStep := fun _ _ => none
    now := 7
    runInputs := fun _ _ => []
    nextInputs := fun _ _ => [] }

/-- The snapshot of the scenario: a started root frame with input `hello` and one output. -/
def helloFrames (content : Str) : Frames :=
  [("f".data, { ID := "f".data, Start := 1, Input := "hello".data,
                Output := [{ Content := content }] })]

/-- The print state left by the delivery of the scenario's snapshot with the given content to a
fresh print state. -/
def seenState (content : Str) : printState :=
  (callToEvents plainEmitter [] "r".data {} (helloFrames content) (newPrintState none)).2.1

instance (fid : Str) (i : Nat) (s : Snapshot) : Decidable (Delivers fid i s) :=
  inferInstanceAs (Decidable (_ ∧ _ ∧ _))

/-- The sub-call ids that caused the announcements among the events sent, in the order sent. -/
def announcedIDs (sent : List Sent) : List Str := sent.filterMap Sent.subCall

/-- The relation between the announced set before, the events sent and the announced set after:
no announcement is caused by an id of the set before, no id causes two announcements, every id
that causes an announcement is in the set after, and the set only grows. -/
def Announces (toolCalls : List Str) (sent : List Sent) (toolCalls' : List Str) : Prop :=
  (∀ x ∈ announcedIDs sent, x ∉ toolCalls) ∧ (announcedIDs sent).Nodup ∧
    (∀ x ∈ announcedIDs sent, x ∈ toolCalls') ∧ (∀ x ∈ toolCalls, x ∈ toolCalls')

/-- A step of a traversal: a call of `callToEvents` on a snapshot, or the transition
`state = newPrintState(state)` between two chained runs. -/
inductive Op where
  | call (e : Emitter) (ns runID : Str) (prg : Program) (frames : Frames)
  | chain

/-- A traversal: the steps are run in order on the print state, whatever the calls return. -/
def runOps : List Op → printState → List Sent × printState
  | [], printed => ([], printed)
  | .call e ns runID prg frames :: rest, printed =>
    let r := callToEvents e ns runID prg frames printed
    let more := runOps rest r.2.1
    (r.1 ++ more.1, more.2)
  | .chain :: rest, printed => runOps rest (newPrintState (some printed))

/-- The label of an event sent agrees with the event: it names a sub-call id exactly when the
event is a tool-call or workflow-call announcement. -/
def Labelled (s : Sent) : Prop :=
  s.subCall.isSome = (s.event.ToolCall.isSome || s.event.WorkflowCall.isSome)

/-- A started root frame with one output that refers to the sub-call `c1` of tool `toolID`. -/
def subCallFrames (content toolID : Str) : Frames :=
  [("f".data, { ID := "f".data, Start := 1,
                Output := [{ Content := content,
                             SubCalls := [("c1".data, { ToolID := toolID, Input := "q".data })] }] })]

/-- A program with the single tool `t`. -/
def oneToolPrg : Program :=
  { ToolSet := [("t".data, { Name := "search".data
                             Description := "a tool".data
                             Instructions := [] })] }

/-- The sub-call id `x` appears under an output of the started root frame of the snapshot. -/
def Appears (x : Str) (s : Snapshot) : Prop :=
  (findRoot s.frames).ID ≠ [] ∧ (findRoot s.frames).Start ≠ 0 ∧
    ∃ o ∈ (findRoot s.frames).Output, x ∈ o.SubCalls.map Prod.fst

/-- Wherever the sub-call id `x` appears under an output of the root frame of the snapshot, its
tool is in the tool set of the program of the snapshot. -/
def Resolves (x : Str) (s : Snapshot) : Prop :=
  ∀ o ∈ (findRoot s.frames).Output, ∀ c, o.SubCalls.lookup x = some c →
    (s.prg.ToolSet.lookup c.ToolID).isSome = true

/-- Every sub-call id of an output recorded by the cursor is in the announced set. -/
def Recorded (printed : printState) : Prop :=
  ∀ (fid : Str) (k : Nat) (x : Str),
    (((printed.frames fid).Outputs.getD k {}).SubCalls.lookup x).isSome = true →
    x ∈ printed.toolCalls

/-- The number of announcements caused by the sub-call id `x` among the events sent. -/
def announcementsFor (x : Str) (sent : List Sent) : Nat :=
  (announcedIDs sent).countP (fun y => decide (y = x))

instance (x : Str) (s : Snapshot) : Decidable (Appears x s) :=
  inferInstanceAs (Decidable (_ ∧ _ ∧ _))

/-- A frame map with the started root frame `f`, whose output refers to the sub-call `c1`, and
the nested frame `c1` of that sub-call, which has an input and an output of its own. -/
def nestedFrames : Frames :=
  [("f".data, { ID := "f".data, Start := 1, Input := "hello".data,
                Output := [{ Content := "out".data,
                             SubCalls := [("c1".data, { ToolID := "t".data, Input := "q".data })] }] }),
   ("c1".data, { ID := "c1".data, ParentID := "f".data, Start := 2, Input := "nested in".data,
                 Output := [{ Content := "nested out".data }] })]

/-- A store that holds the thread `t1`, which has no last run, and no run. -/
def threadOnlyClient : Client :=
  { emptyClient with
    getThread := fun _ name =>
      if name = "t1".data then .ok { LastRunName := [] }
      else .error (.status true "not found".data) }

/-- An emitter over the store `threadOnlyClient`. -/
def threadOnlyEmitter : Emitter := { plainEmitter with client := threadOnlyClient }

/-- The persisted record of the scenario: done, with the error `boom` and no call frame. -/
def boomRecord : RunState :=
  { Program := .ok {}, CallFrame := .ok [], Done := true, Error := "boom".data }

/-- An emitter whose watch on the persisted record of any run delivers `boomRecord`, with no
live entry. -/
def boomEmitter : Emitter :=
  { plainEmitter with runInputs := fun _ _ => [.watchEvent (some boomRecord)] }

/-- The ancestors of `run` in the store, newest first: each run names the next one of the list
as its previous run, the store holds it, their thread names do not mismatch, and the oldest one
has no previous run. -/
def IsAncestry (e : Emitter) : List Run → Run → Prop
  | [], run => run.PreviousRunName = []
  | parent :: older, run =>
    run.PreviousRunName ≠ [] ∧
      e.client.getRun run.Namespace run.PreviousRunName = .ok parent ∧
      threadMismatch parent run = false ∧ IsAncestry e older parent

/-- The runs of a list streamed by `printRun` one after the other on the same print state, each
one completely before the next; a run whose streaming does not return nil ends the sequence. -/
def streamRuns (e : Emitter) : List Run → printState → List Progress × printState × Outcome
  | [], state => ([], state, .returned none)
  | run :: rest, state =>
    match printRun e state run with
    | (sent, state, .returned none) =>
      let (more, state, out) := streamRuns e rest state
      (sent ++ more, state, out)
    | (sent, state, out) => (sent, state, out)

/-- A store with the chain of runs `a`, `b`, `c`. -/
def chainClient : Client :=
  { emptyClient with
    getRun := fun _ name =>
      if name = "a".data then .ok { Name := "a".data }
      else if name = "b".data then .ok { Name := "b".data, PreviousRunName := "a".data }
      else if name = "c".data then .ok { Name := "c".data, PreviousRunName := "b".data }
      else .error (.status true "not found".data) }

/-- An emitter over `chainClient`: the live feed of each run holds one progress event that
carries the name of the run, followed by the completion marker. -/
def chainEmitter : Emitter :=
  { plainEmitter with
    client := chainClient
    runInputs := fun _ name =>
      [.broadcast (fun _ => [{ Progress := some { RunID := name, Content := "x".data } },
                             { Done := true }])] }

/-- A store in which the run `n1` follows every run. -/
def followedClient : Client :=
  { emptyClient with
    listRunsAfter := fun _ previous => .ok [{ Name := "n1".data, PreviousRunName := previous }] }

/-- An emitter over the store `followedClient`. -/
def followedEmitter : Emitter := { plainEmitter with client := followedClient }

/-- The ancestors of `run` that the walk of `printParent` reaches before it stops at a thread
boundary, newest first: each run names the next one of the list as its previous run, the store
holds it and their thread names do not mismatch, and the previous run of the oldest one is held
by the store with a thread name that mismatches. -/
def IsWalkToBoundary (e : Emitter) : List Run → Run → Prop
  | [], run =>
    run.PreviousRunName ≠ [] ∧
      ∃ parent, e.client.getRun run.Namespace run.PreviousRunName = .ok parent ∧
        threadMismatch parent run = true
  | parent :: older, run =>
    run.PreviousRunName ≠ [] ∧
      e.client.getRun run.Namespace run.PreviousRunName = .ok parent ∧
      threadMismatch parent run = false ∧ IsWalkToBoundary e older parent

/-- A store with the chain of runs `p`, `q`, `r`: `p` is of thread `t2`, `q` of no thread and
`r` of thread `t1`. -/
def boundaryClient : Client :=
  { emptyClient with
    getRun := fun _ name =>
      if name = "p".data then .ok { Name := "p".data, ThreadName := "t2".data }
      else if name = "q".data then .ok { Name := "q".data, PreviousRunName := "p".data }
      else if name = "r".data then
        .ok { Name := "r".data, PreviousRunName := "q".data, ThreadName := "t1".data }
      else .error (.status true "not found".data) }

/-- An emitter over `boundaryClient`, with the live feeds of `chainEmitter`. -/
def boundaryEmitter : Emitter := { chainEmitter with client := boundaryClient }

/-- A call of one of the four methods of the broker. -/
inductive BrokerCall where
  | submit (run : Run) (prg : Program) (frames : Frames)
  | submitProgress (run : Run) (progress : Progress)
  | done (run : Run)
  | clearProgress (run : Run)

/-- The run that a call of the broker is made for. -/
def BrokerCall.run : BrokerCall → Run
  | .submit run _ _ => run
  | .submitProgress run _ => run
  | .done run => run
  | .clearProgress run => run

/-- The entry that a call of the broker submits, if it submits one. -/
def BrokerCall.entry : BrokerCall → Option liveState
  | .submit _ prg frames => some { Prg := prg, Frames := frames }
  | .submitProgress _ progress => some { Progress := some progress }
  | .done _ => some { Done := true }
  | .clearProgress _ => none

/-- The effect of a call of the broker on the live states. -/
def BrokerCall.apply (liveStates : LiveStates) : BrokerCall → LiveStates
  | .submit run prg frames => Submit liveStates run prg frames
  | .submitProgress run progress => SubmitProgress liveStates run progress
  | .done run => Done liveStates run
  | .clearProgress run => ClearProgress liveStates run

/-- The live states after a sequence of calls of the broker, made one after the other under the
lock. -/
def applyCalls (calls : List BrokerCall) (liveStates : LiveStates) : LiveStates :=
  calls.foldl BrokerCall.apply liveStates

/-- A frame map with two started frames of empty `ParentID`, under the keys `a` and `b`, in
the order of a visit that meets `a` first. -/
def twoRootFrames : Frames :=
  [("a".data, { ID := "a".data, Start := 1, Input := "ia".data,
                Output := [{ Content := "oa".data }] }),
   ("b".data, { ID := "b".data, Start := 2, Input := "ib".data,
                Output := [{ Content := "ob".data }] })]

/-- A store with the runs `b` and `c` of the chain `a`, `b`, `c`, which holds the run `a` only
when `found` is set. -/
def historyClient (found : Bool) : Client :=
  { emptyClient with
    getRun := fun _ name =>
      if name = "a".data then
        if found then .ok { Name := "a".data } else .error (.status true "not found".data)
      else if name = "b".data then .ok { Name := "b".data, PreviousRunName := "a".data }
      else if name = "c".data then .ok { Name := "c".data, PreviousRunName := "b".data }
      else .error (.status true "not found".data) }

/-- An emitter over `historyClient`: the watch on the persisted record of the run `b` delivers
`boomRecord`, and the live feed of every other run holds one progress event that carries the
name of the run, followed by the completion marker. -/
def historyEmitter (found : Bool) : Emitter :=
  { plainEmitter with
    client := historyClient found
    runInputs := fun _ name =>
      if name = "b".data then [.watchEvent (some boomRecord)]
      else [.broadcast (fun _ => [{ Progress := some { RunID := name, Content := "x".data } },
                                  { Done := true }])] }

/-! # Theorems -/

/-! ## Lemmas on the string helpers -/

theorem HasPrefix_iff (s p : Str) : HasPrefix s p = true ↔ p <+: s := by
  simp [HasPrefix]

theorem printDelta_snd (time : Nat) (runID : Str) (i : Nat) (current toPrint : Str) :
    (printDelta time runID i current toPrint).2 = current := by
  simp only [printDelta]

theorem printDelta_length (time : Nat) (runID : Str) (i : Nat) (current toPrint : Str) :
    (printDelta time runID i current toPrint).1.length = 1 := by
  simp only [printDelta, List.length_singleton]

theorem printString_stale (time : Nat) (runID : Str) (i : Nat) (last current : Str)
    (h1 : HasPrefix current last = false) (h2 : last.length > current.length)
    (h3 : HasPrefix last current = true) :
    printString time runID i last current = ([], last) := by
  simp [printString, h1, h2, h3]

theorem printString_snd (time : Nat) (runID : Str) (i : Nat) (last current : Str) :
    (printString time runID i last current).2 = current ∨
      ((printString time runID i last current).2 = last ∧ HasPrefix current last = false ∧
        last.length > current.length ∧ HasPrefix last current = true) := by
  unfold printString
  by_cases h1 : HasPrefix current last = true
  · simp [h1, printDelta_snd]
  · by_cases h2 : last.length > current.length ∧ HasPrefix last current = true
    · right
      simp [h1, h2]
    · left
      simp only [h1, h2]
      simp [printDelta_snd]

/-! ## Lemmas on maps as association lists -/

theorem lookup_isSome_of_mem_keys {α : Type} (m : List (Str × α)) (k : Str)
    (h : k ∈ m.map Prod.fst) : (m.lookup k).isSome = true := by
  induction m with
  | nil => simp at h
  | cons kv rest ih =>
    obtain ⟨k', v⟩ := kv
    by_cases hk : k = k'
    · subst hk
      simp [List.lookup]
    · have hne : (k == k') = false := by simpa using hk
      simp only [List.map_cons, List.mem_cons] at h
      rcases h with h | h
      · exact absurd h hk
      · simp [List.lookup, hne, ih h]

theorem mem_keys_of_lookup_isSome {α : Type} (m : List (Str × α)) (k : Str)
    (h : (m.lookup k).isSome = true) : k ∈ m.map Prod.fst := by
  induction m with
  | nil => simp at h
  | cons kv rest ih =>
    obtain ⟨k', v⟩ := kv
    by_cases hk : k = k'
    · subst hk
      simp only [List.map_cons, List.mem_cons, true_or]
    · have hne : (k == k') = false := by simpa using hk
      simp only [List.lookup, hne] at h
      simp only [List.map_cons, List.mem_cons]
      exact Or.inr (ih h)

theorem mem_sortedKeys {α : Type} (m : List (Str × α)) (k : Str) :
    k ∈ sortedKeys m ↔ k ∈ m.map Prod.fst := by
  unfold sortedKeys
  rw [(List.perm_insertionSort _ _).mem_iff, List.mem_dedup]

theorem sortedKeys_nodup {α : Type} (m : List (Str × α)) : (sortedKeys m).Nodup := by
  unfold sortedKeys
  exact (List.perm_insertionSort _ _).nodup_iff.mpr (List.nodup_dedup _)

/-! ## A second pass over the same outputs prints nothing -/

theorem announceSubCalls_of_known (e : Emitter) (ns runID : Str) (prg : Program) (start : Nat)
    (lastSubCalls subCalls : List (Str × Call)) (keys toolCalls : List Str)
    (h : ∀ k ∈ keys, (lastSubCalls.lookup k).isSome = true ∨ k ∈ toolCalls) :
    announceSubCalls e ns runID prg start lastSubCalls subCalls keys toolCalls =
      ([], toolCalls, none) := by
  induction keys with
  | nil => rfl
  | cons k rest ih =>
    have hk := h k (List.mem_cons_self _ _)
    have hrest := ih (fun k' hk' => h k' (List.mem_cons_of_mem _ hk'))
    unfold announceSubCalls
    by_cases h1 : (lastSubCalls.lookup k).isSome = true
    · simp only [h1, if_true]
      exact hrest
    · have h2 : k ∈ toolCalls := hk.resolve_left h1
      simp only [h1, h2, if_true]
      simp [hrest]

theorem padOutputs_of_lt (lastOutputs : List Output) (i : Nat) (h : i < lastOutputs.length) :
    padOutputs lastOutputs i = lastOutputs := by
  unfold padOutputs
  have : i + 1 - lastOutputs.length = 0 := by omega
  simp [this]

theorem length_padOutputs (lastOutputs : List Output) (i : Nat) :
    (padOutputs lastOutputs i).length = max lastOutputs.length (i + 1) := by
  unfold padOutputs
  simp only [List.length_append, List.length_replicate]
  omega

theorem getElem?_padOutputs (lastOutputs : List Output) (i k : Nat)
    (h : k < lastOutputs.length) : (padOutputs lastOutputs i)[k]? = lastOutputs[k]? := by
  unfold padOutputs
  rw [List.getElem?_append_left h]

theorem printOutputs_settled (e : Emitter) (ns runID : Str) (prg : Program) (start : Nat)
    (current : List Output) :
    ∀ (i : Nat) (lastOutputs : List Output) (toolCalls : List Str),
      (∀ j (hj : j < current.length), ∃ stored, lastOutputs[i + j]? = some stored ∧
        Settled stored (current.get ⟨j, hj⟩)) →
      printOutputs e ns runID prg start i current lastOutputs toolCalls =
        ([], lastOutputs, toolCalls, none) := by
  induction current with
  | nil => intro i lastOutputs toolCalls _; rfl
  | cons cur rest ih =>
    intro i lastOutputs toolCalls h
    obtain ⟨stored, hstored, hsub, hcontent⟩ := h 0 (by simp)
    simp only [Nat.add_zero, List.get_eq_getElem, List.getElem_cons_zero] at hstored hsub hcontent
    have hlt : i < lastOutputs.length := by
      by_contra hge
      rw [List.getElem?_eq_none (by omega)] at hstored
      exact Option.noConfusion hstored
    have hget : lastOutputs.getD i {} = stored := by
      simp [List.getD_eq_getElem?_getD, hstored]
    have hrest : ∀ j (hj : j < rest.length), ∃ st, lastOutputs[i + 1 + j]? = some st ∧
        Settled st (rest.get ⟨j, hj⟩) := by
      intro j hj
      obtain ⟨st, h1, h2⟩ := h (j + 1) (by simp; omega)
      refine ⟨st, ?_, ?_⟩
      · rw [← h1]; congr 1; omega
      · simpa using h2
    have hann : ∀ tc, announceSubCalls e ns runID prg start stored.SubCalls cur.SubCalls
        (sortedKeys cur.SubCalls) tc = ([], tc, none) := by
      intro tc
      apply announceSubCalls_of_known
      intro k hk
      left
      rw [hsub]
      exact lookup_isSome_of_mem_keys _ _ ((mem_sortedKeys _ _).mp hk)
    have hset : ∀ c, c = stored.Content →
        lastOutputs.set i { cur with Content := c } = lastOutputs := by
      intro c hc
      have : ({ cur with Content := c } : Output) = stored := by
        cases stored; cases cur; simp_all
      rw [this]
      apply List.ext_getElem?
      intro k
      by_cases hk : k = i
      · subst hk; simp [List.getElem?_set, hlt, hstored]
      · rw [List.getElem?_set_ne (Ne.symm hk)]
    unfold printOutputs
    simp only [padOutputs_of_lt _ _ hlt, hget]
    rcases hcontent with heq | ⟨h1, h2, h3⟩
    · simp only [heq, ne_eq, not_true_eq_false, if_false, List.map_nil, hann]
      rw [hset _ heq.symm, ih (i + 1) lastOutputs toolCalls hrest]
      simp
    · have hne : stored.Content ≠ cur.Content := by
        intro hcon; rw [hcon] at h2; exact lt_irrefl _ h2
      simp only [ne_eq, hne, not_false_eq_true, if_true, printString_stale _ _ _ _ _ h1 h2 h3,
        List.map_nil, hann]
      rw [hset _ rfl, ih (i + 1) lastOutputs toolCalls hrest]
      simp

theorem storedOutput_settled (start : Nat) (runID : Str) (i : Nat) (last cur : Output) :
    Settled (storedOutput start runID i last cur) cur := by
  refine ⟨rfl, ?_⟩
  unfold storedOutput
  by_cases h : last.Content = cur.Content
  · left; simp [h]
  · simp only [ne_eq, h, not_false_eq_true, if_true]
    rcases printString_snd start runID i last.Content cur.Content with h1 | ⟨h1, h2, h3, h4⟩
    · left; exact h1
    · right; rw [h1]; exact ⟨h2, h3, h4⟩

theorem printOutputs_cons (e : Emitter) (ns runID : Str) (prg : Program) (start : Nat)
    (i : Nat) (cur : Output) (rest lastOutputs : List Output) (toolCalls : List Str) :
    printOutputs e ns runID prg start i (cur :: rest) lastOutputs toolCalls =
      (let last := (padOutputs lastOutputs i).getD i {}
       let sent : List Sent :=
         (if last.Content ≠ cur.Content then
            (printString start runID i last.Content cur.Content).1 else []).map
           (fun ev => { event := ev })
       let ann := announceSubCalls e ns runID prg start last.SubCalls cur.SubCalls
         (sortedKeys cur.SubCalls) toolCalls
       match ann.2.2 with
       | some err => (sent ++ ann.1, padOutputs lastOutputs i, ann.2.1, some err)
       | none =>
         let r := printOutputs e ns runID prg start (i + 1) rest
           ((padOutputs lastOutputs i).set i (storedOutput start runID i last cur)) ann.2.1
         (sent ++ ann.1 ++ r.1, r.2.1, r.2.2.1, r.2.2.2)) := by
  rw [printOutputs]
  simp only [storedOutput]
  by_cases hc : ((padOutputs lastOutputs i).getD i {}).Content = cur.Content
  · simp only [hc, ne_eq, not_true_eq_false, if_false]
    rcases hann : announceSubCalls e ns runID prg start
      ((padOutputs lastOutputs i).getD i {}).SubCalls cur.SubCalls (sortedKeys cur.SubCalls)
      toolCalls with ⟨a, t, _ | err⟩ <;> simp
  · simp only [hc, ne_eq, not_false_eq_true, if_true]
    rcases hann : announceSubCalls e ns runID prg start
      ((padOutputs lastOutputs i).getD i {}).SubCalls cur.SubCalls (sortedKeys cur.SubCalls)
      toolCalls with ⟨a, t, _ | err⟩ <;> simp

theorem printOutputs_getElem?_lt (e : Emitter) (ns runID : Str) (prg : Program) (start : Nat)
    (current : List Output) :
    ∀ (i : Nat) (lastOutputs : List Output) (toolCalls : List Str) (k : Nat),
      k < i → k < lastOutputs.length →
      (printOutputs e ns runID prg start i current lastOutputs toolCalls).2.1[k]? =
        lastOutputs[k]? := by
  induction current with
  | nil => intro i lastOutputs toolCalls k _ _; rfl
  | cons cur rest ih =>
    intro i lastOutputs toolCalls k hk hlen
    rw [printOutputs_cons]
    simp only
    split
    · exact getElem?_padOutputs _ _ _ hlen
    · rw [ih (i + 1) _ _ k (by omega) (by rw [List.length_set, length_padOutputs]; omega)]
      rw [List.getElem?_set_ne (by omega)]
      exact getElem?_padOutputs _ _ _ hlen

theorem printOutputs_first_pass (e : Emitter) (ns runID : Str) (prg : Program) (start : Nat)
    (current : List Output) :
    ∀ (i : Nat) (lastOutputs : List Output) (toolCalls : List Str),
      (printOutputs e ns runID prg start i current lastOutputs toolCalls).2.2.2 = none →
      ∀ j (hj : j < current.length), ∃ stored,
        (printOutputs e ns runID prg start i current lastOutputs toolCalls).2.1[i + j]? =
          some stored ∧ Settled stored (current.get ⟨j, hj⟩) := by
  induction current with
  | nil => intro i lastOutputs toolCalls _ j hj; simp at hj
  | cons cur rest ih =>
    intro i lastOutputs toolCalls
    rw [printOutputs_cons]
    simp only
    split
    · intro h; simp at h
    · intro h j hj
      have hlen : i < ((padOutputs lastOutputs i).set i (storedOutput start runID i
          ((padOutputs lastOutputs i).getD i {}) cur)).length := by
        rw [List.length_set, length_padOutputs]; omega
      cases j with
      | zero =>
        refine ⟨storedOutput start runID i ((padOutputs lastOutputs i).getD i {}) cur, ?_, ?_⟩
        · simp only [Nat.add_zero]
          rw [printOutputs_getElem?_lt e ns runID prg start rest (i + 1) _ _ i (by omega) hlen]
          rw [List.length_set] at hlen
          simp [List.getElem?_set, hlen]
        · exact storedOutput_settled _ _ _ _ _
      | succ j =>
        obtain ⟨stored, h1, h2⟩ := ih (i + 1) _ _ h j (by simpa using hj)
        refine ⟨stored, ?_, ?_⟩
        · rw [← h1]; congr 1; omega
        · simpa using h2

/-! ## C1: idempotent diffing -/

theorem printCall_eq (e : Emitter) (ns runID : Str) (prg : Program) (call : CallFrame)
    (lastPrint : printState) :
    printCall e ns runID prg call lastPrint =
      (let r := printOutputs e ns runID prg call.Start 0 call.Output
          (lastPrint.frames call.ID).Outputs lastPrint.toolCalls
       let inp := printInput runID call (lastPrint.frames call.ID)
       match r.2.2.2 with
       | some err =>
         (inp.1 ++ r.1,
           { lastPrint with
             frames := Function.update lastPrint.frames call.ID
               { lastPrint.frames call.ID with
                 Outputs := r.2.1.take (lastPrint.frames call.ID).Outputs.length }
             toolCalls := r.2.2.1 },
           some err)
       | none =>
         (inp.1 ++ r.1,
           { lastPrint with
             frames := Function.update lastPrint.frames call.ID
               { Outputs := r.2.1, InputPrinted := inp.2 }
             toolCalls := r.2.2.1 },
           none)) := by
  unfold printCall
  simp only
  generalize printOutputs e ns runID prg call.Start 0 call.Output
    (lastPrint.frames call.ID).Outputs lastPrint.toolCalls = r
  generalize printInput runID call (lastPrint.frames call.ID) = inp
  obtain ⟨sent, lo, tc, _ | err⟩ := r <;> obtain ⟨a, b⟩ := inp <;> rfl

theorem printCall_second_pass (e : Emitter) (ns runID : Str) (prg : Program) (call : CallFrame)
    (lastPrint : printState) (h : (printCall e ns runID prg call lastPrint).2.2 = none) :
    (printCall e ns runID prg call (printCall e ns runID prg call lastPrint).2.1).1 = [] := by
  have hfirst := printOutputs_first_pass e ns runID prg call.Start call.Output 0
    (lastPrint.frames call.ID).Outputs lastPrint.toolCalls
  rw [printCall_eq] at h
  rw [printCall_eq e ns runID prg call lastPrint]
  rcases hout : (printOutputs e ns runID prg call.Start 0 call.Output
    (lastPrint.frames call.ID).Outputs lastPrint.toolCalls).2.2.2 with _ | err
  · simp only [hout] at h ⊢
    have hsettled := printOutputs_settled e ns runID prg call.Start call.Output 0 _
      (printOutputs e ns runID prg call.Start 0 call.Output
        (lastPrint.frames call.ID).Outputs lastPrint.toolCalls).2.2.1 (hfirst hout)
    rw [printCall_eq]
    simp only [Function.update_same, hsettled, List.append_nil]
    unfold printInput
    by_cases hin : call.Input = []
    · simp [hin]
    · by_cases hp : (lastPrint.frames call.ID).InputPrinted = true <;> simp [hin, hp]
  · simp [hout] at h

/-- When `callToEvents` returns without error on a snapshot, a second call that visits the frame
map in the same order, with the state left by the first call, sends no event at all. -/
theorem callToEvents_second_pass (e : Emitter) (ns runID : Str) (prg : Program)
    (frames : Frames) (printed : printState)
    (h : (callToEvents e ns runID prg frames printed).2.2 = none) :
    events (callToEvents e ns runID prg frames
      (callToEvents e ns runID prg frames printed).2.1).1 = [] := by
  unfold callToEvents at h ⊢
  simp only at h ⊢
  by_cases hroot : (findRoot frames).ID = [] ∨ (findRoot frames).Start = 0
  · simp [hroot, events]
  · simp only [hroot, if_false] at h ⊢
    rw [printCall_second_pass e ns runID prg (findRoot frames) printed h]
    rfl

/-! ## The content id determines the output index -/

theorem digitChar_toNat (k : Nat) (h : k < 10) : (Nat.digitChar k).toNat - 48 = k := by
  interval_cases k <;> rfl

theorem toDigitsCore_append (fuel : Nat) :
    ∀ (n : Nat) (ds : List Char),
      Nat.toDigitsCore 10 fuel n ds = Nat.toDigitsCore 10 fuel n [] ++ ds := by
  induction fuel with
  | zero => intro n ds; simp [Nat.toDigitsCore]
  | succ fuel ih =>
    intro n ds
    simp only [Nat.toDigitsCore]
    split
    · simp
    · rw [ih (n / 10) (Nat.digitChar (n % 10) :: ds), ih (n / 10) [Nat.digitChar (n % 10)]]
      simp

theorem decode_toDigitsCore (fuel : Nat) :
    ∀ n : Nat, n < fuel →
      (Nat.toDigitsCore 10 fuel n []).foldl (fun a c => 10 * a + (c.toNat - 48)) 0 = n := by
  induction fuel with
  | zero => intro n h; omega
  | succ fuel ih =>
    intro n h
    simp only [Nat.toDigitsCore]
    split
    · rename_i h0
      simp only [List.foldl_cons, List.foldl_nil]
      rw [digitChar_toNat _ (Nat.mod_lt _ (by norm_num))]
      omega
    · rename_i h0
      rw [toDigitsCore_append, List.foldl_append, ih (n / 10) (by omega)]
      simp only [List.foldl_cons, List.foldl_nil]
      rw [digitChar_toNat _ (Nat.mod_lt _ (by norm_num))]
      omega

theorem fmtInt_injective : Function.Injective fmtInt := by
  intro a b h
  have ha := decode_toDigitsCore (a + 1) a (by omega)
  have hb := decode_toDigitsCore (b + 1) b (by omega)
  unfold fmtInt Nat.toDigits at h
  rw [h] at ha
  omega

theorem contentID_injective (runID : Str) : Function.Injective (contentID runID) := by
  intro a b h
  unfold contentID at h
  exact fmtInt_injective (List.append_cancel_left h)

theorem contentID_ne_nil (runID : Str) (i : Nat) : contentID runID i ≠ [] := by
  unfold contentID
  simp

/-! ## The events of one output index -/

theorem printDelta_contentID (time : Nat) (runID : Str) (i : Nat) (current toPrint : Str) :
    ∀ ev ∈ (printDelta time runID i current toPrint).1, ev.ContentID = contentID runID i := by
  intro ev hev
  simp only [printDelta, List.mem_singleton] at hev
  rw [hev]

theorem printString_contentID (time : Nat) (runID : Str) (i : Nat) (last current : Str) :
    ∀ ev ∈ (printString time runID i last current).1, ev.ContentID = contentID runID i := by
  unfold printString
  split
  · exact printDelta_contentID _ _ _ _ _
  · split
    · intro ev hev; simp at hev
    · exact printDelta_contentID _ _ _ _ _

theorem announceSubCalls_contentID (e : Emitter) (ns runID : Str) (prg : Program) (start : Nat)
    (lastSubCalls subCalls : List (Str × Call)) (keys : List Str) :
    ∀ (toolCalls : List Str),
      ∀ s ∈ (announceSubCalls e ns runID prg start lastSubCalls subCalls keys toolCalls).1,
        s.event.ContentID = [] := by
  induction keys with
  | nil => intro toolCalls s hs; simp [announceSubCalls] at hs
  | cons k rest ih =>
    intro toolCalls s hs
    unfold announceSubCalls at hs
    simp only at hs
    split at hs
    · exact ih _ s hs
    · split at hs
      · exact ih _ s hs
      · split at hs
        · exact ih _ s hs
        · split at hs
          · simp only [List.mem_cons] at hs
            rcases hs with hs | hs
            · rw [hs]
            · exact ih _ s hs
          · split at hs
            · simp at hs
            · simp only [List.mem_cons] at hs
              rcases hs with hs | hs
              · rw [hs]
              · exact ih _ s hs

theorem contentEvents_append (runID : Str) (i : Nat) (a b : List Progress) :
    contentEvents runID i (a ++ b) = contentEvents runID i a ++ contentEvents runID i b := by
  simp [contentEvents]

theorem contentEvents_eq_nil (runID : Str) (i : Nat) (evs : List Progress)
    (h : ∀ ev ∈ evs, ev.ContentID ≠ contentID runID i) : contentEvents runID i evs = [] := by
  unfold contentEvents
  rw [List.filter_eq_nil_iff]
  intro ev hev
  simpa using h ev hev

theorem contentEvents_eq_self (runID : Str) (i : Nat) (evs : List Progress)
    (h : ∀ ev ∈ evs, ev.ContentID = contentID runID i) : contentEvents runID i evs = evs := by
  unfold contentEvents
  rw [List.filter_eq_self]
  intro ev hev
  simpa using h ev hev

theorem events_append (a b : List Sent) : events (a ++ b) = events a ++ events b := by
  simp [events]

theorem contentEvents_announced (e : Emitter) (ns runID : Str) (prg : Program) (start : Nat)
    (lastSubCalls subCalls : List (Str × Call)) (keys toolCalls : List Str) (i : Nat) :
    contentEvents runID i
      (events (announceSubCalls e ns runID prg start lastSubCalls subCalls keys toolCalls).1) =
      [] := by
  apply contentEvents_eq_nil
  intro ev hev
  simp only [events, List.mem_map] at hev
  obtain ⟨s, hs, rfl⟩ := hev
  rw [announceSubCalls_contentID e ns runID prg start lastSubCalls subCalls keys toolCalls s hs]
  exact (contentID_ne_nil runID i).symm

/-- The events that `printOutputs` sends for the content of output index `i`. -/
theorem events_printed (start : Nat) (runID : Str) (i : Nat) (last cur : Output) :
    events ((if last.Content ≠ cur.Content then
        (printString start runID i last.Content cur.Content).1 else []).map
      (fun ev => ({ event := ev } : Sent))) =
      if last.Content ≠ cur.Content then
        (printString start runID i last.Content cur.Content).1 else [] := by
  simp [events, Function.comp_def]

theorem getD_padOutputs (lastOutputs : List Output) (i k : Nat) :
    (padOutputs lastOutputs i).getD k {} = lastOutputs.getD k {} := by
  unfold padOutputs
  simp only [List.getD_eq_getElem?_getD]
  by_cases hk : k < lastOutputs.length
  · rw [List.getElem?_append_left hk]
  · rw [List.getElem?_append_right (by omega), List.getElem?_eq_none (l := lastOutputs) (by omega)]
    by_cases h2 : k - lastOutputs.length < i + 1 - lastOutputs.length
    · rw [List.getElem?_replicate]; simp [h2]
    · rw [List.getElem?_eq_none (by simpa using h2)]

theorem getD_set_ne (l : List Output) (i k : Nat) (x : Output) (h : k ≠ i) :
    (l.set i x).getD k {} = l.getD k {} := by
  simp only [List.getD_eq_getElem?_getD]
  rw [List.getElem?_set_ne (Ne.symm h)]

theorem contentEvents_printOutputs_lt (e : Emitter) (ns runID : Str) (prg : Program) (start : Nat)
    (current : List Output) :
    ∀ (i0 : Nat) (lastOutputs : List Output) (toolCalls : List Str) (i : Nat), i < i0 →
      contentEvents runID i
        (events (printOutputs e ns runID prg start i0 current lastOutputs toolCalls).1) = [] := by
  induction current with
  | nil => intro i0 lastOutputs toolCalls i _; rfl
  | cons cur rest ih =>
    intro i0 lastOutputs toolCalls i hi
    have hsent : contentEvents runID i
        (if ((padOutputs lastOutputs i0).getD i0 {}).Content ≠ cur.Content then
          (printString start runID i0 ((padOutputs lastOutputs i0).getD i0 {}).Content
            cur.Content).1 else []) = [] := by
      apply contentEvents_eq_nil
      intro ev hev
      split at hev
      · rw [printString_contentID _ _ _ _ _ ev hev]
        intro hcon
        have := contentID_injective runID hcon
        omega
      · simp at hev
    rw [printOutputs_cons]
    simp only
    split
    · rw [events_append, contentEvents_append, events_printed, hsent, contentEvents_announced]
      rfl
    · rw [events_append, events_append, contentEvents_append, contentEvents_append,
        events_printed, hsent, contentEvents_announced, ih (i0 + 1) _ _ i (by omega)]
      rfl

/-- The content events that `printOutputs` sends for an output index it reaches. -/
theorem contentEvents_printOutputs (e : Emitter) (ns runID : Str) (prg : Program) (start : Nat)
    (current : List Output) :
    ∀ (i0 : Nat) (lastOutputs : List Output) (toolCalls : List Str) (j : Nat)
      (hj : j < current.length),
      contentEvents runID (i0 + j)
          (events (printOutputs e ns runID prg start i0 current lastOutputs toolCalls).1) =
        (if (lastOutputs.getD (i0 + j) {}).Content ≠ (current.get ⟨j, hj⟩).Content then
          (printString start runID (i0 + j) (lastOutputs.getD (i0 + j) {}).Content
            (current.get ⟨j, hj⟩).Content).1 else []) ∨
      ((printOutputs e ns runID prg start i0 current lastOutputs toolCalls).2.2.2 ≠ none ∧
        contentEvents runID (i0 + j)
          (events (printOutputs e ns runID prg start i0 current lastOutputs toolCalls).1) =
          []) := by
  induction current with
  | nil => intro i0 lastOutputs toolCalls j hj; simp at hj
  | cons cur rest ih =>
    intro i0 lastOutputs toolCalls j hj
    rw [printOutputs_cons]
    simp only
    cases j with
    | zero =>
      have hsent : contentEvents runID i0
          (if ((padOutputs lastOutputs i0).getD i0 {}).Content ≠ cur.Content then
            (printString start runID i0 ((padOutputs lastOutputs i0).getD i0 {}).Content
              cur.Content).1 else []) =
          (if ((padOutputs lastOutputs i0).getD i0 {}).Content ≠ cur.Content then
            (printString start runID i0 ((padOutputs lastOutputs i0).getD i0 {}).Content
              cur.Content).1 else []) := by
        apply contentEvents_eq_self
        intro ev hev
        split at hev
        · exact printString_contentID _ _ _ _ _ ev hev
        · simp at hev
      left
      simp only [Nat.add_zero, List.get_eq_getElem, List.getElem_cons_zero]
      split
      · rw [events_append, contentEvents_append, events_printed, hsent,
          contentEvents_announced, getD_padOutputs]
        simp
      · rw [events_append, events_append, contentEvents_append, contentEvents_append,
          events_printed, hsent, contentEvents_announced,
          contentEvents_printOutputs_lt e ns runID prg start rest (i0 + 1) _ _ i0 (by omega),
          getD_padOutputs]
        simp
    | succ j =>
      have hj' : j < rest.length := by simpa using hj
      have hsent : contentEvents runID (i0 + (j + 1))
          (if ((padOutputs lastOutputs i0).getD i0 {}).Content ≠ cur.Content then
            (printString start runID i0 ((padOutputs lastOutputs i0).getD i0 {}).Content
              cur.Content).1 else []) = [] := by
        apply contentEvents_eq_nil
        intro ev hev
        split at hev
        · rw [printString_contentID _ _ _ _ _ ev hev]
          intro hcon
          have := contentID_injective runID hcon
          omega
        · simp at hev
      split
      · right
        rename_i err herr
        refine ⟨by simp, ?_⟩
        rw [events_append, contentEvents_append, events_printed, hsent, contentEvents_announced]
        rfl
      · have hidx : i0 + (j + 1) = i0 + 1 + j := by omega
        have hgetD : (((padOutputs lastOutputs i0).set i0 (storedOutput start runID i0
            ((padOutputs lastOutputs i0).getD i0 {}) cur)).getD (i0 + 1 + j) {}) =
            lastOutputs.getD (i0 + 1 + j) {} := by
          rw [getD_set_ne _ _ _ _ (by omega), getD_padOutputs]
        have hih := ih (i0 + 1) ((padOutputs lastOutputs i0).set i0 (storedOutput start runID i0
            ((padOutputs lastOutputs i0).getD i0 {}) cur))
          (announceSubCalls e ns runID prg start ((padOutputs lastOutputs i0).getD i0 {}).SubCalls
            cur.SubCalls (sortedKeys cur.SubCalls) toolCalls).2.1 j hj'
        rw [hgetD] at hih
        simp only [hidx, List.get_eq_getElem, List.getElem_cons_succ] at hih ⊢
        rw [events_append, events_append, contentEvents_append, contentEvents_append,
          events_printed, ← hidx, hsent, contentEvents_announced, hidx]
        simpa using hih

/-- The output that an error-free `printOutputs` stores for each output index. -/
theorem printOutputs_stored (e : Emitter) (ns runID : Str) (prg : Program) (start : Nat)
    (current : List Output) :
    ∀ (i0 : Nat) (lastOutputs : List Output) (toolCalls : List Str),
      (printOutputs e ns runID prg start i0 current lastOutputs toolCalls).2.2.2 = none →
      ∀ j (hj : j < current.length),
        (printOutputs e ns runID prg start i0 current lastOutputs toolCalls).2.1[i0 + j]? =
          some (storedOutput start runID (i0 + j) (lastOutputs.getD (i0 + j) {})
            (current.get ⟨j, hj⟩)) := by
  induction current with
  | nil => intro i0 lastOutputs toolCalls _ j hj; simp at hj
  | cons cur rest ih =>
    intro i0 lastOutputs toolCalls
    rw [printOutputs_cons]
    simp only
    split
    · intro h; simp at h
    · intro h j hj
      have hlen : i0 < ((padOutputs lastOutputs i0).set i0 (storedOutput start runID i0
          ((padOutputs lastOutputs i0).getD i0 {}) cur)).length := by
        rw [List.length_set, length_padOutputs]; omega
      cases j with
      | zero =>
        simp only [Nat.add_zero, List.get_eq_getElem, List.getElem_cons_zero]
        rw [printOutputs_getElem?_lt e ns runID prg start rest (i0 + 1) _ _ i0 (by omega) hlen]
        rw [List.length_set] at hlen
        rw [getD_padOutputs, List.getElem?_set]
        simp [hlen]
      | succ j =>
        have h1 := ih (i0 + 1) _ _ h j (by simpa using hj)
        have hidx : i0 + (j + 1) = i0 + 1 + j := by omega
        rw [getD_set_ne _ _ _ _ (by omega)] at h1
        simp only [getD_padOutputs, hidx, List.get_eq_getElem, List.getElem_cons_succ] at h1 ⊢
        exact h1

theorem getD_set_self (l : List Output) (i : Nat) (x : Output) (h : i < l.length) :
    (l.set i x).getD i {} = x := by
  simp [List.getD_eq_getElem?_getD, List.getElem?_set, h]

/-- Every output that `printOutputs` leaves in `lastOutputs` is either the one that was there or
the stored form of the current output of the same index. -/
theorem printOutputs_getD (e : Emitter) (ns runID : Str) (prg : Program) (start : Nat)
    (current : List Output) :
    ∀ (i0 : Nat) (lastOutputs : List Output) (toolCalls : List Str) (k : Nat),
      (printOutputs e ns runID prg start i0 current lastOutputs toolCalls).2.1.getD k {} =
          lastOutputs.getD k {} ∨
        ∃ j, ∃ hj : j < current.length, k = i0 + j ∧
          (printOutputs e ns runID prg start i0 current lastOutputs toolCalls).2.1.getD k {} =
            storedOutput start runID k (lastOutputs.getD k {}) (current.get ⟨j, hj⟩) := by
  induction current with
  | nil => intro i0 lastOutputs toolCalls k; left; rfl
  | cons cur rest ih =>
    intro i0 lastOutputs toolCalls k
    rw [printOutputs_cons]
    simp only
    split
    · left; exact getD_padOutputs _ _ _
    · rcases ih (i0 + 1) ((padOutputs lastOutputs i0).set i0 (storedOutput start runID i0
          ((padOutputs lastOutputs i0).getD i0 {}) cur))
        (announceSubCalls e ns runID prg start ((padOutputs lastOutputs i0).getD i0 {}).SubCalls
          cur.SubCalls (sortedKeys cur.SubCalls) toolCalls).2.1 k with h | ⟨j, hj, hk, h⟩
      · by_cases hki : k = i0
        · right
          refine ⟨0, by simp, by omega, ?_⟩
          rw [h, hki, getD_set_self _ _ _ (by rw [length_padOutputs]; omega), getD_padOutputs]
          rfl
        · left
          rw [h, getD_set_ne _ _ _ _ hki, getD_padOutputs]
      · right
        refine ⟨j + 1, by simpa using hj, by omega, ?_⟩
        rw [h, getD_set_ne _ _ _ _ (by omega), getD_padOutputs]
        rfl

theorem storedOutput_content_stale (start : Nat) (runID : Str) (i : Nat) (last cur : Output)
    (hpre : cur.Content <+: last.Content) (hne : cur.Content ≠ last.Content) :
    (storedOutput start runID i last cur).Content = last.Content := by
  have hlen : cur.Content.length < last.Content.length := by
    rcases Nat.lt_or_ge cur.Content.length last.Content.length with h | h
    · exact h
    · exact absurd (hpre.eq_of_length_le h) hne
  have h1 : HasPrefix cur.Content last.Content = false := by
    rw [Bool.eq_false_iff]
    intro hcon
    have := ((HasPrefix_iff _ _).mp hcon).length_le
    omega
  have h3 : HasPrefix last.Content cur.Content = true := (HasPrefix_iff _ _).mpr hpre
  unfold storedOutput
  simp only [ne_eq, Ne.symm hne, not_false_eq_true, if_true,
    printString_stale start runID i _ _ h1 hlen h3]

theorem printString_of_stale (start : Nat) (runID : Str) (i : Nat) (last cur : Str)
    (hpre : cur <+: last) (hne : cur ≠ last) :
    printString start runID i last cur = ([], last) := by
  have hlen : cur.length < last.length := by
    rcases Nat.lt_or_ge cur.length last.length with h | h
    · exact h
    · exact absurd (hpre.eq_of_length_le h) hne
  have h1 : HasPrefix cur last = false := by
    rw [Bool.eq_false_iff]
    intro hcon
    have := ((HasPrefix_iff _ _).mp hcon).length_le
    omega
  exact printString_stale start runID i _ _ h1 hlen ((HasPrefix_iff _ _).mpr hpre)

theorem contentEvents_printInput (runID : Str) (call : CallFrame) (printed : callFramePrintState)
    (i : Nat) : contentEvents runID i (events (printInput runID call printed).1) = [] := by
  apply contentEvents_eq_nil
  intro ev hev
  unfold printInput at hev
  split at hev
  · simp only [events, List.map_cons, List.map_nil, List.mem_singleton] at hev
    rw [hev]
    exact (contentID_ne_nil runID i).symm
  · simp [events] at hev

theorem contentEvents_printCall (e : Emitter) (ns runID : Str) (prg : Program) (call : CallFrame)
    (lastPrint : printState) (i : Nat) :
    contentEvents runID i (events (printCall e ns runID prg call lastPrint).1) =
      contentEvents runID i (events (printOutputs e ns runID prg call.Start 0 call.Output
        (lastPrint.frames call.ID).Outputs lastPrint.toolCalls).1) := by
  rw [printCall_eq]
  simp only
  split <;>
  · simp only [events_append, contentEvents_append, contentEvents_printInput, List.nil_append]

/-- The outputs of the cursor of the frame after `printCall`. -/
theorem printCall_outputs_getD (e : Emitter) (ns runID : Str) (prg : Program) (call : CallFrame)
    (lastPrint : printState) (k : Nat) (hk : k < (lastPrint.frames call.ID).Outputs.length) :
    ((printCall e ns runID prg call lastPrint).2.1.frames call.ID).Outputs.getD k {} =
      (printOutputs e ns runID prg call.Start 0 call.Output
        (lastPrint.frames call.ID).Outputs lastPrint.toolCalls).2.1.getD k {} := by
  rw [printCall_eq]
  simp only
  split
  · simp only [Function.update_same]
    simp only [List.getD_eq_getElem?_getD]
    rw [List.getElem?_take_of_lt hk]
  · simp only [Function.update_same]

/-- C3. Stale rejection: when the content of output `i` of the root frame is a strict prefix of
the content that the cursor records for that frame and index, `callToEvents` sends no content
event for index `i` and leaves the recorded content of index `i` unchanged. -/
theorem stale_rejection (e : Emitter) (ns runID : Str) (prg : Program) (frames : Frames)
    (printed : printState) (i : Nat) (cur : Output)
    (hcur : (findRoot frames).Output[i]? = some cur)
    (hpre : cur.Content <+: ((printed.frames (findRoot frames).ID).Outputs.getD i {}).Content)
    (hne : cur.Content ≠ ((printed.frames (findRoot frames).ID).Outputs.getD i {}).Content) :
    contentEvents runID i (events (callToEvents e ns runID prg frames printed).1) = [] ∧
      (((callToEvents e ns runID prg frames printed).2.1.frames
        (findRoot frames).ID).Outputs.getD i {}).Content =
      ((printed.frames (findRoot frames).ID).Outputs.getD i {}).Content := by
  unfold callToEvents
  simp only
  split
  · exact ⟨rfl, rfl⟩
  · have hi : i < (findRoot frames).Output.length := by
      by_contra hge
      rw [List.getElem?_eq_none (by omega)] at hcur
      exact Option.noConfusion hcur
    have hget : (findRoot frames).Output.get ⟨i, hi⟩ = cur := by
      rw [List.getElem?_eq_getElem hi] at hcur
      exact Option.some.inj hcur
    have hk : i < (printed.frames (findRoot frames).ID).Outputs.length := by
      by_contra hge
      have hd : (printed.frames (findRoot frames).ID).Outputs.getD i {} = {} := by
        simp only [List.getD_eq_getElem?_getD]
        rw [List.getElem?_eq_none (by omega)]
        rfl
      rw [hd] at hpre hne
      exact hne (List.prefix_nil.mp hpre)
    constructor
    · rw [contentEvents_printCall]
      have h := contentEvents_printOutputs e ns runID prg (findRoot frames).Start
        (findRoot frames).Output 0 (printed.frames (findRoot frames).ID).Outputs
        printed.toolCalls i hi
      simp only [Nat.zero_add, hget] at h
      rcases h with h | ⟨_, h⟩
      · rw [h, printString_of_stale _ _ _ _ _ hpre hne]
        simp
      · exact h
    · rw [printCall_outputs_getD e ns runID prg (findRoot frames) printed i hk]
      rcases printOutputs_getD e ns runID prg (findRoot frames).Start (findRoot frames).Output 0
        (printed.frames (findRoot frames).ID).Outputs printed.toolCalls i with h | ⟨j, hj, hij, h⟩
      · rw [h]
      · have hji : j = i := by omega
        subst hji
        rw [h, hget]
        exact storedOutput_content_stale _ _ _ _ _ hpre hne

/-- C3, at a cursor that has recorded `Waiting` and a snapshot with the content `Wait`. -/
theorem stale_rejection_witness :
    contentEvents "r".data 0 (events (callToEvents plainEmitter [] "r".data {}
        (helloFrames "Wait".data) (seenState "Waiting".data)).1) = [] ∧
      (((callToEvents plainEmitter [] "r".data {} (helloFrames "Wait".data)
        (seenState "Waiting".data)).2.1.frames
          (findRoot (helloFrames "Wait".data)).ID).Outputs.getD 0 {}).Content =
      (((seenState "Waiting".data).frames
        (findRoot (helloFrames "Wait".data)).ID).Outputs.getD 0 {}).Content :=
  stale_rejection plainEmitter [] "r".data {} (helloFrames "Wait".data)
    (seenState "Waiting".data) 0 { Content := "Wait".data } (by decide) (by decide) (by decide)

/-! ## C2: the content sent for an output index over a sequence of snapshots -/

theorem cutAt_eq_none (sep : Str) (s : Str) (h : ¬ sep <:+: s) : cutAt sep s = none := by
  induction s with
  | nil =>
    unfold cutAt
    have : HasPrefix [] sep = false := by
      rw [Bool.eq_false_iff]
      intro hcon
      exact h ((HasPrefix_iff _ _).mp hcon).isInfix
    simp [this]
  | cons c t ih =>
    unfold cutAt
    have h1 : HasPrefix (c :: t) sep = false := by
      rw [Bool.eq_false_iff]
      intro hcon
      exact h ((HasPrefix_iff _ _).mp hcon).isInfix
    have h2 : ¬ sep <:+: t := fun hcon => h (hcon.trans (List.suffix_cons c t).isInfix)
    simp [h1, ih h2]

theorem Cut_of_absent (sep : Str) (s : Str) (h : ¬ sep <:+: s) : Cut s sep = (s, [], false) := by
  unfold Cut
  rw [cutAt_eq_none sep s h]

theorem printDelta_clean (time : Nat) (runID : Str) (i : Nat) (current toPrint : Str)
    (hwait : ¬ waitingMarker <+: toPrint) (h1 : ¬ toolCallDelim <:+: toPrint)
    (h2 : ¬ toolCallDelim <:+: current) :
    (printDelta time runID i current toPrint).1.map Progress.Content = [toPrint] := by
  have hw : HasPrefix toPrint waitingMarker = false := by
    rw [Bool.eq_false_iff]
    intro hcon
    exact hwait ((HasPrefix_iff _ _).mp hcon)
  unfold printDelta
  simp [CutPrefix, hw, Cut_of_absent _ _ h1, Cut_of_absent _ _ h2]

theorem storedOutput_content_of_extends (start : Nat) (runID : Str) (i : Nat) (last cur : Output)
    (hpre : last.Content <+: cur.Content) :
    (storedOutput start runID i last cur).Content = cur.Content := by
  unfold storedOutput
  by_cases h : last.Content = cur.Content
  · simp [h]
  · simp only [ne_eq, h, not_false_eq_true, if_true, printString,
      (HasPrefix_iff _ _).mpr hpre, printDelta_snd]

theorem emittedContent_append (runID : Str) (i : Nat) (a b : List Progress) :
    emittedContent runID i (a ++ b) = emittedContent runID i a ++ emittedContent runID i b := by
  simp [emittedContent, contentEvents_append]

/-- One error-free delivery of a snapshot whose content of index `i` extends the recorded one and
carries no control marker: the content sent for index `i` is the delta, and the cursor then
records the content of the snapshot. -/
theorem callToEvents_step (e : Emitter) (ns runID fid : Str) (i : Nat) (s : Snapshot)
    (printed : printState) (hfid : fid ≠ []) (hdel : Delivers fid i s)
    (hok : (callToEvents e ns runID s.prg s.frames printed).2.2 = none)
    (hpre : ((printed.frames fid).Outputs.getD i {}).Content <+: rootContent i s)
    (hwait : ¬ waitingMarker <+:
      (rootContent i s).drop ((printed.frames fid).Outputs.getD i {}).Content.length)
    (hdelim : ¬ toolCallDelim <:+: rootContent i s) :
    emittedContent runID i (events (callToEvents e ns runID s.prg s.frames printed).1) =
        (rootContent i s).drop ((printed.frames fid).Outputs.getD i {}).Content.length ∧
      (((callToEvents e ns runID s.prg s.frames printed).2.1.frames fid).Outputs.getD i {}).Content
        = rootContent i s := by
  obtain ⟨hid, hstart, hi⟩ := hdel
  subst hid
  have hroot : ¬ ((findRoot s.frames).ID = [] ∨ (findRoot s.frames).Start = 0) :=
    fun h => h.elim hfid hstart
  unfold callToEvents at hok ⊢
  simp only [hroot, if_false] at hok ⊢
  have hcur : (findRoot s.frames).Output.get ⟨i, hi⟩ = (findRoot s.frames).Output.getD i {} := by
    simp [List.getD_eq_getElem?_getD, List.getElem?_eq_getElem hi]
  have hok' : (printOutputs e ns runID s.prg (findRoot s.frames).Start 0 (findRoot s.frames).Output
      (printed.frames (findRoot s.frames).ID).Outputs printed.toolCalls).2.2.2 = none := by
    rw [printCall_eq] at hok
    simp only at hok
    split at hok
    · simp at hok
    · assumption
  unfold rootContent at hpre hwait hdelim ⊢
  constructor
  · unfold emittedContent
    rw [contentEvents_printCall]
    have h := contentEvents_printOutputs e ns runID s.prg (findRoot s.frames).Start
      (findRoot s.frames).Output 0 (printed.frames (findRoot s.frames).ID).Outputs
      printed.toolCalls i hi
    simp only [Nat.zero_add, hcur] at h
    rcases h with h | ⟨h, _⟩
    · rw [h]
      split
      · rw [printString]
        simp only [(HasPrefix_iff _ _).mpr hpre, if_true]
        rw [printDelta_clean _ _ _ _ _ hwait
          (fun hcon => hdelim (hcon.trans (List.drop_suffix _ _).isInfix)) hdelim]
        simp
      · rename_i heq
        simp only [ne_eq, not_not] at heq
        rw [heq]
        simp
    · exact absurd hok' h
  · rw [printCall_eq]
    simp only [hok', Function.update_same]
    have h := printOutputs_stored e ns runID s.prg (findRoot s.frames).Start
      (findRoot s.frames).Output 0 (printed.frames (findRoot s.frames).ID).Outputs
      printed.toolCalls hok' i hi
    simp only [Nat.zero_add, hcur] at h
    simp only [List.getD_eq_getElem?_getD] at h ⊢
    rw [h]
    simp only [Option.getD_some]
    exact storedOutput_content_of_extends _ _ _ _ _ (by simpa [List.getD_eq_getElem?_getD] using hpre)

theorem feed_cons (e : Emitter) (ns runID : Str) (s : Snapshot) (rest : List Snapshot)
    (printed : printState) :
    feed e ns runID (s :: rest) printed =
      (let r := callToEvents e ns runID s.prg s.frames printed
       match r.2.2 with
       | some err => (r.1, r.2.1, some err)
       | none =>
         let more := feed e ns runID rest r.2.1
         (r.1 ++ more.1, more.2.1, more.2.2)) := by
  rw [feed]
  generalize callToEvents e ns runID s.prg s.frames printed = r
  obtain ⟨sent, st, _ | err⟩ := r <;> rfl

theorem feed_content (e : Emitter) (ns runID fid : Str) (i : Nat) (hfid : fid ≠ [])
    (snaps : List Snapshot) :
    ∀ (printed : printState),
      (∀ s ∈ snaps, Delivers fid i s) →
      List.Chain (fun a b => a <+: b ∧ ¬ waitingMarker <+: b.drop a.length)
        ((printed.frames fid).Outputs.getD i {}).Content (snaps.map (rootContent i)) →
      (∀ s ∈ snaps, ¬ toolCallDelim <:+: rootContent i s) →
      (feed e ns runID snaps printed).2.2 = none →
      ((printed.frames fid).Outputs.getD i {}).Content ++
          emittedContent runID i (events (feed e ns runID snaps printed).1) =
        (((printed.frames fid).Outputs.getD i {}).Content ::
          snaps.map (rootContent i)).getLast (List.cons_ne_nil _ _) := by
  induction snaps with
  | nil =>
    intro printed _ _ _ _
    simp [feed, events, emittedContent, contentEvents]
  | cons s rest ih =>
    intro printed hdel hchain hdelim hok
    rw [List.map_cons, List.chain_cons] at hchain
    obtain ⟨⟨hpre, hwait⟩, hchain⟩ := hchain
    rw [feed_cons] at hok ⊢
    simp only at hok ⊢
    rcases hcall : (callToEvents e ns runID s.prg s.frames printed).2.2 with _ | err
    · simp only [hcall] at hok ⊢
      obtain ⟨hem, hcur⟩ := callToEvents_step e ns runID fid i s printed hfid
        (hdel s (List.mem_cons_self _ _)) hcall hpre hwait (hdelim s (List.mem_cons_self _ _))
      have hrest := ih (callToEvents e ns runID s.prg s.frames printed).2.1
        (fun s' hs' => hdel s' (List.mem_cons_of_mem _ hs'))
        (by rw [hcur]; exact hchain)
        (fun s' hs' => hdelim s' (List.mem_cons_of_mem _ hs')) hok
      rw [hcur] at hrest
      rw [events_append, emittedContent_append, hem, ← List.append_assoc,
        List.prefix_iff_eq_append.mp hpre, hrest]
      simp [List.getLast_cons]
    · simp [hcall] at hok

theorem chain_le_last (R : Str → Str → Prop) (l : List Str) :
    ∀ (a : Str), List.Chain (fun a b => a <+: b ∧ R a b) a l →
      ∀ c ∈ a :: l, c <+: (a :: l).getLast (List.cons_ne_nil _ _) := by
  induction l with
  | nil => intro a _ c hc; simp at hc; simp [hc]
  | cons b rest ih =>
    intro a hchain c hc
    rw [List.chain_cons] at hchain
    have hlast : (a :: b :: rest).getLast (List.cons_ne_nil _ _) =
        (b :: rest).getLast (List.cons_ne_nil _ _) := by simp [List.getLast_cons]
    rw [hlast]
    rcases List.mem_cons.mp hc with h | h
    · rw [h]
      exact hchain.1.1.trans (ih b hchain.2 b (List.mem_cons_self _ _))
    · exact ih b hchain.2 c h

theorem getLast_cons_map (i : Nat) (a : Str) (snaps : List Snapshot) (hne : snaps ≠ []) :
    (a :: snaps.map (rootContent i)).getLast (List.cons_ne_nil _ _) =
      rootContent i (snaps.getLast hne) := by
  induction snaps generalizing a with
  | nil => exact absurd rfl hne
  | cons s rest ih =>
    cases rest with
    | nil => simp
    | cons s' rest' =>
      have := ih (rootContent i s) (List.cons_ne_nil _ _)
      simp only [List.map_cons] at this ⊢
      rw [List.getLast_cons (List.cons_ne_nil _ _), this, List.getLast_cons (List.cons_ne_nil _ _)]

/-- C2 (amended). Monotonic content: when a sequence of snapshots is delivered from a fresh
print state without error, each with the started root frame `fid` and an output of index `i`
whose content extends the previous one, when no delivered delta begins with the marker
`Waiting for model response...` and the final content does not contain the delimiter
`<tool call> `, the concatenation of the `Content` fields of the content events sent for index
`i` is the content of index `i` in the final snapshot. -/
theorem content_monotonic (e : Emitter) (ns runID fid : Str) (i : Nat)
    (snaps : List Snapshot) (hne : snaps ≠ []) (hfid : fid ≠ [])
    (hdel : ∀ s ∈ snaps, Delivers fid i s)
    (hmono : List.Chain (fun a b => a <+: b ∧ ¬ waitingMarker <+: b.drop a.length) []
      (snaps.map (rootContent i)))
    (hdelim : ¬ toolCallDelim <:+: rootContent i (snaps.getLast hne))
    (hok : (feed e ns runID snaps (newPrintState none)).2.2 = none) :
    emittedContent runID i (events (feed e ns runID snaps (newPrintState none)).1) =
      rootContent i (snaps.getLast hne) := by
  have hfresh : (((newPrintState none).frames fid).Outputs.getD i {}).Content = [] := rfl
  have hall : ∀ s ∈ snaps, ¬ toolCallDelim <:+: rootContent i s := by
    intro s hs hcon
    have hp := chain_le_last (fun a b => ¬ waitingMarker <+: b.drop a.length)
      (snaps.map (rootContent i)) [] hmono (rootContent i s)
      (List.mem_cons_of_mem _ (List.mem_map_of_mem _ hs))
    rw [getLast_cons_map i [] snaps hne] at hp
    exact hdelim (hcon.trans hp.isInfix)
  have h := feed_content e ns runID fid i hfid snaps (newPrintState none) hdel
    (by rw [hfresh]; exact hmono) hall hok
  rw [hfresh, List.nil_append, getLast_cons_map i [] snaps hne] at h
  exact h

/-- C2, at the two snapshots `Wait` and `Waiting` of the scenario's frame. -/
theorem content_monotonic_witness :
    emittedContent "r".data 0 (events (feed plainEmitter [] "r".data
        [{ frames := helloFrames "Wait".data }, { frames := helloFrames "Waiting".data }]
        (newPrintState none)).1) =
      rootContent 0 ([{ frames := helloFrames "Wait".data },
        ({ frames := helloFrames "Waiting".data } : Snapshot)].getLast (by simp)) :=
  content_monotonic plainEmitter [] "r".data "f".data 0
    [{ frames := helloFrames "Wait".data }, { frames := helloFrames "Waiting".data }]
    (by simp) (by decide) (by decide)
    (List.Chain.cons ⟨by decide, by decide⟩
      (List.Chain.cons ⟨by decide, by decide⟩ List.Chain.nil))
    (by decide) (by decide)

/-- C2 as stated fails: a single snapshot whose content is the waiting marker followed by
`done`, delivered to a fresh print state, yields the content `done` for index `0`, not the
content of the snapshot. -/
theorem content_monotonic_counterexample :
    Delivers "f".data 0 { frames := helloFrames "Waiting for model response...done".data } ∧
      (feed plainEmitter [] "r".data
        [{ frames := helloFrames "Waiting for model response...done".data }]
        (newPrintState none)).2.2 = none ∧
      emittedContent "r".data 0 (events (feed plainEmitter [] "r".data
        [{ frames := helloFrames "Waiting for model response...done".data }]
        (newPrintState none)).1) = "done".data ∧
      emittedContent "r".data 0 (events (feed plainEmitter [] "r".data
        [{ frames := helloFrames "Waiting for model response...done".data }]
        (newPrintState none)).1) ≠
        rootContent 0 { frames := helloFrames "Waiting for model response...done".data } := by
  refine ⟨by decide, by decide, by decide, by decide⟩

/-! ## C4: the announced set -/

theorem announcedIDs_append (a b : List Sent) :
    announcedIDs (a ++ b) = announcedIDs a ++ announcedIDs b := by
  simp [announcedIDs]

theorem Announces.refl (toolCalls : List Str) : Announces toolCalls [] toolCalls := by
  refine ⟨?_, ?_, ?_, ?_⟩ <;> simp [announcedIDs]

theorem Announces.trans {t0 t1 t2 : List Str} {s1 s2 : List Sent}
    (h1 : Announces t0 s1 t1) (h2 : Announces t1 s2 t2) : Announces t0 (s1 ++ s2) t2 := by
  obtain ⟨a1, b1, c1, d1⟩ := h1
  obtain ⟨a2, b2, c2, d2⟩ := h2
  refine ⟨?_, ?_, ?_, ?_⟩
  · intro x hx
    rw [announcedIDs_append, List.mem_append] at hx
    rcases hx with hx | hx
    · exact a1 x hx
    · exact fun hcon => a2 x hx (d1 x hcon)
  · rw [announcedIDs_append, List.nodup_append]
    refine ⟨b1, b2, ?_⟩
    intro x hx1 hx2
    exact a2 x hx2 (c1 x hx1)
  · intro x hx
    rw [announcedIDs_append, List.mem_append] at hx
    rcases hx with hx | hx
    · exact d2 x (c1 x hx)
    · exact c2 x hx
  · exact fun x hx => d2 x (d1 x hx)

theorem Announces.of_unlabelled (toolCalls : List Str) (sent : List Sent)
    (h : ∀ s ∈ sent, s.subCall = none) : Announces toolCalls sent toolCalls := by
  have : announcedIDs sent = [] := by
    unfold announcedIDs
    rw [List.filterMap_eq_nil_iff]
    exact h
  refine ⟨?_, ?_, ?_, ?_⟩ <;> simp [this]

theorem Announces.announce (callID : Str) (ev : Progress) {toolCalls toolCalls' : List Str}
    {sent : List Sent} (hnew : callID ∉ toolCalls)
    (h : Announces (callID :: toolCalls) sent toolCalls') :
    Announces toolCalls ({ event := ev, subCall := some callID } :: sent) toolCalls' := by
  have h1 : Announces toolCalls [{ event := ev, subCall := some callID }]
      (callID :: toolCalls) := by
    refine ⟨?_, ?_, ?_, fun x hx => List.mem_cons_of_mem _ hx⟩ <;> simp [announcedIDs, hnew]
  exact h1.trans h

theorem Announces.mark (callID : Str) {toolCalls toolCalls' : List Str}
    {sent : List Sent} (h : Announces (callID :: toolCalls) sent toolCalls') :
    Announces toolCalls sent toolCalls' := by
  have h1 : Announces toolCalls [] (callID :: toolCalls) := by
    refine ⟨?_, ?_, ?_, fun x hx => List.mem_cons_of_mem _ hx⟩ <;> simp [announcedIDs]
  exact h1.trans h

theorem announceSubCalls_announces (e : Emitter) (ns runID : Str) (prg : Program) (start : Nat)
    (lastSubCalls subCalls : List (Str × Call)) (keys : List Str) :
    ∀ (toolCalls : List Str),
      Announces toolCalls
        (announceSubCalls e ns runID prg start lastSubCalls subCalls keys toolCalls).1
        (announceSubCalls e ns runID prg start lastSubCalls subCalls keys toolCalls).2.1 := by
  induction keys with
  | nil => intro toolCalls; exact Announces.refl _
  | cons k rest ih =>
    intro toolCalls
    unfold announceSubCalls
    simp only
    split
    · exact ih _
    · split
      · exact ih _
      · rename_i hnew
        split
        · exact Announces.mark k (ih _)
        · split
          · exact Announces.announce k _ hnew (ih _)
          · split
            · exact Announces.refl _
            · exact Announces.announce k _ hnew (ih _)

theorem printOutputs_announces (e : Emitter) (ns runID : Str) (prg : Program) (start : Nat)
    (current : List Output) :
    ∀ (i0 : Nat) (lastOutputs : List Output) (toolCalls : List Str),
      Announces toolCalls
        (printOutputs e ns runID prg start i0 current lastOutputs toolCalls).1
        (printOutputs e ns runID prg start i0 current lastOutputs toolCalls).2.2.1 := by
  induction current with
  | nil => intro i0 lastOutputs toolCalls; exact Announces.refl _
  | cons cur rest ih =>
    intro i0 lastOutputs toolCalls
    have hsent : ∀ tc, Announces tc
        ((if ((padOutputs lastOutputs i0).getD i0 {}).Content ≠ cur.Content then
            (printString start runID i0 ((padOutputs lastOutputs i0).getD i0 {}).Content
              cur.Content).1 else []).map (fun ev => ({ event := ev } : Sent))) tc := by
      intro tc
      apply Announces.of_unlabelled
      intro s hs
      simp only [List.mem_map] at hs
      obtain ⟨ev, _, rfl⟩ := hs
      rfl
    rw [printOutputs_cons]
    simp only
    split
    · exact (hsent _).trans (announceSubCalls_announces _ _ _ _ _ _ _ _ _)
    · exact ((hsent _).trans (announceSubCalls_announces _ _ _ _ _ _ _ _ _)).trans (ih _ _ _)

theorem printCall_toolCalls (e : Emitter) (ns runID : Str) (prg : Program) (call : CallFrame)
    (lastPrint : printState) :
    (printCall e ns runID prg call lastPrint).2.1.toolCalls =
      (printOutputs e ns runID prg call.Start 0 call.Output
        (lastPrint.frames call.ID).Outputs lastPrint.toolCalls).2.2.1 := by
  rw [printCall_eq]
  simp only
  split <;> rfl

theorem printCall_sent (e : Emitter) (ns runID : Str) (prg : Program) (call : CallFrame)
    (lastPrint : printState) :
    (printCall e ns runID prg call lastPrint).1 =
      (printInput runID call (lastPrint.frames call.ID)).1 ++
      (printOutputs e ns runID prg call.Start 0 call.Output
        (lastPrint.frames call.ID).Outputs lastPrint.toolCalls).1 := by
  rw [printCall_eq]
  simp only
  split <;> rfl

theorem printInput_unlabelled (runID : Str) (call : CallFrame) (printed : callFramePrintState) :
    ∀ s ∈ (printInput runID call printed).1, s.subCall = none := by
  intro s hs
  unfold printInput at hs
  split at hs
  · simp only [List.mem_singleton] at hs
    rw [hs]
  · simp at hs

theorem callToEvents_announces (e : Emitter) (ns runID : Str) (prg : Program) (frames : Frames)
    (printed : printState) :
    Announces printed.toolCalls (callToEvents e ns runID prg frames printed).1
      (callToEvents e ns runID prg frames printed).2.1.toolCalls := by
  unfold callToEvents
  simp only
  split
  · exact Announces.refl _
  · rw [printCall_toolCalls, printCall_sent]
    exact (Announces.of_unlabelled _ _ (printInput_unlabelled _ _ _)).trans
      (printOutputs_announces _ _ _ _ _ _ _ _ _)

theorem runOps_announces (ops : List Op) :
    ∀ (printed : printState),
      Announces printed.toolCalls (runOps ops printed).1 (runOps ops printed).2.toolCalls := by
  induction ops with
  | nil => intro printed; exact Announces.refl _
  | cons op rest ih =>
    intro printed
    cases op with
    | call e ns runID prg frames =>
      simp only [runOps]
      exact (callToEvents_announces e ns runID prg frames printed).trans (ih _)
    | chain =>
      simp only [runOps]
      exact ih (newPrintState (some printed))

theorem printDelta_labelled (time : Nat) (runID : Str) (i : Nat) (current toPrint : Str) :
    ∀ ev ∈ (printDelta time runID i current toPrint).1,
      Labelled { event := ev } := by
  intro ev hev
  simp only [printDelta, List.mem_singleton] at hev
  rw [hev]
  rfl

theorem printString_labelled (time : Nat) (runID : Str) (i : Nat) (last current : Str) :
    ∀ ev ∈ (printString time runID i last current).1, Labelled { event := ev } := by
  unfold printString
  split
  · exact printDelta_labelled _ _ _ _ _
  · split
    · intro ev hev; simp at hev
    · exact printDelta_labelled _ _ _ _ _

theorem announceSubCalls_labelled (e : Emitter) (ns runID : Str) (prg : Program) (start : Nat)
    (lastSubCalls subCalls : List (Str × Call)) (keys : List Str) :
    ∀ (toolCalls : List Str),
      ∀ s ∈ (announceSubCalls e ns runID prg start lastSubCalls subCalls keys toolCalls).1,
        Labelled s := by
  induction keys with
  | nil => intro toolCalls s hs; simp [announceSubCalls] at hs
  | cons k rest ih =>
    intro toolCalls s hs
    unfold announceSubCalls at hs
    simp only at hs
    split at hs
    · exact ih _ s hs
    · split at hs
      · exact ih _ s hs
      · split at hs
        · exact ih _ s hs
        · split at hs
          · simp only [List.mem_cons] at hs
            rcases hs with hs | hs
            · rw [hs]; rfl
            · exact ih _ s hs
          · split at hs
            · simp at hs
            · simp only [List.mem_cons] at hs
              rcases hs with hs | hs
              · rw [hs]; rfl
              · exact ih _ s hs

theorem printOutputs_labelled (e : Emitter) (ns runID : Str) (prg : Program) (start : Nat)
    (current : List Output) :
    ∀ (i0 : Nat) (lastOutputs : List Output) (toolCalls : List Str),
      ∀ s ∈ (printOutputs e ns runID prg start i0 current lastOutputs toolCalls).1,
        Labelled s := by
  induction current with
  | nil => intro i0 lastOutputs toolCalls s hs; simp [printOutputs] at hs
  | cons cur rest ih =>
    intro i0 lastOutputs toolCalls s
    have hsent : ∀ s ∈ (if ((padOutputs lastOutputs i0).getD i0 {}).Content ≠ cur.Content then
            (printString start runID i0 ((padOutputs lastOutputs i0).getD i0 {}).Content
              cur.Content).1 else []).map (fun ev => ({ event := ev } : Sent)), Labelled s := by
      intro s hs
      simp only [List.mem_map] at hs
      obtain ⟨ev, hev, rfl⟩ := hs
      split at hev
      · exact printString_labelled _ _ _ _ _ ev hev
      · simp at hev
    rw [printOutputs_cons]
    simp only
    split
    · intro hs
      rcases List.mem_append.mp hs with h | h
      · exact hsent s h
      · exact announceSubCalls_labelled _ _ _ _ _ _ _ _ _ s h
    · intro hs
      rcases List.mem_append.mp hs with h | h
      · rcases List.mem_append.mp h with h | h
        · exact hsent s h
        · exact announceSubCalls_labelled _ _ _ _ _ _ _ _ _ s h
      · exact ih _ _ _ s h

theorem callToEvents_labelled (e : Emitter) (ns runID : Str) (prg : Program) (frames : Frames)
    (printed : printState) :
    ∀ s ∈ (callToEvents e ns runID prg frames printed).1, Labelled s := by
  intro s
  unfold callToEvents
  simp only
  split
  · intro hs; simp at hs
  · rw [printCall_sent]
    intro hs
    rcases List.mem_append.mp hs with h | h
    · unfold printInput at h
      split at h
      · simp only [List.mem_singleton] at h
        rw [h]; rfl
      · simp at h
    · exact printOutputs_labelled _ _ _ _ _ _ _ _ _ s h

theorem runOps_labelled (ops : List Op) :
    ∀ (printed : printState), ∀ s ∈ (runOps ops printed).1, Labelled s := by
  induction ops with
  | nil => intro printed s hs; simp [runOps] at hs
  | cons op rest ih =>
    intro printed s hs
    cases op with
    | call e ns runID prg frames =>
      simp only [runOps] at hs
      rcases List.mem_append.mp hs with h | h
      · exact callToEvents_labelled _ _ _ _ _ _ s h
      · exact ih _ s h
    | chain =>
      simp only [runOps] at hs
      exact ih _ s hs

/-- C4. Over any sequence of `callToEvents` calls interleaved with `newPrintState(old)`
transitions: no announcement is caused by a sub-call id already in the announced set, no id
causes two announcements, every id that causes an announcement is in the set afterwards and the
set never loses an id; the events that carry a sub-call id are exactly the tool-call and
workflow-call announcements; `newPrintState(old)` keeps the set of `old`, and
`newPrintState(nil)` starts from the empty set. -/
theorem announced_at_most_once (ops : List Op) (printed old : printState) :
    (∀ x ∈ announcedIDs (runOps ops printed).1, x ∉ printed.toolCalls) ∧
      (announcedIDs (runOps ops printed).1).Nodup ∧
      (∀ x ∈ announcedIDs (runOps ops printed).1, x ∈ (runOps ops printed).2.toolCalls) ∧
      (∀ x ∈ printed.toolCalls, x ∈ (runOps ops printed).2.toolCalls) ∧
      (∀ s ∈ (runOps ops printed).1, Labelled s) ∧
      (newPrintState (some old)).toolCalls = old.toolCalls ∧
      (newPrintState none).toolCalls = [] := by
  obtain ⟨h1, h2, h3, h4⟩ := runOps_announces ops printed
  exact ⟨h1, h2, h3, h4, runOps_labelled ops printed, rfl, rfl⟩

/-- C4, at a traversal that delivers a sub-call, revises its output, chains to the next run and
delivers the sub-call again: the id `c1` causes one announcement. -/
theorem announced_at_most_once_witness :
    announcedIDs (runOps
        [.call plainEmitter [] "r".data oneToolPrg (subCallFrames "a".data "t".data),
         .call plainEmitter [] "r".data oneToolPrg (subCallFrames "ab".data "t".data),
         .chain,
         .call plainEmitter [] "r2".data oneToolPrg (subCallFrames "a".data "t".data)]
        (newPrintState none)).1 = ["c1".data] ∧
      (announcedIDs (runOps
        [.call plainEmitter [] "r".data oneToolPrg (subCallFrames "a".data "t".data),
         .call plainEmitter [] "r".data oneToolPrg (subCallFrames "ab".data "t".data),
         .chain,
         .call plainEmitter [] "r2".data oneToolPrg (subCallFrames "a".data "t".data)]
        (newPrintState none)).1).Nodup :=
  ⟨by decide, (announced_at_most_once
    [.call plainEmitter [] "r".data oneToolPrg (subCallFrames "a".data "t".data),
     .call plainEmitter [] "r".data oneToolPrg (subCallFrames "ab".data "t".data),
     .chain,
     .call plainEmitter [] "r2".data oneToolPrg (subCallFrames "a".data "t".data)]
    (newPrintState none) (newPrintState none)).2.1⟩

/-! ## C5: one announcement for a sub-call id -/

theorem announceSubCalls_marked (e : Emitter) (ns runID : Str) (prg : Program) (start : Nat)
    (lastSubCalls subCalls : List (Str × Call)) (keys : List Str) :
    ∀ (toolCalls : List Str),
      ∀ x ∈ (announceSubCalls e ns runID prg start lastSubCalls subCalls keys toolCalls).2.1,
        x ∈ toolCalls ∨
        x ∈ announcedIDs
          (announceSubCalls e ns runID prg start lastSubCalls subCalls keys toolCalls).1 ∨
        (x ∈ keys ∧
          prg.ToolSet.lookup ((subCalls.lookup x).getD { ToolID := [], Input := [] }).ToolID =
            none) := by
  induction keys with
  | nil => intro toolCalls x hx; left; exact hx
  | cons k rest ih =>
    intro toolCalls x
    have hstep : ∀ (evs : List Sent) (tc : List Str),
        (x ∈ tc ∨ x ∈ announcedIDs evs ∨ (x ∈ rest ∧
          prg.ToolSet.lookup ((subCalls.lookup x).getD { ToolID := [], Input := [] }).ToolID =
            none)) →
        (x ∈ tc ∨ x ∈ announcedIDs evs ∨ (x ∈ k :: rest ∧
          prg.ToolSet.lookup ((subCalls.lookup x).getD { ToolID := [], Input := [] }).ToolID =
            none)) := by
      intro evs tc h
      rcases h with h | h | ⟨h, h'⟩
      · exact Or.inl h
      · exact Or.inr (Or.inl h)
      · exact Or.inr (Or.inr ⟨List.mem_cons_of_mem _ h, h'⟩)
    unfold announceSubCalls
    simp only
    split
    · exact fun hx => hstep _ _ (ih _ x hx)
    · split
      · exact fun hx => hstep _ _ (ih _ x hx)
      · split
        · rename_i hnone
          intro hx
          rcases ih _ x hx with h | h | ⟨h, h'⟩
          · rcases List.mem_cons.mp h with h | h
            · right; right
              rw [h]
              exact ⟨List.mem_cons_self _ _, hnone⟩
            · exact Or.inl h
          · exact Or.inr (Or.inl h)
          · exact Or.inr (Or.inr ⟨List.mem_cons_of_mem _ h, h'⟩)
        · split
          · intro hx
            rcases ih _ x hx with h | h | ⟨h, h'⟩
            · rcases List.mem_cons.mp h with h | h
              · right; left
                simp [announcedIDs, h]
              · exact Or.inl h
            · right; left
              simp only [announcedIDs, List.filterMap_cons] at h ⊢
              exact List.mem_cons_of_mem _ h
            · exact Or.inr (Or.inr ⟨List.mem_cons_of_mem _ h, h'⟩)
          · split
            · exact fun hx => Or.inl hx
            · intro hx
              rcases ih _ x hx with h | h | ⟨h, h'⟩
              · rcases List.mem_cons.mp h with h | h
                · right; left
                  simp [announcedIDs, h]
                · exact Or.inl h
              · right; left
                simp only [announcedIDs, List.filterMap_cons] at h ⊢
                exact List.mem_cons_of_mem _ h
              · exact Or.inr (Or.inr ⟨List.mem_cons_of_mem _ h, h'⟩)

theorem announceSubCalls_covers (e : Emitter) (ns runID : Str) (prg : Program) (start : Nat)
    (lastSubCalls subCalls : List (Str × Call)) (keys : List Str) :
    ∀ (toolCalls : List Str),
      (announceSubCalls e ns runID prg start lastSubCalls subCalls keys toolCalls).2.2 = none →
      ∀ k ∈ keys, (lastSubCalls.lookup k).isSome = true ∨
        k ∈ (announceSubCalls e ns runID prg start lastSubCalls subCalls keys toolCalls).2.1 := by
  induction keys with
  | nil => intro toolCalls _ k hk; simp at hk
  | cons k0 rest ih =>
    intro toolCalls hok k hk
    have hmono := fun tc => (announceSubCalls_announces e ns runID prg start lastSubCalls subCalls
      rest tc).2.2.2
    unfold announceSubCalls at hok ⊢
    simp only at hok ⊢
    split
    · rename_i hlast
      simp only [hlast, if_true] at hok
      rcases List.mem_cons.mp hk with h | h
      · left; rw [h]; exact hlast
      · exact ih _ hok k h
    · rename_i hlast
      simp only [hlast] at hok
      split
      · rename_i hseen
        simp only [hseen, if_true] at hok
        rcases List.mem_cons.mp hk with h | h
        · right; rw [h]; exact hmono _ _ hseen
        · exact ih _ hok k h
      · rename_i hseen
        simp only [hseen, if_false] at hok
        split
        · rename_i hnone
          simp only [hnone] at hok
          rcases List.mem_cons.mp hk with h | h
          · right; rw [h]; exact hmono _ _ (List.mem_cons_self _ _)
          · exact ih _ hok k h
        · rename_i tool hsome
          simp only [hsome] at hok
          split
          · rename_i hwf
            simp only [hwf, if_true] at hok
            rcases List.mem_cons.mp hk with h | h
            · right; rw [h]; exact hmono _ _ (List.mem_cons_self _ _)
            · exact ih _ hok k h
          · rename_i hwf
            simp only [hwf, if_false] at hok
            split
            · rename_i err herr
              simp [herr] at hok
            · rename_i threadID hthread
              simp only [hthread] at hok
              rcases List.mem_cons.mp hk with h | h
              · right; rw [h]; exact hmono _ _ (List.mem_cons_self _ _)
              · exact ih _ hok k h

theorem lookup_eq_some_of_isSome (m : List (Str × Call)) (x : Str)
    (h : (m.lookup x).isSome = true) :
    m.lookup x = some ((m.lookup x).getD { ToolID := [], Input := [] }) := by
  cases hl : m.lookup x with
  | none => rw [hl] at h; simp at h
  | some c => rfl

theorem printOutputs_marked (e : Emitter) (ns runID : Str) (prg : Program) (start : Nat)
    (current : List Output) :
    ∀ (i0 : Nat) (lastOutputs : List Output) (toolCalls : List Str),
      ∀ x ∈ (printOutputs e ns runID prg start i0 current lastOutputs toolCalls).2.2.1,
        x ∈ toolCalls ∨
        x ∈ announcedIDs (printOutputs e ns runID prg start i0 current lastOutputs toolCalls).1 ∨
        ∃ o ∈ current, ∃ c, o.SubCalls.lookup x = some c ∧ prg.ToolSet.lookup c.ToolID = none := by
  induction current with
  | nil => intro i0 lastOutputs toolCalls x hx; left; exact hx
  | cons cur rest ih =>
    intro i0 lastOutputs toolCalls x
    have hsent : announcedIDs
        ((if ((padOutputs lastOutputs i0).getD i0 {}).Content ≠ cur.Content then
            (printString start runID i0 ((padOutputs lastOutputs i0).getD i0 {}).Content
              cur.Content).1 else []).map (fun ev => ({ event := ev } : Sent))) = [] := by
      unfold announcedIDs
      rw [List.filterMap_eq_nil_iff]
      intro s hs
      simp only [List.mem_map] at hs
      obtain ⟨ev, _, rfl⟩ := hs
      rfl
    have hann : ∀ y ∈ (announceSubCalls e ns runID prg start
        ((padOutputs lastOutputs i0).getD i0 {}).SubCalls cur.SubCalls (sortedKeys cur.SubCalls)
        toolCalls).2.1,
        y ∈ toolCalls ∨ y ∈ announcedIDs (announceSubCalls e ns runID prg start
          ((padOutputs lastOutputs i0).getD i0 {}).SubCalls cur.SubCalls
          (sortedKeys cur.SubCalls) toolCalls).1 ∨
        ∃ o ∈ cur :: rest, ∃ c, o.SubCalls.lookup y = some c ∧
          prg.ToolSet.lookup c.ToolID = none := by
      intro y hy
      rcases announceSubCalls_marked e ns runID prg start _ _ _ toolCalls y hy with
        h | h | ⟨h, h'⟩
      · exact Or.inl h
      · exact Or.inr (Or.inl h)
      · right; right
        refine ⟨cur, List.mem_cons_self _ _, _, lookup_eq_some_of_isSome _ _ ?_, h'⟩
        exact lookup_isSome_of_mem_keys _ _ ((mem_sortedKeys _ _).mp h)
    rw [printOutputs_cons]
    simp only
    split
    · intro hx
      rcases hann x hx with h | h | h
      · exact Or.inl h
      · right; left
        rw [announcedIDs_append, hsent]
        exact h
      · exact Or.inr (Or.inr h)
    · intro hx
      rcases ih _ _ _ x hx with h | h | ⟨o, ho, h⟩
      · rcases hann x h with h | h | h
        · exact Or.inl h
        · right; left
          rw [announcedIDs_append, announcedIDs_append, hsent]
          exact List.mem_append_left _ h
        · exact Or.inr (Or.inr h)
      · right; left
        rw [announcedIDs_append]
        exact List.mem_append_right _ h
      · exact Or.inr (Or.inr ⟨o, List.mem_cons_of_mem _ ho, h⟩)

theorem printOutputs_covers (e : Emitter) (ns runID : Str) (prg : Program) (start : Nat)
    (current : List Output) :
    ∀ (i0 : Nat) (lastOutputs : List Output) (toolCalls : List Str),
      (printOutputs e ns runID prg start i0 current lastOutputs toolCalls).2.2.2 = none →
      (∀ k x, ((lastOutputs.getD k {}).SubCalls.lookup x).isSome = true → x ∈ toolCalls) →
      ∀ o ∈ current, ∀ x ∈ o.SubCalls.map Prod.fst,
        x ∈ (printOutputs e ns runID prg start i0 current lastOutputs toolCalls).2.2.1 := by
  induction current with
  | nil => intro i0 lastOutputs toolCalls _ _ o ho; simp at ho
  | cons cur rest ih =>
    intro i0 lastOutputs toolCalls
    have hmono1 := (announceSubCalls_announces e ns runID prg start
      ((padOutputs lastOutputs i0).getD i0 {}).SubCalls cur.SubCalls (sortedKeys cur.SubCalls)
      toolCalls).2.2.2
    rw [printOutputs_cons]
    simp only
    split
    · intro h; simp at h
    · rename_i hok1
      intro hok hrec o ho x hx
      have hmono2 := (printOutputs_announces e ns runID prg start rest (i0 + 1)
        ((padOutputs lastOutputs i0).set i0 (storedOutput start runID i0
          ((padOutputs lastOutputs i0).getD i0 {}) cur))
        (announceSubCalls e ns runID prg start ((padOutputs lastOutputs i0).getD i0 {}).SubCalls
          cur.SubCalls (sortedKeys cur.SubCalls) toolCalls).2.1).2.2.2
      have hcur : ∀ y ∈ cur.SubCalls.map Prod.fst,
          y ∈ (announceSubCalls e ns runID prg start
            ((padOutputs lastOutputs i0).getD i0 {}).SubCalls cur.SubCalls
            (sortedKeys cur.SubCalls) toolCalls).2.1 := by
        intro y hy
        rcases announceSubCalls_covers e ns runID prg start _ _ _ toolCalls hok1 y
          ((mem_sortedKeys _ _).mpr hy) with h | h
        · rw [getD_padOutputs] at h
          exact hmono1 _ (hrec i0 y h)
        · exact h
      rcases List.mem_cons.mp ho with h | h
      · rw [h] at hx
        exact hmono2 _ (hcur x hx)
      · refine ih _ _ _ hok ?_ o h x hx
        intro k y hy
        by_cases hk : k = i0
        · rw [hk, getD_set_self _ _ _ (by rw [length_padOutputs]; omega)] at hy
          exact hcur y (mem_keys_of_lookup_isSome _ _ hy)
        · rw [getD_set_ne _ _ _ _ hk, getD_padOutputs] at hy
          exact hmono1 _ (hrec k y hy)

theorem callToEvents_recorded (e : Emitter) (ns runID : Str) (s : Snapshot)
    (printed : printState) (hrec : Recorded printed)
    (hok : (callToEvents e ns runID s.prg s.frames printed).2.2 = none) :
    Recorded (callToEvents e ns runID s.prg s.frames printed).2.1 ∧
      ∀ x, Appears x s → x ∈ (callToEvents e ns runID s.prg s.frames printed).2.1.toolCalls := by
  unfold callToEvents at hok ⊢
  simp only at hok ⊢
  split
  · rename_i hroot
    refine ⟨hrec, ?_⟩
    rintro x ⟨h1, h2, _⟩
    exact absurd hroot (fun h => h.elim h1 h2)
  · rename_i hroot
    simp only [hroot, if_false] at hok
    have hok' : (printOutputs e ns runID s.prg (findRoot s.frames).Start 0
        (findRoot s.frames).Output (printed.frames (findRoot s.frames).ID).Outputs
        printed.toolCalls).2.2.2 = none := by
      rw [printCall_eq] at hok
      simp only at hok
      split at hok
      · simp at hok
      · assumption
    have hcov := printOutputs_covers e ns runID s.prg (findRoot s.frames).Start
      (findRoot s.frames).Output 0 (printed.frames (findRoot s.frames).ID).Outputs
      printed.toolCalls hok' (fun k x h => hrec _ k x h)
    have hmono := (printOutputs_announces e ns runID s.prg (findRoot s.frames).Start
      (findRoot s.frames).Output 0 (printed.frames (findRoot s.frames).ID).Outputs
      printed.toolCalls).2.2.2
    constructor
    · intro fid k x hx
      rw [printCall_toolCalls]
      rw [printCall_eq] at hx
      simp only [hok'] at hx
      by_cases hfid : fid = (findRoot s.frames).ID
      · rw [hfid, Function.update_same] at hx
        simp only at hx
        rcases printOutputs_getD e ns runID s.prg (findRoot s.frames).Start
          (findRoot s.frames).Output 0 (printed.frames (findRoot s.frames).ID).Outputs
          printed.toolCalls k with h | ⟨j, hj, _, h⟩
        · rw [h] at hx
          exact hmono _ (hrec _ k x hx)
        · rw [h] at hx
          exact hcov _ (List.get_mem _ _ _) x (mem_keys_of_lookup_isSome _ _ hx)
      · rw [Function.update_noteq hfid] at hx
        exact hmono _ (hrec _ k x hx)
    · rintro x ⟨_, _, o, ho, hx⟩
      rw [printCall_toolCalls]
      exact hcov o ho x hx

theorem callToEvents_marked (e : Emitter) (ns runID : Str) (s : Snapshot)
    (printed : printState) :
    ∀ x ∈ (callToEvents e ns runID s.prg s.frames printed).2.1.toolCalls,
      x ∈ printed.toolCalls ∨
      x ∈ announcedIDs (callToEvents e ns runID s.prg s.frames printed).1 ∨
      ¬ Resolves x s := by
  intro x
  unfold callToEvents
  simp only
  split
  · exact fun hx => Or.inl hx
  · rw [printCall_toolCalls, printCall_sent]
    intro hx
    rcases printOutputs_marked e ns runID s.prg _ _ _ _ _ x hx with h | h | ⟨o, ho, c, hc, hnone⟩
    · exact Or.inl h
    · right; left
      rw [announcedIDs_append]
      exact List.mem_append_right _ h
    · right; right
      intro hres
      have := hres o ho c hc
      rw [hnone] at this
      simp at this

theorem feed_announces (e : Emitter) (ns runID : Str) (snaps : List Snapshot) :
    ∀ (printed : printState),
      Announces printed.toolCalls (feed e ns runID snaps printed).1
        (feed e ns runID snaps printed).2.1.toolCalls := by
  induction snaps with
  | nil => intro printed; exact Announces.refl _
  | cons s rest ih =>
    intro printed
    rw [feed_cons]
    simp only
    split
    · exact callToEvents_announces e ns runID s.prg s.frames printed
    · exact (callToEvents_announces e ns runID s.prg s.frames printed).trans (ih _)

theorem feed_covers (e : Emitter) (ns runID : Str) (snaps : List Snapshot) :
    ∀ (printed : printState), Recorded printed →
      (feed e ns runID snaps printed).2.2 = none →
      ∀ x, (∃ s ∈ snaps, Appears x s) → x ∈ (feed e ns runID snaps printed).2.1.toolCalls := by
  induction snaps with
  | nil => intro printed _ _ x hx; simp at hx
  | cons s rest ih =>
    intro printed hrec hok x hx
    rw [feed_cons] at hok ⊢
    simp only at hok ⊢
    rcases hcall : (callToEvents e ns runID s.prg s.frames printed).2.2 with _ | err
    · simp only [hcall] at hok ⊢
      obtain ⟨hrec', happ⟩ := callToEvents_recorded e ns runID s printed hrec hcall
      obtain ⟨s', hs', hx'⟩ := hx
      rcases List.mem_cons.mp hs' with h | h
      · rw [h] at hx'
        exact (feed_announces e ns runID rest _).2.2.2 _ (happ x hx')
      · exact ih _ hrec' hok x ⟨s', h, hx'⟩
    · simp [hcall] at hok

theorem feed_marked (e : Emitter) (ns runID : Str) (snaps : List Snapshot) :
    ∀ (printed : printState),
      ∀ x ∈ (feed e ns runID snaps printed).2.1.toolCalls,
        x ∈ printed.toolCalls ∨ x ∈ announcedIDs (feed e ns runID snaps printed).1 ∨
        ∃ s ∈ snaps, ¬ Resolves x s := by
  induction snaps with
  | nil => intro printed x hx; exact Or.inl hx
  | cons s rest ih =>
    intro printed x
    rw [feed_cons]
    simp only
    split
    · intro hx
      rcases callToEvents_marked e ns runID s printed x hx with h | h | h
      · exact Or.inl h
      · exact Or.inr (Or.inl h)
      · exact Or.inr (Or.inr ⟨s, List.mem_cons_self _ _, h⟩)
    · intro hx
      rcases ih _ x hx with h | h | ⟨s', hs', h⟩
      · rcases callToEvents_marked e ns runID s printed x h with h | h | h
        · exact Or.inl h
        · right; left
          rw [announcedIDs_append]
          exact List.mem_append_left _ h
        · exact Or.inr (Or.inr ⟨s, List.mem_cons_self _ _, h⟩)
      · right; left
        rw [announcedIDs_append]
        exact List.mem_append_right _ h
      · exact Or.inr (Or.inr ⟨s', List.mem_cons_of_mem _ hs', h⟩)

theorem Recorded_fresh : Recorded (newPrintState none) := by
  intro fid k x hx
  simp [newPrintState] at hx

theorem countP_eq_one_of_nodup (l : List Str) (x : Str) (hn : l.Nodup) (hx : x ∈ l) :
    l.countP (fun y => decide (y = x)) = 1 := by
  induction l with
  | nil => simp at hx
  | cons a rest ih =>
    rw [List.nodup_cons] at hn
    by_cases ha : a = x
    · subst ha
      have h0 : rest.countP (fun y => decide (y = a)) = 0 := by
        rw [List.countP_eq_zero]
        intro y hy
        simp only [decide_eq_true_eq]
        exact fun h => hn.1 (h ▸ hy)
      simp [List.countP_cons, h0]
    · have hx' : x ∈ rest := by
        rcases List.mem_cons.mp hx with h | h
        · exact absurd h.symm ha
        · exact h
      simp [List.countP_cons, ha, ih hn.2 hx']

/-- C5 (amended). Tool-call uniqueness: when a sequence of snapshots is delivered from a fresh
print state without error, the sub-call id `x` appears under an output of the started root frame
of at least one snapshot and the tool of `x` is in the tool set of the program wherever `x`
appears, exactly one announcement is caused by `x` over the whole sequence. -/
theorem toolcall_unique (e : Emitter) (ns runID : Str) (snaps : List Snapshot) (x : Str)
    (hok : (feed e ns runID snaps (newPrintState none)).2.2 = none)
    (happ : ∃ s ∈ snaps, Appears x s)
    (hres : ∀ s ∈ snaps, Resolves x s) :
    announcementsFor x (feed e ns runID snaps (newPrintState none)).1 = 1 := by
  have hmem : x ∈ announcedIDs (feed e ns runID snaps (newPrintState none)).1 := by
    have h1 := feed_covers e ns runID snaps (newPrintState none) Recorded_fresh hok x happ
    rcases feed_marked e ns runID snaps (newPrintState none) x h1 with h | h | ⟨s, hs, h⟩
    · simp [newPrintState] at h
    · exact h
    · exact absurd (hres s hs) h
  exact countP_eq_one_of_nodup _ x (feed_announces e ns runID snaps (newPrintState none)).2.1
    hmem

/-- C5, at a sub-call whose output is revised once. -/
theorem toolcall_unique_witness :
    announcementsFor "c1".data (feed plainEmitter [] "r".data
      [{ prg := oneToolPrg, frames := subCallFrames "a".data "t".data },
       { prg := oneToolPrg, frames := subCallFrames "ab".data "t".data }]
      (newPrintState none)).1 = 1 :=
  toolcall_unique plainEmitter [] "r".data
    [{ prg := oneToolPrg, frames := subCallFrames "a".data "t".data },
     { prg := oneToolPrg, frames := subCallFrames "ab".data "t".data }] "c1".data
    (by decide)
    ⟨{ prg := oneToolPrg, frames := subCallFrames "a".data "t".data }, by simp, by decide⟩
    (by
      intro s hs o ho c hc
      simp only [List.mem_cons, List.mem_singleton, List.not_mem_nil, or_false] at hs
      rcases hs with rfl | rfl <;>
      · have ho' : o.SubCalls = [("c1".data, { ToolID := "t".data, Input := "q".data })] := by
          simp [findRoot, subCallFrames] at ho
          rw [ho]
        rw [ho'] at hc
        have hc' : c = { ToolID := "t".data, Input := "q".data } := by
          simpa [List.lookup] using hc.symm
        rw [hc']
        decide)

/-- C5 as stated fails: a sub-call whose tool id is not in the tool set of the program appears
under an output of the started root frame, the delivery returns no error, and no tool-call or
workflow-call announcement is sent, while the id is marked as announced. -/
theorem toolcall_unique_counterexample :
    Appears "c1".data { prg := oneToolPrg, frames := subCallFrames "a".data "u".data } ∧
      (feed plainEmitter [] "r".data
        [{ prg := oneToolPrg, frames := subCallFrames "a".data "u".data }]
        (newPrintState none)).2.2 = none ∧
      (events (feed plainEmitter [] "r".data
        [{ prg := oneToolPrg, frames := subCallFrames "a".data "u".data }]
        (newPrintState none)).1).filter
          (fun ev => ev.ToolCall.isSome || ev.WorkflowCall.isSome) = [] ∧
      announcementsFor "c1".data (feed plainEmitter [] "r".data
        [{ prg := oneToolPrg, frames := subCallFrames "a".data "u".data }]
        (newPrintState none)).1 = 0 ∧
      "c1".data ∈ (feed plainEmitter [] "r".data
        [{ prg := oneToolPrg, frames := subCallFrames "a".data "u".data }]
        (newPrintState none)).2.1.toolCalls := by
  refine ⟨by decide, by decide, by decide, by decide, by decide⟩

/-! ## C6: the waiting marker -/

theorem cutAt_before_le (sep : Str) (s : Str) :
    ∀ before after, cutAt sep s = some (before, after) → before <+: s := by
  induction s with
  | nil =>
    intro before after h
    unfold cutAt at h
    split at h
    · cases h; exact List.nil_prefix
    · exact Option.noConfusion h
  | cons c t ih =>
    intro before after h
    unfold cutAt at h
    split at h
    · cases h; exact List.nil_prefix
    · cases hrec : cutAt sep t with
      | none => rw [hrec] at h; exact Option.noConfusion h
      | some p =>
        obtain ⟨b, a⟩ := p
        rw [hrec] at h
        simp only [Option.some.injEq, Prod.mk.injEq] at h
        rw [← h.1]
        exact (List.prefix_cons_inj c).mpr (ih b a hrec)

theorem Cut_fst_le (s sep : Str) : (Cut s sep).1 <+: s := by
  unfold Cut
  cases h : cutAt sep s with
  | none => exact List.prefix_refl s
  | some p =>
    obtain ⟨b, a⟩ := p
    exact cutAt_before_le sep s b a h

theorem printDelta_waiting (time : Nat) (runID : Str) (i : Nat) (current rest : Str) :
    ∃ ev, (printDelta time runID i current (waitingMarker ++ rest)).1 = [ev] ∧
      ev.WaitingOnModel = true ∧ ev.Content <+: rest ∧
      (¬ toolCallDelim <:+: current → ¬ toolCallDelim <:+: rest → ev.Content = rest) := by
  have hw : HasPrefix (waitingMarker ++ rest) waitingMarker = true :=
    (HasPrefix_iff _ _).mpr (List.prefix_append _ _)
  have hcut : CutPrefix (waitingMarker ++ rest) waitingMarker = (rest, true) := by
    simp [CutPrefix, hw]
  unfold printDelta
  rw [hcut]
  simp only
  refine ⟨_, rfl, rfl, ?_, ?_⟩
  · simp only
    split
    · exact Cut_fst_le _ _
    · split
      · exact List.nil_prefix
      · exact Cut_fst_le _ _
  · intro h1 h2
    simp [Cut_of_absent _ _ h1, Cut_of_absent _ _ h2]

/-- C6 (amended). In the scenario the first event of the first batch has `Input` `hello`, and
the second batch is one content event with `WaitingOnModel = false` whose `Content` is the
delta `ing for model response...done` after the content `Wait` already sent.  In general, when
the delta after the previously sent content begins with the marker, the one event sent has
`WaitingOnModel = true` and a `Content` taken from the text after the marker: a prefix of that
text, and the whole of it when the revised content holds no tool-call delimiter. -/
theorem waiting_marker :
    ((events (callToEvents plainEmitter [] "r".data {} (helloFrames "Wait".data)
        (newPrintState none)).1).head?.map Progress.Input = some "hello".data) ∧
      events (callToEvents plainEmitter [] "r".data {}
          (helloFrames "Waiting for model response...done".data) (seenState "Wait".data)).1 =
        [{ RunID := "r".data, Time := 1, Content := "ing for model response...done".data,
           ContentID := "r-0".data, WaitingOnModel := false }] ∧
      ∀ (time : Nat) (runID : Str) (i : Nat) (last rest : Str),
        ∃ ev, (printString time runID i last (last ++ waitingMarker ++ rest)).1 = [ev] ∧
          ev.WaitingOnModel = true ∧ ev.Content <+: rest ∧
          (¬ toolCallDelim <:+: last ++ waitingMarker ++ rest → ev.Content = rest) := by
  refine ⟨by decide, by decide, ?_⟩
  intro time runID i last rest
  have hp : HasPrefix (last ++ waitingMarker ++ rest) last = true := by
    rw [HasPrefix_iff, List.append_assoc]
    exact List.prefix_append _ _
  have hd : (last ++ waitingMarker ++ rest).drop last.length = waitingMarker ++ rest := by
    rw [List.append_assoc, List.drop_left]
  unfold printString
  rw [if_pos hp, hd]
  obtain ⟨ev, h1, h2, h3, h4⟩ := printDelta_waiting time runID i (last ++ waitingMarker ++ rest) rest
  refine ⟨ev, h1, h2, h3, fun h => h4 h ?_⟩
  exact fun hcon => h (hcon.trans (List.suffix_append _ _).isInfix)

/-- C6, at a revision that appends the marker and `done` to the content `Wait` already sent. -/
theorem waiting_marker_witness :
    ∃ ev, (printString 1 "r".data 0 "Wait".data
        ("Wait".data ++ waitingMarker ++ "done".data)).1 = [ev] ∧
      ev.WaitingOnModel = true ∧ ev.Content = "done".data := by
  obtain ⟨ev, h1, h2, _, h4⟩ := waiting_marker.2.2 1 "r".data 0 "Wait".data "done".data
  exact ⟨ev, h1, h2, h4 (by decide)⟩

/-- C6 as stated fails: after `Wait` has been sent, the revision
`Waiting for model response...done` yields one content event with `WaitingOnModel = false` and
the content `ing for model response...done`, not `WaitingOnModel = true` and `done`. -/
theorem waiting_marker_counterexample :
    ¬ ∃ ev, events (callToEvents plainEmitter [] "r".data {}
          (helloFrames "Waiting for model response...done".data) (seenState "Wait".data)).1 =
        [ev] ∧ ev.WaitingOnModel = true ∧ ev.Content = "done".data := by
  have h : events (callToEvents plainEmitter [] "r".data {}
      (helloFrames "Waiting for model response...done".data) (seenState "Wait".data)).1 =
      [{ RunID := "r".data, Time := 1, Content := "ing for model response...done".data,
         ContentID := "r-0".data, WaitingOnModel := false }] := by decide
  rintro ⟨ev, hev, hw, _⟩
  rw [h] at hev
  simp only [List.cons.injEq, and_true] at hev
  rw [← hev] at hw
  exact Bool.noConfusion hw

/-! ## C10: nested frames -/

theorem findRoot_eq_of_filter (frames frames' : Frames)
    (h : frames.filter (fun kv => decide (kv.2.ParentID = [])) =
      frames'.filter (fun kv => decide (kv.2.ParentID = []))) :
    findRoot frames = findRoot frames' := by
  unfold findRoot
  rw [← List.filter_head?, ← List.filter_head?, h]

/-- C10 (amended). `callToEvents` sends the events of the root frame only: two frame maps with
the same frames of empty `ParentID` yield the same events, the same print state and the same
error, whatever their other frames are, so the input and the output content of a nested
sub-call frame are not sent (`printCall` does not recurse; a sub-call is only announced). -/
theorem nested_frames_not_printed (e : Emitter) (ns runID : Str) (prg : Program)
    (frames frames' : Frames) (printed : printState)
    (h : frames.filter (fun kv => decide (kv.2.ParentID = [])) =
      frames'.filter (fun kv => decide (kv.2.ParentID = []))) :
    (callToEvents e ns runID prg frames printed).1 =
        (callToEvents e ns runID prg frames' printed).1 ∧
      (callToEvents e ns runID prg frames printed).2.1.toolCalls =
        (callToEvents e ns runID prg frames' printed).2.1.toolCalls ∧
      (callToEvents e ns runID prg frames printed).2.1.frames =
        (callToEvents e ns runID prg frames' printed).2.1.frames ∧
      (callToEvents e ns runID prg frames printed).2.2 =
        (callToEvents e ns runID prg frames' printed).2.2 := by
  unfold callToEvents
  rw [findRoot_eq_of_filter frames frames' h]
  exact ⟨rfl, rfl, rfl, rfl⟩

/-- C10, at the frame map with a nested frame and the same map without it. -/
theorem nested_frames_not_printed_witness :
    (callToEvents plainEmitter [] "r".data oneToolPrg nestedFrames (newPrintState none)).1 =
      (callToEvents plainEmitter [] "r".data oneToolPrg (nestedFrames.take 1)
        (newPrintState none)).1 :=
  (nested_frames_not_printed plainEmitter [] "r".data oneToolPrg nestedFrames
    (nestedFrames.take 1) (newPrintState none) (by decide)).1

/-- C10 as stated fails: the frame map holds a started root frame and the frame of the sub-call
`c1` referenced under the root's output, with a non-empty input and output content not yet
sent, and `callToEvents` sends the input, the content and the announcement of the root frame
and nothing of the nested frame. -/
theorem nested_frames_counterexample :
    events (callToEvents plainEmitter [] "r".data oneToolPrg nestedFrames
        (newPrintState none)).1 =
      [{ RunID := "r".data, Time := 1, Content := "\n".data, Input := "hello".data },
       { RunID := "r".data, Time := 1, Content := "out".data, ContentID := "r-0".data },
       { RunID := "r".data, Time := 1,
         ToolCall := some { Name := "search".data, Description := "a tool".data,
                            Input := "q".data } }] ∧
      ∀ ev ∈ events (callToEvents plainEmitter [] "r".data oneToolPrg nestedFrames
          (newPrintState none)).1,
        ev.Input ≠ "nested in".data ∧ ev.Content ≠ "nested out".data := by
  refine ⟨by decide, by decide⟩

/-! ## C7: a thread selector that resolves to no run -/

/-- C7 (amended). When the named thread exists with an empty `LastRunName`, the list of the runs
of the namespace succeeds and holds no run of that thread, `Watch` called with only `ThreadName`
set and `History = false` returns no channel and the error `no run found for thread: ` followed
by the thread name; the already closed, empty channel is what `Watch` returns, without error,
when no selector is set. -/
theorem watch_unresolved_thread (e : Emitter) (ns : Str) (opts : WatchOptions) (thread : Thread)
    (runs : List Run)
    (hrun : opts.Run = none) (hlast : opts.LastRunName = []) (hname : opts.ThreadName ≠ [])
    (hhist : opts.History = false)
    (hthread : e.client.getThread ns opts.ThreadName = .ok thread)
    (hempty : thread.LastRunName = [])
    (hlist : e.client.listRuns ns = .ok runs)
    (hnone : ∀ r ∈ runs, r.ThreadName ≠ opts.ThreadName) :
    Watch e ns opts = .error (.plain ("no run found for thread: ".data ++ opts.ThreadName)) ∧
      Watch e ns {} = .ok .closed := by
  have hfind : runs.find? (fun run => decide (run.ThreadName = opts.ThreadName)) = none := by
    rw [List.find?_eq_none]
    intro r hr
    simpa using hnone r hr
  constructor
  · simp [Watch, resolveRun, hrun, hlast, hname, hthread, hempty, findRunByThreadName, hlist,
      hfind, hhist]
  · rfl

/-- C7, at a store that holds the thread `t1` and no run. -/
theorem watch_unresolved_thread_witness :
    Watch threadOnlyEmitter "ns".data { ThreadName := "t1".data } =
      .error (.plain "no run found for thread: t1".data) :=
  (watch_unresolved_thread threadOnlyEmitter "ns".data { ThreadName := "t1".data }
    { LastRunName := [] } [] rfl rfl (by decide) rfl rfl rfl rfl (by simp)).1

/-- C7 as stated fails: the thread `t1` exists with an empty `LastRunName`, no run refers to it,
and `Watch` with only `ThreadName` set and `History = false` returns an error, not the closed
channel. -/
theorem watch_unresolved_thread_counterexample :
    threadOnlyEmitter.client.getThread "ns".data "t1".data = .ok { LastRunName := [] } ∧
      threadOnlyEmitter.client.listRuns "ns".data = .ok [] ∧
      Watch threadOnlyEmitter "ns".data { ThreadName := "t1".data, History := false } =
        .error (.plain "no run found for thread: t1".data) ∧
      Watch threadOnlyEmitter "ns".data { ThreadName := "t1".data, History := false } ≠
        .ok .closed := by
  refine ⟨rfl, rfl, rfl, ?_⟩
  intro h
  have h' : (Except.error (.plain "no run found for thread: t1".data) :
      Except GoError WatchResult) = .ok .closed := h
  exact Except.noConfusion h'

/-! ## C8: a durable record that carries an error -/

theorem printRunState_of_diffed (e : Emitter) (run : Run) (rs : RunState) (state : printState)
    (prg : Program) (frames : Frames) (hprg : rs.Program = .ok prg)
    (hfr : rs.CallFrame = .ok frames)
    (hdiff : (callToEvents e run.Namespace run.Name prg frames state).2.2 = none) :
    printRunState e run rs state =
      (events (callToEvents e run.Namespace run.Name prg frames state).1,
        (callToEvents e run.Namespace run.Name prg frames state).2.1,
        if rs.Done then
          (if rs.Error ≠ [] then some (some (.plain rs.Error)) else some none)
        else none) := by
  unfold printRunState
  rw [hprg, hfr]
  simp only
  generalize callToEvents e run.Namespace run.Name prg frames state = r at hdiff
  obtain ⟨sent, st, err⟩ := r
  simp only at hdiff
  subst hdiff
  simp only
  by_cases hd : rs.Done = true
  · by_cases he : rs.Error = [] <;> simp [hd, he]
  · simp [hd]

theorem callToEvents_unstarted (e : Emitter) (ns runID : Str) (prg : Program) (frames : Frames)
    (printed : printState) (h : (findRoot frames).ID = [] ∨ (findRoot frames).Start = 0) :
    callToEvents e ns runID prg frames printed = ([], printed, none) := by
  unfold callToEvents
  simp [h]

theorem streamEvents_of_failed_run (e : Emitter) (fuel : Nat) (run : Run) (opts : WatchOptions)
    (sent : List Progress) (state : printState) (err : GoError)
    (hhist : opts.History = false)
    (hrun : printRun e (newPrintState none) run = (sent, state, .returned (some err))) :
    streamEvents e (fuel + 1) run opts =
      { delivered := sent ++ [{ RunID := run.Name, Time := e.now, Error := err.Error }]
        closed := true
        retErr := some err } := by
  unfold streamEvents
  rw [streamLoop]
  simp only [hhist, Bool.false_eq_true, if_false, IsNotFound, Bool.not_false, ne_eq,
    not_true_eq_false, and_false]
  rw [hrun]
  simp

/-- The streaming of one run and the terminal event of `streamEvents`.  A durable record that
decompresses and is diffed without error ends the streaming of the run with an error whose
message is its `Error` exactly when it has `Done = true` and a non-empty `Error`; it ends it
without error when `Done = true` and `Error` is empty, and the loop goes on
when `Done = false`.  When `streamEvents` returns an error, what it delivers is what the loop
sent followed by one event that carries the message of the error, and the channel is closed; it
returns the error with which the streaming of its run ends.  For a run with no workflow step
whose first input is a record with `Done = true`, the error `boom` and no started root frame,
what is delivered is exactly that one event. -/
theorem durable_run_failure :
    (∀ (e : Emitter) (run : Run) (rs : RunState) (rest : List RunInput) (liveIndex : Nat)
        (state : printState) (prg : Program) (frames : Frames),
        rs.Program = .ok prg → rs.CallFrame = .ok frames →
        (callToEvents e run.Namespace run.Name prg frames state).2.2 = none →
        ((rs.Done = true ∧ rs.Error ≠ [] →
            (printRunLoop e run (.watchEvent (some rs) :: rest) liveIndex state).2.2 =
              .returned (some (.plain rs.Error)) ∧
            (GoError.plain rs.Error).Error = rs.Error) ∧
          (rs.Done = true ∧ rs.Error = [] →
            (printRunLoop e run (.watchEvent (some rs) :: rest) liveIndex state).2.2 =
              .returned none) ∧
          (rs.Done = false →
            (printRunLoop e run (.watchEvent (some rs) :: rest) liveIndex state).2.2 =
              (printRunLoop e run rest liveIndex
                (callToEvents e run.Namespace run.Name prg frames state).2.1).2.2))) ∧
      (∀ (e : Emitter) (fuel : Nat) (run : Run) (opts : WatchOptions) (err : GoError),
        (streamEvents e fuel run opts).retErr = some err →
        (streamEvents e fuel run opts).closed = true ∧
          (streamEvents e fuel run opts).delivered =
            (streamLoop e opts.Follow fuel none run opts.History).1 ++
              [{ RunID := (streamLoop e opts.Follow fuel none run opts.History).2.2.Name,
                 Time := e.now, Error := err.Error }]) ∧
      (∀ (e : Emitter) (fuel : Nat) (run : Run) (opts : WatchOptions) (sent : List Progress)
        (state : printState) (err : GoError),
        opts.History = false →
        printRun e (newPrintState none) run = (sent, state, .returned (some err)) →
        streamEvents e (fuel + 1) run opts =
          { delivered := sent ++ [{ RunID := run.Name, Time := e.now, Error := err.Error }]
            closed := true
            retErr := some err }) ∧
      (∀ (e : Emitter) (fuel : Nat) (run : Run) (opts : WatchOptions) (rs : RunState)
        (rest : List RunInput) (prg : Program) (frames : Frames),
        run.WorkflowStepID = [] → opts.History = false →
        e.client.watchRunState run.Namespace run.Name = none →
        e.runInputs run.Namespace run.Name = .watchEvent (some rs) :: rest →
        rs.Program = .ok prg → rs.CallFrame = .ok frames →
        ((findRoot frames).ID = [] ∨ (findRoot frames).Start = 0) →
        rs.Done = true → rs.Error = "boom".data →
        streamEvents e (fuel + 1) run opts =
          { delivered := [{ RunID := run.Name, Time := e.now, Error := "boom".data }]
            closed := true
            retErr := some (.plain "boom".data) }) := by
  refine ⟨?_, ?_, ?_, ?_⟩
  · intro e run rs rest liveIndex state prg frames hprg hfr hdiff
    have h := printRunState_of_diffed e run rs state prg frames hprg hfr hdiff
    refine ⟨?_, ?_, ?_⟩
    · rintro ⟨hd, he⟩
      rw [printRunLoop, h]
      simp [hd, he, GoError.Error]
    · rintro ⟨hd, he⟩
      rw [printRunLoop, h]
      simp [hd, he]
    · intro hd
      rw [printRunLoop, h]
      simp [hd]
  · intro e fuel run opts err h
    unfold streamEvents at h ⊢
    generalize streamLoop e opts.Follow fuel none run opts.History = r at h ⊢
    obtain ⟨sent, out, last⟩ := r
    cases out with
    | pending => simp at h
    | returned ret =>
      cases ret with
      | none => simp at h
      | some ret =>
        simp only [Option.some.injEq] at h
        subst h
        exact ⟨rfl, rfl⟩
  · intro e fuel run opts sent state err hhist hrun
    exact streamEvents_of_failed_run e fuel run opts sent state err hhist hrun
  · intro e fuel run opts rs rest prg frames hstep hhist hwatch hinputs hprg hfr hroot hdone herr
    have hdiff := callToEvents_unstarted e run.Namespace run.Name prg frames
      (newPrintState none) hroot
    have hrs := printRunState_of_diffed e run rs (newPrintState none) prg frames hprg hfr
      (by rw [hdiff])
    rw [hdiff] at hrs
    have hne : rs.Error ≠ [] := by rw [herr]; decide
    simp only [hdone, hne, if_true, ne_eq, not_false_eq_true] at hrs
    have hrun : printRun e (newPrintState none) run =
        ([], newPrintState none, .returned (some (.plain rs.Error))) := by
      unfold printRun printStep
      simp only [hstep, ne_eq, not_true_eq_false, false_and, if_false, hwatch, hinputs,
        printRunLoop, hrs, events, List.map_nil, List.append_nil]
    rw [streamEvents_of_failed_run e fuel run opts [] (newPrintState none) (.plain rs.Error)
      hhist hrun, herr]
    simp [GoError.Error]

/-- The scenario of the durable failure, at the emitter whose watch delivers the record of the
scenario as its first input. -/
theorem durable_run_failure_witness :
    streamEvents boomEmitter 1 { Name := "r".data } {} =
      { delivered := [{ RunID := "r".data, Time := 7, Error := "boom".data }]
        closed := true
        retErr := some (.plain "boom".data) } :=
  durable_run_failure.2.2.2 boomEmitter 0 { Name := "r".data } {} boomRecord [] {} []
    rfl rfl rfl rfl rfl rfl (Or.inl rfl) rfl rfl

/-! ## C9: the order of a chain of runs -/

theorem streamRuns_cons (e : Emitter) (run : Run) (rest : List Run) (state : printState) :
    streamRuns e (run :: rest) state =
      (match (printRun e state run).2.2 with
       | .returned none =>
         ((printRun e state run).1 ++ (streamRuns e rest (printRun e state run).2.1).1,
           (streamRuns e rest (printRun e state run).2.1).2.1,
           (streamRuns e rest (printRun e state run).2.1).2.2)
       | _ => printRun e state run) := by
  rw [streamRuns]
  generalize printRun e state run = r
  obtain ⟨sent, st, out⟩ := r
  cases out with
  | pending => rfl
  | returned err => cases err <;> rfl

theorem streamRuns_append_singleton (e : Emitter) (runs : List Run) (last : Run) :
    ∀ (state : printState),
      (streamRuns e (runs ++ [last]) state).2.2 = .returned none →
      (streamRuns e runs state).2.2 = .returned none ∧
        (printRun e (streamRuns e runs state).2.1 last).2.2 = .returned none ∧
        streamRuns e (runs ++ [last]) state =
          ((streamRuns e runs state).1 ++ (printRun e (streamRuns e runs state).2.1 last).1,
            (printRun e (streamRuns e runs state).2.1 last).2.1, .returned none) := by
  induction runs with
  | nil =>
    intro state h
    simp only [List.nil_append] at h ⊢
    rw [streamRuns_cons] at h ⊢
    simp only [streamRuns] at h ⊢
    cases hout : (printRun e state last).2.2 with
    | pending => simp [hout] at h
    | returned err =>
      cases err with
      | some err => simp [hout] at h
      | none => simp
  | cons run rest ih =>
    intro state h
    simp only [List.cons_append] at h ⊢
    rw [streamRuns_cons] at h ⊢
    rw [streamRuns_cons]
    cases hout : (printRun e state run).2.2 with
    | pending => simp [hout] at h
    | returned err =>
      cases err with
      | some err => simp [hout] at h
      | none =>
        rw [hout] at h
        simp only at h ⊢
        obtain ⟨h1, h2, h3⟩ := ih _ h
        refine ⟨h1, h2, ?_⟩
        rw [h3]
        simp

theorem printParent_eq_streamRuns (e : Emitter) (older : List Run) :
    ∀ (run : Run) (fuel : Nat) (state : printState),
      IsAncestry e older run → older.length < fuel →
      (streamRuns e older.reverse state).2.2 = .returned none →
      printParent e fuel state run = streamRuns e older.reverse state := by
  induction older with
  | nil =>
    intro run fuel state hanc hfuel _
    cases fuel with
    | zero => simp at hfuel
    | succ fuel =>
      simp only [IsAncestry] at hanc
      simp [printParent, hanc, streamRuns]
  | cons parent older ih =>
    intro run fuel state hanc hfuel hok
    cases fuel with
    | zero => simp at hfuel
    | succ fuel =>
      obtain ⟨hprev, hget, hthread, hrest⟩ := hanc
      simp only [List.reverse_cons] at hok ⊢
      obtain ⟨h1, h2, h3⟩ := streamRuns_append_singleton e older.reverse parent state hok
      have hrec := ih parent fuel state hrest (by simpa using hfuel) h1
      rw [h3, printParent]
      simp only [hprev, if_false, hget, hthread, Bool.false_eq_true, hrec]
      generalize streamRuns e older.reverse state = r at h1 h2 ⊢
      obtain ⟨sent, st, out⟩ := r
      simp only at h1 h2 ⊢
      subst h1
      simp only [IsNotFound, Bool.not_false, ne_eq, not_true_eq_false, and_false, if_false,
        Bool.false_eq_true]
      generalize printRun e st parent = r2 at h2 ⊢
      obtain ⟨more, st2, out2⟩ := r2
      simp only at h2 ⊢
      subst h2
      simp [IsNotFound, Join]

theorem streamLoop_prefix_delivered (e : Emitter) (fuel : Nat) (run : Run) (opts : WatchOptions) :
    (streamLoop e opts.Follow fuel none run opts.History).1 <+:
      (streamEvents e fuel run opts).delivered := by
  unfold streamEvents
  generalize streamLoop e opts.Follow fuel none run opts.History = r
  obtain ⟨sent, out, last⟩ := r
  cases out with
  | pending => exact List.prefix_refl _
  | returned err =>
    cases err with
    | none => exact List.prefix_refl _
    | some err => exact List.prefix_append _ _

theorem findNextRun_no_follow (e : Emitter) (run : Run) :
    findNextRun e run false = some (.ok none) := by
  unfold findNextRun
  by_cases h : run.WorkflowExecutionName = [] <;> simp [h]

theorem streamLoop_history (e : Emitter) (follow : Bool) (older : List Run) (run : Run)
    (fuel : Nat) (state : Option printState)
    (hanc : IsAncestry e older run) (hfuel : older.length ≤ fuel)
    (hok : (streamRuns e (older.reverse ++ [run]) (newPrintState state)).2.2 = .returned none) :
    (streamRuns e (older.reverse ++ [run]) (newPrintState state)).1 <+:
        (streamLoop e follow (fuel + 1) state run true).1 ∧
      (follow = false →
        streamLoop e follow (fuel + 1) state run true =
          ((streamRuns e (older.reverse ++ [run]) (newPrintState state)).1,
            .returned none, run)) := by
  obtain ⟨h1, h2, h3⟩ := streamRuns_append_singleton e older.reverse run _ hok
  have hpar := printParent_eq_streamRuns e older run (fuel + 1) (newPrintState state) hanc
    (by omega) h1
  rw [h3, streamLoop]
  simp only [if_true, hpar]
  generalize streamRuns e older.reverse (newPrintState state) = r at h1 h2 ⊢
  obtain ⟨sent, st, out⟩ := r
  simp only at h1 h2 ⊢
  subst h1
  simp only [IsNotFound, Bool.not_false, ne_eq, not_true_eq_false, and_false, if_false,
    Bool.false_eq_true]
  generalize printRun e st run = r2 at h2 ⊢
  obtain ⟨more, st2, out2⟩ := r2
  simp only at h2 ⊢
  subst h2
  simp only
  constructor
  · cases findNextRun e run follow with
    | none => exact List.prefix_refl _
    | some res =>
      cases res with
      | error err => exact List.prefix_refl _
      | ok next =>
        cases next with
        | none => exact List.prefix_refl _
        | some next => exact List.prefix_append _ _
  · intro hf
    subst hf
    rw [findNextRun_no_follow]

/-- C9. Chain ordering.  For every finite chain of ancestors of a run (each run names the next
as its previous run, the store holds it, no thread names mismatch, the oldest has no previous
run) whose runs are each streamed to the end without error, `printParent` with enough fuel
streams exactly the ancestors, oldest first, each completely before the next, and not the run
itself; `streamEvents` with `History = true` first delivers the events of the ancestors, oldest
first, then those of the run, and delivers nothing else when `Follow = false`.  In particular,
for runs `A`, `B`, `C` with `B.PreviousRunName = A` and `C.PreviousRunName = B`, streaming `C`
with history delivers the events of `A`, then of `B`, then of `C`. -/
theorem chain_ordering :
    (∀ (e : Emitter) (older : List Run) (run : Run) (fuel : Nat) (state : printState),
        IsAncestry e older run → older.length < fuel →
        (streamRuns e older.reverse state).2.2 = .returned none →
        printParent e fuel state run = streamRuns e older.reverse state) ∧
      (∀ (e : Emitter) (older : List Run) (run : Run) (fuel : Nat) (opts : WatchOptions),
        opts.History = true → IsAncestry e older run → older.length ≤ fuel →
        (streamRuns e (older.reverse ++ [run]) (newPrintState none)).2.2 = .returned none →
        (streamRuns e (older.reverse ++ [run]) (newPrintState none)).1 <+:
            (streamEvents e (fuel + 1) run opts).delivered ∧
          (opts.Follow = false →
            streamEvents e (fuel + 1) run opts =
              { delivered := (streamRuns e (older.reverse ++ [run]) (newPrintState none)).1
                closed := true
                retErr := none })) ∧
      (∀ (e : Emitter) (A B C : Run) (fuel : Nat) (opts : WatchOptions),
        A.PreviousRunName = [] →
        B.PreviousRunName ≠ [] → e.client.getRun B.Namespace B.PreviousRunName = .ok A →
        C.PreviousRunName ≠ [] → e.client.getRun C.Namespace C.PreviousRunName = .ok B →
        threadMismatch A B = false → threadMismatch B C = false →
        opts.History = true → 2 ≤ fuel →
        (streamRuns e [A, B, C] (newPrintState none)).2.2 = .returned none →
        (streamRuns e [A, B, C] (newPrintState none)).1 <+:
          (streamEvents e (fuel + 1) C opts).delivered) := by
  refine ⟨?_, ?_, ?_⟩
  · intro e older run fuel state hanc hfuel hok
    exact printParent_eq_streamRuns e older run fuel state hanc hfuel hok
  · intro e older run fuel opts hhist hanc hfuel hok
    obtain ⟨h1, h2⟩ := streamLoop_history e opts.Follow older run fuel none hanc hfuel hok
    have hpre := streamLoop_prefix_delivered e (fuel + 1) run opts
    rw [hhist] at hpre
    refine ⟨h1.trans hpre, ?_⟩
    intro hf
    unfold streamEvents
    rw [hhist, h2 hf]
  · intro e A B C fuel opts hA hB hgetA hC hgetB hAB hBC hhist hfuel hok
    have hanc : IsAncestry e [B, A] C := ⟨hC, hgetB, hBC, hB, hgetA, hAB, hA⟩
    obtain ⟨h1, _⟩ := streamLoop_history e opts.Follow [B, A] C fuel none hanc
      (by simpa using hfuel) hok
    have hpre := streamLoop_prefix_delivered e (fuel + 1) C opts
    rw [hhist] at hpre
    exact h1.trans hpre

/-- C9, at the chain `a`, `b`, `c` of `chainClient`, each run of which sends one event. -/
theorem chain_ordering_witness :
    streamEvents chainEmitter 3 { Name := "c".data, PreviousRunName := "b".data }
        { History := true } =
      { delivered := [{ RunID := "a".data, Content := "x".data },
                      { RunID := "b".data, Content := "x".data },
                      { RunID := "c".data, Content := "x".data }]
        closed := true
        retErr := none } :=
  (chain_ordering.2.1 chainEmitter
    [{ Name := "b".data, PreviousRunName := "a".data }, { Name := "a".data }]
    { Name := "c".data, PreviousRunName := "b".data } 2 { History := true } rfl
    ⟨by decide, rfl, rfl, by decide, rfl, rfl, rfl⟩ (by decide) rfl).2 rfl

/-- The root frame picked by `callToEvents` does not depend on the order in which the frame map
is visited when the map holds at most one frame with an empty `ParentID`. -/
theorem findRoot_perm (frames frames' : Frames) (hperm : frames.Perm frames')
    (huniq : (frames.filter (fun kv => decide (kv.2.ParentID = []))).length ≤ 1) :
    findRoot frames = findRoot frames' := by
  apply findRoot_eq_of_filter
  have hp := hperm.filter (fun kv => decide (kv.2.ParentID = []))
  generalize frames.filter (fun kv => decide (kv.2.ParentID = [])) = l at hp huniq
  generalize frames'.filter (fun kv => decide (kv.2.ParentID = [])) = l' at hp
  match l, huniq with
  | [], _ => exact (List.nil_perm.mp hp).symm
  | [a], _ => exact List.singleton_perm.mp hp

/-! ## C11: the tool-call delimiter in the current delta -/

/-- A separator whose first byte does not occur again in it cannot begin inside a text that
does not contain it and run over the end of that text into a copy of itself. -/
theorem not_HasPrefix_overlap (sep pre rest : Str) (c : Char) (t : Str) (hsep : sep = c :: t)
    (hc : c ∉ t) (habs : ¬ sep <:+: pre) (hpre : pre ≠ []) :
    HasPrefix (pre ++ sep ++ rest) sep = false := by
  rw [Bool.eq_false_iff]
  intro hcon
  have hp : sep <+: pre ++ (sep ++ rest) := by
    rw [← List.append_assoc]
    exact (HasPrefix_iff _ _).mp hcon
  have hp2 : pre <+: pre ++ (sep ++ rest) := List.prefix_append _ _
  rcases Nat.le_total sep.length pre.length with hle | hle
  · exact habs (List.prefix_of_prefix_length_le hp hp2 hle).isInfix
  · obtain ⟨v, hv⟩ := List.prefix_of_prefix_length_le hp2 hp hle
    rw [← hv, List.prefix_append_right_inj] at hp
    cases v with
    | nil =>
      rw [List.append_nil] at hv
      exact habs (hv ▸ List.infix_refl pre)
    | cons d v' =>
      cases pre with
      | nil => exact hpre rfl
      | cons a pre' =>
        obtain ⟨w, hw⟩ := hp
        simp only [List.cons_append, List.cons.injEq] at hw
        rw [hsep] at hv
        simp only [List.cons_append, List.cons.injEq] at hv
        apply hc
        rw [← hv.2, ← hv.1, ← hw.1]
        simp

theorem cutAt_first (sep rest : Str) (c : Char) (t : Str) (hsep : sep = c :: t) (hc : c ∉ t) :
    ∀ pre : Str, ¬ sep <:+: pre → cutAt sep (pre ++ sep ++ rest) = some (pre, rest) := by
  intro pre
  induction pre with
  | nil =>
    intro _
    have h : HasPrefix (c :: (t ++ rest)) (c :: t) = true :=
      (HasPrefix_iff _ _).mpr ⟨rest, rfl⟩
    subst hsep
    simp only [List.nil_append, List.cons_append]
    rw [cutAt, if_pos h]
    simp
  | cons a pre' ih =>
    intro habs
    have h1 := not_HasPrefix_overlap sep (a :: pre') rest c t hsep hc habs (List.cons_ne_nil _ _)
    have h2 : ¬ sep <:+: pre' := fun hcon => habs (hcon.trans (List.suffix_cons a pre').isInfix)
    simp only [List.cons_append] at h1 ⊢
    rw [cutAt, h1]
    simp only [Bool.false_eq_true, if_false]
    rw [ih h2]

theorem Cut_first (sep rest : Str) (c : Char) (t : Str) (hsep : sep = c :: t) (hc : c ∉ t)
    (pre : Str) (habs : ¬ sep <:+: pre) : Cut (pre ++ sep ++ rest) sep = (pre, rest, true) := by
  unfold Cut
  rw [cutAt_first sep rest c t hsep hc pre habs]

theorem Split_head (sep rest : Str) (c : Char) (t : Str) (hsep : sep = c :: t) (hc : c ∉ t)
    (pre : Str) (habs : ¬ sep <:+: pre) : (Split (pre ++ sep ++ rest) sep).headD [] = pre := by
  unfold Split
  have hlen : (pre ++ sep ++ rest).length = (pre.length + t.length + rest.length) + 1 := by
    rw [hsep]
    simp only [List.length_append, List.length_cons]
    omega
  rw [hlen, splitLoop, cutAt_first sep rest c t hsep hc pre habs]
  rfl

theorem not_waiting_of_delim (pre rest : Str) (hwait : ¬ waitingMarker <+: pre) :
    ¬ waitingMarker <+: pre ++ toolCallDelim ++ rest := by
  intro hp
  rw [List.append_assoc] at hp
  have hp2 : pre <+: pre ++ (toolCallDelim ++ rest) := List.prefix_append _ _
  rcases Nat.le_total waitingMarker.length pre.length with hle | hle
  · exact hwait (List.prefix_of_prefix_length_le hp hp2 hle)
  · obtain ⟨v, hv⟩ := List.prefix_of_prefix_length_le hp2 hp hle
    rw [← hv, List.prefix_append_right_inj] at hp
    cases v with
    | nil =>
      rw [List.append_nil] at hv
      exact hwait (hv ▸ List.prefix_refl pre)
    | cons d v' =>
      obtain ⟨w, hw⟩ := hp
      have hd : d = '<' := by
        simp only [toolCallDelim, List.cons_append, List.cons.injEq] at hw
        exact hw.1
      have hmem : d ∈ waitingMarker := by
        rw [← hv]
        simp
      rw [hd] at hmem
      exact absurd hmem (by decide)

theorem TrimPrefix_append (p s : Str) : TrimPrefix (p ++ s) p = s := by
  have h : HasPrefix (p ++ s) p = true := (HasPrefix_iff _ _).mpr (List.prefix_append _ _)
  simp [TrimPrefix, h]

/-- C11. When `current` is `last` followed by a text `pre` that holds no tool-call delimiter and
does not begin with the waiting marker, the delimiter, a name that does not contain ` ->`, the
text ` -> ` and a payload, `printString` sends exactly one event, whose `Content` is `pre`,
whose `ToolInput` has the name as `InternalToolName` and the payload as `Content` and whose
`WaitingOnModel` is false, and it returns `current`. -/
theorem tool_call_in_delta (time : Nat) (runID : Str) (i : Nat) (last pre name payload : Str)
    (hpre : ¬ toolCallDelim <:+: pre) (hwait : ¬ waitingMarker <+: pre)
    (hname : ¬ " ->".data <:+: name) :
    printString time runID i last
        (last ++ pre ++ toolCallDelim ++ name ++ " -> ".data ++ payload) =
      ([{ RunID := runID
          Time := time
          Content := pre
          ContentID := contentID runID i
          ToolInput := some { Content := payload, InternalToolName := name }
          WaitingOnModel := false }],
        last ++ pre ++ toolCallDelim ++ name ++ " -> ".data ++ payload) := by
  have hshape : last ++ pre ++ toolCallDelim ++ name ++ " -> ".data ++ payload =
      last ++ (pre ++ toolCallDelim ++ (name ++ " -> ".data ++ payload)) := by
    simp only [List.append_assoc]
  have hp : HasPrefix (last ++ (pre ++ toolCallDelim ++ (name ++ " -> ".data ++ payload))) last
      = true := (HasPrefix_iff _ _).mpr (List.prefix_append _ _)
  have hw : HasPrefix (pre ++ toolCallDelim ++ (name ++ " -> ".data ++ payload)) waitingMarker
      = false := by
    rw [Bool.eq_false_iff]
    exact fun hcon => not_waiting_of_delim pre _ hwait ((HasPrefix_iff _ _).mp hcon)
  have hcut : Cut (pre ++ toolCallDelim ++ (name ++ " -> ".data ++ payload)) toolCallDelim =
      (pre, name ++ " -> ".data ++ payload, true) :=
    Cut_first toolCallDelim _ '<' "tool call> ".data rfl (by decide) pre hpre
  have hsplit : (Split (name ++ " -> ".data ++ payload) " ->".data).headD [] = name := by
    have h := Split_head " ->".data (" ".data ++ payload) ' ' "->".data rfl (by decide) name
      hname
    have hs : name ++ " ->".data ++ (" ".data ++ payload) = name ++ " -> ".data ++ payload := by
      simp
    rw [hs] at h
    exact h
  rw [hshape, printString, if_pos hp, List.drop_left]
  unfold printDelta
  simp only [CutPrefix, hw, hcut, hsplit, Bool.false_eq_true, if_false, if_true,
    TrimPrefix_append]

/-- C11, at the delta `pre<tool call> foo -> [x]` after `ab`. -/
theorem tool_call_in_delta_witness :
    printString 1 "r".data 0 "ab".data "abpre<tool call> foo -> [x]".data =
      ([{ RunID := "r".data
          Time := 1
          Content := "pre".data
          ContentID := "r-0".data
          ToolInput := some { Content := "[x]".data, InternalToolName := "foo".data }
          WaitingOnModel := false }],
        "abpre<tool call> foo -> [x]".data) :=
  tool_call_in_delta 1 "r".data 0 "ab".data "pre".data "foo".data "[x]".data
    (by decide) (by decide) (by decide)

/-! ## C12: the tool-call delimiter carried over from a previous delta -/

theorem cutAt_isSome_of_present (sep : Str) (s : Str) (h : sep <:+: s) :
    ∃ before after, cutAt sep s = some (before, after) := by
  induction s with
  | nil =>
    have hsep : sep = [] := List.eq_nil_of_infix_nil h
    subst hsep
    exact ⟨[], [], by simp [cutAt, HasPrefix]⟩
  | cons c t ih =>
    by_cases hp : HasPrefix (c :: t) sep = true
    · exact ⟨[], (c :: t).drop sep.length, by rw [cutAt, if_pos hp]⟩
    · have ht : sep <:+: t := by
        rcases List.infix_cons_iff.mp h with h1 | h1
        · exact absurd ((HasPrefix_iff _ _).mpr h1) hp
        · exact h1
      obtain ⟨b, a, hba⟩ := ih ht
      exact ⟨c :: b, a, by rw [cutAt, if_neg hp, hba]⟩

/-- The event that `printDelta` sends for a delta without delimiter when the current content
holds one: no `ToolInput` and an empty `Content`, so that the delta is not delivered. -/
theorem printDelta_carried (time : Nat) (runID : Str) (i : Nat) (current toPrint : Str)
    (hcur : toolCallDelim <:+: current) (hdelta : ¬ toolCallDelim <:+: toPrint) :
    ∃ ev, (printDelta time runID i current toPrint).1 = [ev] ∧ ev.ToolInput = none ∧
      ev.Content = [] := by
  have hrest : ¬ toolCallDelim <:+: (CutPrefix toPrint waitingMarker).1 := by
    unfold CutPrefix
    split
    · exact fun hcon => hdelta (hcon.trans (List.drop_suffix _ _).isInfix)
    · exact hdelta
  obtain ⟨b, a, hba⟩ := cutAt_isSome_of_present toolCallDelim current hcur
  have hcut : Cut current toolCallDelim = (b, a, true) := by
    unfold Cut
    rw [hba]
  unfold printDelta
  generalize CutPrefix toPrint waitingMarker = cp at hrest
  obtain ⟨tp, w⟩ := cp
  simp only at hrest
  simp only [Cut_of_absent _ _ hrest, hcut, Bool.false_eq_true, if_false, if_true]
  exact ⟨_, rfl, rfl, rfl⟩

theorem printString_carried (time : Nat) (runID : Str) (i : Nat) (last delta : Str)
    (hlast : toolCallDelim <:+: last) (hdelta : ¬ toolCallDelim <:+: delta) :
    ∃ ev, (printString time runID i last (last ++ delta)).1 = [ev] ∧ ev.ToolInput = none ∧
      ev.Content = [] := by
  have hp : HasPrefix (last ++ delta) last = true :=
    (HasPrefix_iff _ _).mpr (List.prefix_append _ _)
  rw [printString, if_pos hp, List.drop_left]
  exact printDelta_carried time runID i (last ++ delta) delta
    (hlast.trans (List.prefix_append _ _).isInfix) hdelta

/-- C12, at the failing input.  The previous content `<tool call> foo -> ` has started a
tool-call block and the revision appends the delta `[x`, which holds no delimiter: the event
that `printString` sends has an empty `Content` and no `ToolInput`, not the `ToolInput` with the
name `foo` and the content `[x`; the delta is delivered in no field. -/
theorem tool_call_carried_dropped :
    printString 1 "r".data 0 "<tool call> foo -> ".data "<tool call> foo -> [x".data =
        ([{ RunID := "r".data
            Time := 1
            Content := []
            ContentID := "r-0".data
            ToolInput := none
            WaitingOnModel := false }],
          "<tool call> foo -> [x".data) ∧
      (printString 1 "r".data 0 "<tool call> foo -> ".data
          "<tool call> foo -> [x".data).1.map Progress.ToolInput ≠
        [some { Content := "[x".data, InternalToolName := "foo".data }] := by
  refine ⟨by decide, by decide⟩

/-! ## C13: the decision to chain -/

/-- C13 (amended). When `follow` is true, `findNextRun` lists the runs whose previous-run label
is the name of the current run, returns the first item of a non-empty list as the next run and
returns the error of a failed list; when `follow` is false it returns no next run and no error
whatever the store holds, for a run of a workflow as for a bare run. -/
theorem chaining_decision (e : Emitter) (run : Run) :
    (∀ first rest, e.client.listRunsAfter run.Namespace run.Name = .ok (first :: rest) →
        findNextRun e run true = some (.ok (some first))) ∧
      (∀ err, e.client.listRunsAfter run.Namespace run.Name = .error err →
        findNextRun e run true = some (.error err)) ∧
      (∀ e' : Emitter, findNextRun e' run false = some (.ok none)) := by
  refine ⟨?_, ?_, ?_⟩
  · intro first rest h
    simp [findNextRun, h]
  · intro err h
    simp [findNextRun, h]
  · intro e'
    exact findNextRun_no_follow e' run

/-- C13, at a bare run and at a workflow run of the store in which `n1` follows every run. -/
theorem chaining_decision_witness :
    findNextRun followedEmitter { Name := "r".data } true =
        some (.ok (some { Name := "n1".data, PreviousRunName := "r".data })) ∧
      findNextRun followedEmitter { Name := "r".data, WorkflowExecutionName := "w".data } false =
        some (.ok none) :=
  ⟨(chaining_decision followedEmitter { Name := "r".data }).1
      { Name := "n1".data, PreviousRunName := "r".data } [] rfl,
    (chaining_decision followedEmitter
      { Name := "r".data, WorkflowExecutionName := "w".data }).2.2 followedEmitter⟩

/-- C13 as stated fails: the run belongs to a workflow, `follow` is false and the list of the
runs that follow it is not empty, yet `findNextRun` returns no next run. -/
theorem chaining_decision_counterexample :
    followedEmitter.client.listRunsAfter [] "r".data =
        .ok [{ Name := "n1".data, PreviousRunName := "r".data }] ∧
      findNextRun followedEmitter { Name := "r".data, WorkflowExecutionName := "w".data } false =
        some (.ok none) ∧
      findNextRun followedEmitter { Name := "r".data, WorkflowExecutionName := "w".data } false ≠
        some (.ok (some { Name := "n1".data, PreviousRunName := "r".data })) := by
  refine ⟨rfl, rfl, ?_⟩
  intro h
  have h' : (some (Except.ok none) : Option (Except GoError (Option Run))) =
      some (.ok (some { Name := "n1".data, PreviousRunName := "r".data })) := h
  simp at h'

/-! ## C16: a root frame that has not started -/

theorem findRoot_start_zero (frames : Frames)
    (h : ∀ kv ∈ frames, kv.2.ParentID = [] → kv.2.Start = 0) : (findRoot frames).Start = 0 := by
  unfold findRoot
  cases hf : frames.find? (fun kv => decide (kv.2.ParentID = [])) with
  | none => rfl
  | some kv =>
    have hmem := List.mem_of_find?_eq_some hf
    have hp := List.find?_some hf
    exact h kv hmem (by simpa using hp)

/-- C16. When no frame of the map has an empty `ParentID`, or every frame with an empty
`ParentID` has a zero start time, `callToEvents` sends no event, returns no error and leaves the
print state as it was. -/
theorem unstarted_root (e : Emitter) (ns runID : Str) (prg : Program) (frames : Frames)
    (printed : printState)
    (h : (∀ kv ∈ frames, kv.2.ParentID ≠ []) ∨
      (∀ kv ∈ frames, kv.2.ParentID = [] → kv.2.Start = 0)) :
    callToEvents e ns runID prg frames printed = ([], printed, none) := by
  apply callToEvents_unstarted
  right
  apply findRoot_start_zero
  rcases h with h | h
  · exact fun kv hkv hp => absurd hp (h kv hkv)
  · exact h

/-- C16, at a frame map whose root frame has a zero start time and an input and an output. -/
theorem unstarted_root_witness :
    callToEvents plainEmitter [] "r".data {}
        [("f".data, { ID := "f".data, Start := 0, Input := "hello".data,
                      Output := [{ Content := "out".data }] })]
        (newPrintState none) = ([], newPrintState none, none) :=
  unstarted_root plainEmitter [] "r".data {}
    [("f".data, { ID := "f".data, Start := 0, Input := "hello".data,
                  Output := [{ Content := "out".data }] })]
    (newPrintState none) (Or.inr (by decide))

/-! ## C14: the thread boundary of the history -/

theorem printParent_at_boundary (e : Emitter) (fuel : Nat) (state : printState) (run parent : Run)
    (hprev : run.PreviousRunName ≠ [])
    (hget : e.client.getRun run.Namespace run.PreviousRunName = .ok parent)
    (hthread : threadMismatch parent run = true) :
    printParent e (fuel + 1) state run = ([], state, .returned none) := by
  rw [printParent]
  simp [hprev, hget, hthread]

theorem printParent_to_boundary (e : Emitter) (newer : List Run) :
    ∀ (run : Run) (fuel : Nat) (state : printState),
      IsWalkToBoundary e newer run → newer.length < fuel →
      (streamRuns e newer.reverse state).2.2 = .returned none →
      printParent e fuel state run = streamRuns e newer.reverse state := by
  induction newer with
  | nil =>
    intro run fuel state hwalk hfuel _
    cases fuel with
    | zero => simp at hfuel
    | succ fuel =>
      obtain ⟨hprev, parent, hget, hthread⟩ := hwalk
      rw [printParent_at_boundary e fuel state run parent hprev hget hthread]
      rfl
  | cons parent older ih =>
    intro run fuel state hwalk hfuel hok
    cases fuel with
    | zero => simp at hfuel
    | succ fuel =>
      obtain ⟨hprev, hget, hthread, hrest⟩ := hwalk
      simp only [List.reverse_cons] at hok ⊢
      obtain ⟨h1, h2, h3⟩ := streamRuns_append_singleton e older.reverse parent state hok
      have hrec := ih parent fuel state hrest (by simpa using hfuel) h1
      rw [h3, printParent]
      simp only [hprev, if_false, hget, hthread, Bool.false_eq_true, hrec]
      generalize streamRuns e older.reverse state = r at h1 h2 ⊢
      obtain ⟨sent, st, out⟩ := r
      simp only at h1 h2 ⊢
      subst h1
      simp only [IsNotFound, Bool.not_false, ne_eq, not_true_eq_false, and_false, if_false,
        Bool.false_eq_true]
      generalize printRun e st parent = r2 at h2 ⊢
      obtain ⟨more, st2, out2⟩ := r2
      simp only at h2 ⊢
      subst h2
      simp [IsNotFound, Join]

/-- C14 (amended). The walk of `printParent` compares the thread name of each ancestor with that
of the run whose previous run it is.  When an ancestor held by the store and the run that names
it as previous run both have a thread name and the two differ, the walk stops there: with the
runs between the original run and that run free of such a mismatch and streamed to the end
without error, `printParent` streams exactly these runs, oldest first, and neither the
mismatching ancestor nor any older one. -/
theorem thread_boundary :
    (∀ (e : Emitter) (fuel : Nat) (state : printState) (run parent : Run),
        run.PreviousRunName ≠ [] →
        e.client.getRun run.Namespace run.PreviousRunName = .ok parent →
        parent.ThreadName ≠ [] → run.ThreadName ≠ [] → parent.ThreadName ≠ run.ThreadName →
        printParent e (fuel + 1) state run = ([], state, .returned none)) ∧
      (∀ (e : Emitter) (newer : List Run) (run : Run) (fuel : Nat) (state : printState),
        IsWalkToBoundary e newer run → newer.length < fuel →
        (streamRuns e newer.reverse state).2.2 = .returned none →
        printParent e fuel state run = streamRuns e newer.reverse state) := by
  refine ⟨?_, ?_⟩
  · intro e fuel state run parent hprev hget h1 h2 h3
    exact printParent_at_boundary e fuel state run parent hprev hget
      (by simp [threadMismatch, h1, h2, h3])
  · intro e newer run fuel state hwalk hfuel hok
    exact printParent_to_boundary e newer run fuel state hwalk hfuel hok

/-- C14, at a run of thread `t1` whose previous run `p` is of thread `t2`: nothing is
streamed. -/
theorem thread_boundary_witness :
    (printParent boundaryEmitter 1 (newPrintState none)
      { Name := "s".data, PreviousRunName := "p".data, ThreadName := "t1".data }).1 = [] := by
  rw [thread_boundary.1 boundaryEmitter 0 (newPrintState none)
    { Name := "s".data, PreviousRunName := "p".data, ThreadName := "t1".data }
    { Name := "p".data, ThreadName := "t2".data } (by decide) rfl (by decide) (by decide)
    (by decide)]

/-- C14 as stated fails: the walk starts from `r` of thread `t1` and reaches, through `q` of no
thread, the ancestor `p` whose thread `t2` is non-empty and differs from that of `r`; the walk
does not stop at `p`, whose event is streamed first. -/
theorem thread_boundary_counterexample :
    boundaryEmitter.client.getRun [] "q".data =
        .ok { Name := "q".data, PreviousRunName := "p".data } ∧
      boundaryEmitter.client.getRun [] "p".data =
        .ok { Name := "p".data, ThreadName := "t2".data } ∧
      (printParent boundaryEmitter 3 (newPrintState none)
        { Name := "r".data, PreviousRunName := "q".data, ThreadName := "t1".data }).1 =
        [{ RunID := "p".data, Content := "x".data }, { RunID := "q".data, Content := "x".data }] := by
  refine ⟨rfl, rfl, by decide⟩

/-! ## C15: the broker is append-only and keeps the runs apart -/

theorem apply_other (liveStates : LiveStates) (call : BrokerCall) (r : Str)
    (h : call.run.Name ≠ r) : call.apply liveStates r = liveStates r := by
  cases call <;>
    simp only [BrokerCall.apply, Submit, SubmitProgress, Done, ClearProgress, BrokerCall.run]
      at h ⊢ <;>
    exact Function.update_noteq (Ne.symm h) _ _

theorem apply_same (liveStates : LiveStates) (call : BrokerCall) :
    call.apply liveStates call.run.Name =
      match call.entry with
      | some entry => liveStates call.run.Name ++ [entry]
      | none => [] := by
  cases call <;>
    simp [BrokerCall.apply, Submit, SubmitProgress, Done, ClearProgress, BrokerCall.run,
      BrokerCall.entry]

theorem mem_applyCalls (calls : List BrokerCall) :
    ∀ (liveStates : LiveStates) (r : Str), ∀ x ∈ applyCalls calls liveStates r,
      x ∈ liveStates r ∨ ∃ call ∈ calls, call.run.Name = r ∧ call.entry = some x := by
  induction calls with
  | nil => intro liveStates r x hx; exact Or.inl hx
  | cons call rest ih =>
    intro liveStates r x hx
    simp only [applyCalls, List.foldl_cons] at hx
    rcases ih (call.apply liveStates) r x hx with h | ⟨c, hc, hr, he⟩
    · by_cases hrun : call.run.Name = r
      · subst hrun
        rw [apply_same] at h
        cases hentry : call.entry with
        | none => rw [hentry] at h; simp at h
        | some entry =>
          rw [hentry] at h
          simp only [List.mem_append, List.mem_singleton] at h
          rcases h with h | h
          · exact Or.inl h
          · exact Or.inr ⟨call, List.mem_cons_self _ _, rfl, by rw [hentry, h]⟩
      · rw [apply_other _ _ _ hrun] at h
        exact Or.inl h
    · exact Or.inr ⟨c, List.mem_cons_of_mem _ hc, hr, he⟩

/-- C15. Each of `Submit`, `SubmitProgress` and `Done` on a run appends exactly one entry (a
trace entry, a progress entry, the completion marker) at the end of the sequence of that run
and leaves the sequence of every other run name unchanged; `ClearProgress` on a run removes the
whole sequence of that run and leaves every other one unchanged; hence, after any sequence of
calls, every entry of the slice that the consumer of a run reads from its cursor on was already
in the sequence of that run or has been submitted for that run. -/
theorem broker_append_only :
    (∀ (liveStates : LiveStates) (run : Run) (prg : Program) (frames : Frames),
        Submit liveStates run prg frames run.Name =
            liveStates run.Name ++ [{ Prg := prg, Frames := frames }] ∧
          ∀ other, other ≠ run.Name → Submit liveStates run prg frames other = liveStates other) ∧
      (∀ (liveStates : LiveStates) (run : Run) (progress : Progress),
        SubmitProgress liveStates run progress run.Name =
            liveStates run.Name ++ [{ Progress := some progress }] ∧
          ∀ other, other ≠ run.Name →
            SubmitProgress liveStates run progress other = liveStates other) ∧
      (∀ (liveStates : LiveStates) (run : Run),
        Done liveStates run run.Name = liveStates run.Name ++ [{ Done := true }] ∧
          ∀ other, other ≠ run.Name → Done liveStates run other = liveStates other) ∧
      (∀ (liveStates : LiveStates) (run : Run),
        ClearProgress liveStates run run.Name = [] ∧
          ∀ other, other ≠ run.Name → ClearProgress liveStates run other = liveStates other) ∧
      (∀ (calls : List BrokerCall) (liveStates : LiveStates) (r : Str) (liveIndex : Nat),
        ∀ x ∈ (applyCalls calls liveStates r).drop liveIndex,
          x ∈ liveStates r ∨ ∃ call ∈ calls, call.run.Name = r ∧ call.entry = some x) := by
  refine ⟨?_, ?_, ?_, ?_, ?_⟩
  · intro liveStates run prg frames
    exact ⟨Function.update_same _ _ _, fun other h => Function.update_noteq h _ _⟩
  · intro liveStates run progress
    exact ⟨Function.update_same _ _ _, fun other h => Function.update_noteq h _ _⟩
  · intro liveStates run
    exact ⟨Function.update_same _ _ _, fun other h => Function.update_noteq h _ _⟩
  · intro liveStates run
    exact ⟨Function.update_same _ _ _, fun other h => Function.update_noteq h _ _⟩
  · intro calls liveStates r liveIndex x hx
    exact mem_applyCalls calls liveStates r x (List.mem_of_mem_drop hx)

/-- C15, at entries submitted for the run `a` while a consumer watches the run `b`: the sequence
of `b` stays empty. -/
theorem broker_append_only_witness :
    applyCalls [.submit { Name := "a".data } {} [], .done { Name := "a".data }]
        (fun _ => []) "b".data = [] ∧
      applyCalls [.submit { Name := "a".data } {} [], .done { Name := "a".data }]
        (fun _ => []) "a".data = [{ Prg := {}, Frames := [] }, { Done := true }] ∧
      ∀ x ∈ (applyCalls [.submit { Name := "a".data } {} [], .done { Name := "a".data }]
          (fun _ => []) "b".data).drop 0,
        x ∈ (fun _ => [] : LiveStates) "b".data ∨
          ∃ call ∈ [BrokerCall.submit { Name := "a".data } {} [],
              BrokerCall.done { Name := "a".data }],
            call.run.Name = "b".data ∧ call.entry = some x :=
  ⟨by decide, by decide,
    broker_append_only.2.2.2.2 [.submit { Name := "a".data } {} [], .done { Name := "a".data }]
      (fun _ => []) "b".data 0⟩

/-! ## C1: idempotent diffing and the order of the visit of the frame map -/

/-- C1. Idempotent diffing, for a frame map that holds at most one frame with an empty
`ParentID`: when `callToEvents` returns without error on a snapshot, a second call on the same
snapshot with the state left by the first call sends no event at all, whatever the order in
which the second call visits the frame map. -/
theorem callToEvents_idempotent (e : Emitter) (ns runID : Str) (prg : Program)
    (frames frames' : Frames) (printed : printState) (hperm : frames.Perm frames')
    (hroot : (frames.filter (fun kv => decide (kv.2.ParentID = []))).length ≤ 1)
    (h : (callToEvents e ns runID prg frames printed).2.2 = none) :
    events (callToEvents e ns runID prg frames'
      (callToEvents e ns runID prg frames printed).2.1).1 = [] := by
  have hsame : ∀ p,
      callToEvents e ns runID prg frames' p = callToEvents e ns runID prg frames p := by
    intro p
    unfold callToEvents
    rw [findRoot_perm frames frames' hperm hroot]
  rw [hsame]
  exact callToEvents_second_pass e ns runID prg frames printed h

/-- C1, at the snapshot of the scenario with a nested frame, the second call visiting the frame
map in the opposite order. -/
theorem callToEvents_idempotent_witness :
    nestedFrames.Perm nestedFrames.reverse ∧
      (nestedFrames.filter (fun kv => decide (kv.2.ParentID = []))).length ≤ 1 ∧
      (callToEvents plainEmitter [] "r".data {} nestedFrames (newPrintState none)).2.2 = none ∧
      events (callToEvents plainEmitter [] "r".data {} nestedFrames.reverse
        (callToEvents plainEmitter [] "r".data {} nestedFrames
          (newPrintState none)).2.1).1 = [] :=
  ⟨(List.reverse_perm nestedFrames).symm, by decide, by decide,
    callToEvents_idempotent plainEmitter [] "r".data {} nestedFrames nestedFrames.reverse
      (newPrintState none) (List.reverse_perm nestedFrames).symm (by decide) (by decide)⟩

/-- C1 fails for a frame map with two frames of empty `ParentID`: the first call visits `a`
first and returns without error, and the second call, which visits the same map with `b`
first, sends the input and the content of `b`. -/
theorem callToEvents_idempotent_counterexample :
    twoRootFrames.reverse.Perm twoRootFrames ∧
      (callToEvents plainEmitter [] "r".data {} twoRootFrames (newPrintState none)).2.2 = none ∧
      events (callToEvents plainEmitter [] "r".data {} twoRootFrames.reverse
        (callToEvents plainEmitter [] "r".data {} twoRootFrames (newPrintState none)).2.1).1 =
        [{ RunID := "r".data, Time := 2, Content := "\n".data, Input := "ib".data },
         { RunID := "r".data, Time := 2, Content := "ob".data, ContentID := "r-0".data }] :=
  ⟨List.reverse_perm twoRootFrames, by decide, by decide⟩

/-! ## C8: the error of an ancestor joined to a not-found error -/

/-- An error joined after a not-found error passes `IsNotFound`, whatever it is: this is how
`printParent` makes the error of `printRun` look like the not-found error it has set aside. -/
theorem IsNotFound_Join (errNotFound err : Option GoError) (h : IsNotFound errNotFound = true) :
    IsNotFound (Join errNotFound err) = true := by
  cases errNotFound with
  | none => simp [IsNotFound] at h
  | some a =>
    cases err with
    | none => simpa [Join, IsNotFound, GoError.IsNotFound, GoError.firstStatus] using h
    | some b =>
      simp only [IsNotFound, GoError.IsNotFound, decide_eq_true_eq] at h
      simp [Join, IsNotFound, GoError.IsNotFound, GoError.firstStatus, h]

/-- When the walk of `printParent` above the parent of a run ends with a not-found error, the
call for the run returns an error that passes `IsNotFound`, whatever the streaming of the
parent returns. -/
theorem printParent_notFound (e : Emitter) (fuel : Nat) (state state1 state2 : printState)
    (run parent : Run) (sent more : List Progress) (errNotFound err : Option GoError)
    (hprev : run.PreviousRunName ≠ [])
    (hget : e.client.getRun run.Namespace run.PreviousRunName = .ok parent)
    (hthread : threadMismatch parent run = false)
    (hwalk : printParent e fuel state parent = (sent, state1, .returned errNotFound))
    (hnf : IsNotFound errNotFound = true)
    (hrun : printRun e state1 parent = (more, state2, .returned err)) :
    printParent e (fuel + 1) state run =
        (sent ++ more, state2, .returned (Join errNotFound err)) ∧
      IsNotFound (Join errNotFound err) = true := by
  refine ⟨?_, IsNotFound_Join errNotFound err hnf⟩
  rw [printParent]
  simp [hprev, hget, hthread, hwalk, hnf, hrun]

/-- C8 fails in the code when the record is one of an ancestor whose own predecessor is missing
from the store.  The run `c` follows `b`, `b` follows `a`, and the durable record of `b` has
`Done = true` and the error `boom`.  With `a` missing, the streaming of `b` ends with the error
`boom`, `printParent` joins it to the not-found error of `a`, the joined error passes
`IsNotFound`, and `streamEvents` drops it: it streams `c`, closes the channel and returns nil,
and no event carries `boom`.  With `a` in the store, the same record ends the stream with the
terminal event that carries `boom`, and so it does with `a` missing when `b` is the run
watched. -/
theorem durable_failure_swallowed :
    (printRun (historyEmitter false) (newPrintState none)
        { Name := "b".data, PreviousRunName := "a".data }).2.2 =
        .returned (some (.plain "boom".data)) ∧
      (printParent (historyEmitter false) 3 (newPrintState none)
        { Name := "c".data, PreviousRunName := "b".data }).2.2 =
        .returned (some (.joinTwo (.status true "not found".data) (.plain "boom".data))) ∧
      IsNotFound (some (.joinTwo (.status true "not found".data) (.plain "boom".data))) = true ∧
      streamEvents (historyEmitter false) 3 { Name := "c".data, PreviousRunName := "b".data }
          { History := true } =
        { delivered := [{ RunID := "c".data, Content := "x".data }]
          closed := true
          retErr := none } ∧
      streamEvents (historyEmitter true) 3 { Name := "c".data, PreviousRunName := "b".data }
          { History := true } =
        { delivered := [{ RunID := "a".data, Content := "x".data },
                        { RunID := "c".data, Time := 7, Error := "boom".data }]
          closed := true
          retErr := some (.joinOne (.plain "boom".data)) } ∧
      streamEvents (historyEmitter false) 3 { Name := "b".data, PreviousRunName := "a".data }
          { History := true } =
        { delivered := [{ RunID := "b".data, Time := 7, Error := "boom".data }]
          closed := true
          retErr := some (.plain "boom".data) } := by
  refine ⟨by decide, by decide, by decide, by decide, by decide, by decide⟩

end Events
